import Mathlib

/-!
# gtsam: ISAM2 implementation helpers (`gtsam/nonlinear/ISAM2-impl.cpp`)

A shallow embedding of the static helpers of `ISAM2::Impl` and theorems about them.

Modelling conventions.
* `Key` is an unsigned machine word; no arithmetic is done on keys, so it is a `Nat`.
* `FastSet<Key>` is a `std::set`: a finite set of keys (`Finset Key`).
* `VectorValues`, `Values` and `FastMap<char,Vector>` are `std::map`s: the list of their
  entries in iteration order.  A well formed store has strictly increasing keys
  (`VectorValues.WF`); the functions neither check nor need it.
* A `double` is a finite value or an infinity (`Double`); NaN is left out, comparisons and
  absolute values of the remaining doubles are exact.
* A C++ exception is an `Except.error`.
* `Symbol(key).chr()`, the type tag of a key, is a parameter `chr : Key → Char`; the manifold
  operations `Value::retract_` and `Value::dim` are parameters as well.
-/

namespace gtsam

/-! ## Scalars and vectors -/

/-- A `double` other than NaN.  Every finite double is a rational number. -/
inductive Double where
  | negInf : Double
  | fin (q : ℚ) : Double
  | posInf : Double
deriving DecidableEq

namespace Double

instance : Zero Double := ⟨fin 0⟩

instance : Inhabited Double := ⟨fin 0⟩

/-- The order of the doubles: `-inf` below and `+inf` above every finite value. -/
protected def le : Double → Double → Prop
  | negInf, _ => True
  | fin _, negInf => False
  | fin a, fin b => a ≤ b
  | fin _, posInf => True
  | posInf, negInf => False
  | posInf, fin _ => False
  | posInf, posInf => True

instance : LE Double := ⟨Double.le⟩

instance : LT Double := ⟨fun a b => a ≤ b ∧ ¬ b ≤ a⟩

instance decLe : (a b : Double) → Decidable (a ≤ b)
  | negInf, _ => isTrue trivial
  | fin _, negInf => isFalse id
  | fin a, fin b => inferInstanceAs (Decidable (a ≤ b))
  | fin _, posInf => isTrue trivial
  | posInf, negInf => isFalse id
  | posInf, fin _ => isFalse id
  | posInf, posInf => isTrue trivial

instance : LinearOrder Double where
  le_refl := fun a => by
    cases a
    · trivial
    · exact le_refl (_ : ℚ)
    · trivial
  le_trans := fun a b c hab hbc => by
    have key : ∀ x y z : ℚ, x ≤ y → y ≤ z → x ≤ z := fun _ _ _ => le_trans
    cases a <;> cases b <;> cases c <;>
      first
        | trivial
        | exact absurd hab id
        | exact absurd hbc id
        | exact key _ _ _ hab hbc
  le_antisymm := fun a b hab hba => by
    have key : ∀ x y : ℚ, x ≤ y → y ≤ x → x = y := fun _ _ => le_antisymm
    cases a <;> cases b <;>
      first
        | rfl
        | exact absurd hab id
        | exact absurd hba id
        | exact congrArg fin (key _ _ hab hba)
  le_total := fun a b => by
    have key : ∀ x y : ℚ, x ≤ y ∨ y ≤ x := le_total
    cases a <;> cases b <;>
      first
        | exact Or.inl trivial
        | exact Or.inr trivial
        | exact key _ _
  lt_iff_le_not_le := fun _ _ => Iff.rfl
  decidableLE := decLe

/-- The absolute value of a double (`std::abs`, Eigen's `array().abs()`). -/
protected def abs : Double → Double
  | negInf => posInf
  | fin q => fin |q|
  | posInf => posInf

/-- The function `std::isfinite`. -/
def isFinite : Double → Bool
  | fin _ => true
  | _ => false

end Double

/-- An Eigen dynamic column vector of doubles. -/
abbrev Vector := List Double

/-- Number of rows of a vector (`rows()`, `size()`). -/
def Vector.rows (v : Vector) : Nat := v.length

/-- The vector `Vector::Constant(n, x)`. -/
def Vector.Constant (n : Nat) (x : Double) : Vector := List.replicate n x

/-- The member `allFinite()`. -/
def Vector.allFinite (v : Vector) : Bool := v.all Double.isFinite

/-- Eigen's `lpNorm<Eigen::Infinity>()`: the largest absolute coefficient, `0` for a vector
without coefficients. -/
def Vector.lpNormInf : Vector → Double
  | [] => 0
  | x :: xs => xs.foldl (fun m y => max m y.abs) x.abs

/-- Eigen's `(a.array().abs() > b.array()).any()` for two vectors of the same length. -/
def Vector.anyAbsGt (a b : Vector) : Bool :=
  (List.zipWith (fun x t => decide (x.abs > t)) a b).any id

/-! ## Stores -/

/-- A variable key. -/
abbrev Key := Nat

/-- The type `FastSet<Key>`: an ordered set of keys. -/
abbrev FastSet := Finset Key

/-- The type `FastMap<char,Vector>`: the entries in iteration order. -/
abbrev FastMap := List (Char × Vector)

/-- The type `VectorValues`: the `(key, vector)` entries in iteration order. -/
abbrev VectorValues := List (Key × Vector)

/-- The C++ exceptions and run-time failures of the embedded functions. -/
inductive Error where
  /-- The exception `std::invalid_argument` with its message. -/
  | invalid_argument (what : String)
  /-- The exception `std::out_of_range`, thrown by `VectorValues::at` for a key without
  entry. -/
  | out_of_range (j : Key)
  /-- Dereferencing the `end()` iterator returned by an unsuccessful `find`. -/
  | end_dereferenced
  /-- A failed `assert` (builds without `NDEBUG` only). -/
  | assertion_failed
  /-- The exception of an insertion of a key that the store already holds
  (`ValuesKeyAlreadyExists`). -/
  | key_already_exists (j : Key)
  /-- The exception of a removal of a key that the store does not hold
  (`ValuesKeyDoesNotExist`). -/
  | key_does_not_exist (j : Key)
deriving DecidableEq

/-- The map invariant of a store: strictly increasing keys. -/
def VectorValues.WF (delta : VectorValues) : Prop :=
  (delta.map Prod.fst).Pairwise (· < ·)

instance (delta : VectorValues) : Decidable delta.WF :=
  inferInstanceAs (Decidable ((delta.map Prod.fst).Pairwise (· < ·)))

/-- The member `VectorValues::find`: the entry of key `j`, if there is one. -/
def VectorValues.find (delta : VectorValues) (j : Key) : Option Vector :=
  List.lookup j delta

/-- The member `VectorValues::operator[]` (`at`): the vector of key `j`; throws
`std::out_of_range` when the store has no entry for `j`. -/
def VectorValues.at (delta : VectorValues) (j : Key) : Except Error Vector :=
  match delta.find j with
  | some v => .ok v
  | none => .error (.out_of_range j)

/-- The expression `thresholds.find(c)->second`: the threshold vector of type tag `c`;
dereferences `end()` when the map has no entry for `c`. -/
def FastMap.findSecond (thresholds : FastMap) (c : Char) : Except Error Vector :=
  match List.lookup c thresholds with
  | some v => .ok v
  | none => .error .end_dereferenced

/-- The type `ISAM2Params::RelinearizationThreshold`, a
`boost::variant<double, FastMap<char,Vector>>`. -/
inductive RelinearizationThreshold where
  | scalar (threshold : Double)
  | perType (thresholds : FastMap)

/-- The message of the `std::invalid_argument` thrown for a threshold vector of the wrong
length; `c` is `Symbol(key).chr()`. -/
def dimensionalityMessage (c : Char) : String :=
  "Relinearization threshold vector dimensionality for '" ++ String.mk [c] ++
    "' passed into iSAM2 parameters does not match actual variable dimensionality."

/-! ## Cliques -/

/-- An `ISAM2Clique`: the frontal keys and the parent (separator) keys of its conditional, in
order, and its children. -/
inductive ISAM2Clique where
  | mk (frontals : List Key) (parents : List Key) (children : List ISAM2Clique)

namespace ISAM2Clique

/-- The keys `conditional()->frontals()`. -/
def frontals : ISAM2Clique → List Key
  | mk f _ _ => f

/-- The keys `conditional()->parents()`. -/
def parents : ISAM2Clique → List Key
  | mk _ p _ => p

/-- The member `children`. -/
def children : ISAM2Clique → List ISAM2Clique
  | mk _ _ c => c

/-- The keys that a loop `BOOST_FOREACH(Key var, *clique->conditional())` visits.  A
conditional is a factor, and the range from its `begin()` to its `end()` holds all its keys, the
frontal keys followed by the parents; `updateDoglegDeltas` says so of the same loop header:
"Check if any frontal or separator keys were recalculated".  The frontal keys alone are the
range `beginFrontals()`..`endFrontals()`, `frontals()`, which `FindAll` and
`updateDoglegDeltas` use where they mean them. -/
def keys (c : ISAM2Clique) : List Key := c.frontals ++ c.parents

end ISAM2Clique

/-! ## Relinearization checks -/

section Relinearization

variable (chr : Key → Char)

/-- The loop of the scalar branch of `CheckRelinearizationFull`. -/
def fullLoopDouble (threshold : Double) : VectorValues → FastSet → FastSet
  | [], relinKeys => relinKeys
  | key_delta :: rest, relinKeys =>
    let maxDelta := key_delta.2.lpNormInf
    if maxDelta ≥ threshold then
      fullLoopDouble threshold rest (insert key_delta.1 relinKeys)
    else
      fullLoopDouble threshold rest relinKeys

/-- The loop of the per-type branch of `CheckRelinearizationFull`; `chr k` is
`Symbol(k).chr()`. -/
def fullLoopMap (thresholds : FastMap) : VectorValues → FastSet → Except Error FastSet
  | [], relinKeys => .ok relinKeys
  | key_delta :: rest, relinKeys =>
    match thresholds.findSecond (chr key_delta.1) with
    | .error e => .error e
    | .ok threshold =>
      if threshold.rows ≠ key_delta.2.rows then
        .error (.invalid_argument (dimensionalityMessage (chr key_delta.1)))
      else if key_delta.2.anyAbsGt threshold then
        fullLoopMap thresholds rest (insert key_delta.1 relinKeys)
      else
        fullLoopMap thresholds rest relinKeys

/-- The function `ISAM2::Impl::CheckRelinearizationFull`. -/
def CheckRelinearizationFull (delta : VectorValues)
    (relinearizeThreshold : RelinearizationThreshold) : Except Error FastSet :=
  match relinearizeThreshold with
  | .scalar threshold => .ok (fullLoopDouble threshold delta ∅)
  | .perType thresholds => fullLoopMap chr thresholds delta ∅

/-- The loop over the keys of one clique in `CheckRelinearizationRecursiveDouble`; the state is
`relinKeys` and the flag `relinearize`. -/
def cliqueLoopDouble (threshold : Double) (delta : VectorValues) :
    List Key → FastSet × Bool → Except Error (FastSet × Bool)
  | [], st => .ok st
  | var :: rest, (relinKeys, relinearize) =>
    match delta.at var with
    | .error e => .error e
    | .ok d =>
      let maxDelta := d.lpNormInf
      if maxDelta ≥ threshold then
        cliqueLoopDouble threshold delta rest (insert var relinKeys, true)
      else
        cliqueLoopDouble threshold delta rest (relinKeys, relinearize)

/-- The loop over the keys of one clique in `CheckRelinearizationRecursiveMap`. -/
def cliqueLoopMap (thresholds : FastMap) (delta : VectorValues) :
    List Key → FastSet × Bool → Except Error (FastSet × Bool)
  | [], st => .ok st
  | var :: rest, (relinKeys, relinearize) =>
    match thresholds.findSecond (chr var) with
    | .error e => .error e
    | .ok threshold =>
      match delta.at var with
      | .error e => .error e
      | .ok deltaVar =>
        if threshold.rows ≠ deltaVar.rows then
          .error (.invalid_argument (dimensionalityMessage (chr var)))
        else if deltaVar.anyAbsGt threshold then
          cliqueLoopMap thresholds delta rest (insert var relinKeys, true)
        else
          cliqueLoopMap thresholds delta rest (relinKeys, relinearize)

mutual
/-- The function `CheckRelinearizationRecursiveDouble`. -/
def CheckRelinearizationRecursiveDouble (threshold : Double) (delta : VectorValues) :
    FastSet → ISAM2Clique → Except Error FastSet
  | relinKeys, .mk frontals parents children =>
    match cliqueLoopDouble threshold delta (frontals ++ parents) (relinKeys, false) with
    | .error e => .error e
    | .ok (relinKeys, relinearize) =>
      if relinearize then
        CheckRelinearizationRecursiveDoubleChildren threshold delta relinKeys children
      else
        .ok relinKeys
/-- The loop over the children in `CheckRelinearizationRecursiveDouble`. -/
def CheckRelinearizationRecursiveDoubleChildren (threshold : Double) (delta : VectorValues) :
    FastSet → List ISAM2Clique → Except Error FastSet
  | relinKeys, [] => .ok relinKeys
  | relinKeys, child :: rest =>
    match CheckRelinearizationRecursiveDouble threshold delta relinKeys child with
    | .error e => .error e
    | .ok relinKeys => CheckRelinearizationRecursiveDoubleChildren threshold delta relinKeys rest
end

mutual
/-- The function `CheckRelinearizationRecursiveMap`. -/
def CheckRelinearizationRecursiveMap (thresholds : FastMap) (delta : VectorValues) :
    FastSet → ISAM2Clique → Except Error FastSet
  | relinKeys, .mk frontals parents children =>
    match cliqueLoopMap chr thresholds delta (frontals ++ parents) (relinKeys, false) with
    | .error e => .error e
    | .ok (relinKeys, relinearize) =>
      if relinearize then
        CheckRelinearizationRecursiveMapChildren thresholds delta relinKeys children
      else
        .ok relinKeys
/-- The loop over the children in `CheckRelinearizationRecursiveMap`. -/
def CheckRelinearizationRecursiveMapChildren (thresholds : FastMap) (delta : VectorValues) :
    FastSet → List ISAM2Clique → Except Error FastSet
  | relinKeys, [] => .ok relinKeys
  | relinKeys, child :: rest =>
    match CheckRelinearizationRecursiveMap thresholds delta relinKeys child with
    | .error e => .error e
    | .ok relinKeys => CheckRelinearizationRecursiveMapChildren thresholds delta relinKeys rest
end

/-- The call that `CheckRelinearizationPartial` makes for one root: the recursive function
of the threshold's kind. -/
def CheckRelinearizationRecursive (delta : VectorValues)
    (relinearizeThreshold : RelinearizationThreshold) (relinKeys : FastSet)
    (clique : ISAM2Clique) : Except Error FastSet :=
  match relinearizeThreshold with
  | .scalar threshold => CheckRelinearizationRecursiveDouble threshold delta relinKeys clique
  | .perType thresholds =>
    CheckRelinearizationRecursiveMap chr thresholds delta relinKeys clique

/-- The loop over the roots in `CheckRelinearizationPartial`. -/
def rootsLoop (delta : VectorValues) (relinearizeThreshold : RelinearizationThreshold) :
    List ISAM2Clique → FastSet → Except Error FastSet
  | [], relinKeys => .ok relinKeys
  | root :: rest, relinKeys =>
    match CheckRelinearizationRecursive chr delta relinearizeThreshold relinKeys root with
    | .error e => .error e
    | .ok relinKeys => rootsLoop delta relinearizeThreshold rest relinKeys

/-- The function `ISAM2::Impl::CheckRelinearizationPartial`. -/
def CheckRelinearizationPartial (roots : List ISAM2Clique) (delta : VectorValues)
    (relinearizeThreshold : RelinearizationThreshold) : Except Error FastSet :=
  rootsLoop chr delta relinearizeThreshold roots ∅

/-! ### The threshold policy and the traversal, stated once for both threshold kinds -/

/-- The test that `CheckRelinearizationRecursiveDouble` applies to one key. -/
def testDouble (threshold : Double) (delta : VectorValues) (var : Key) : Except Error Bool :=
  match delta.at var with
  | .error e => .error e
  | .ok d => .ok (decide (d.lpNormInf ≥ threshold))

/-- The test that `CheckRelinearizationRecursiveMap` applies to one key. -/
def testMap (thresholds : FastMap) (delta : VectorValues) (var : Key) : Except Error Bool :=
  match thresholds.findSecond (chr var) with
  | .error e => .error e
  | .ok threshold =>
    match delta.at var with
    | .error e => .error e
    | .ok deltaVar =>
      if threshold.rows ≠ deltaVar.rows then
        .error (.invalid_argument (dimensionalityMessage (chr var)))
      else
        .ok (deltaVar.anyAbsGt threshold)

/-- The test of one key under a threshold of either kind. -/
def keyTest (delta : VectorValues) : RelinearizationThreshold → Key → Except Error Bool
  | .scalar threshold => testDouble threshold delta
  | .perType thresholds => testMap chr thresholds delta

/-- Key `k` satisfies the threshold: its test succeeds and flags it. -/
def satisfies (delta : VectorValues) (thr : RelinearizationThreshold) (k : Key) : Bool :=
  match keyTest chr delta thr k with
  | .ok b => b
  | .error _ => false

end Relinearization

/-- The loop over the keys of a clique for an arbitrary key test. -/
def scanKeys (test : Key → Except Error Bool) :
    List Key → FastSet × Bool → Except Error (FastSet × Bool)
  | [], st => .ok st
  | var :: rest, (relinKeys, relinearize) =>
    match test var with
    | .error e => .error e
    | .ok true => scanKeys test rest (insert var relinKeys, true)
    | .ok false => scanKeys test rest (relinKeys, relinearize)

mutual
/-- The recursive traversal for an arbitrary key test. -/
def scan (test : Key → Except Error Bool) : FastSet → ISAM2Clique → Except Error FastSet
  | relinKeys, .mk frontals parents children =>
    match scanKeys test (frontals ++ parents) (relinKeys, false) with
    | .error e => .error e
    | .ok (relinKeys, relinearize) =>
      if relinearize then scanChildren test relinKeys children else .ok relinKeys
/-- The loop over the children for an arbitrary key test. -/
def scanChildren (test : Key → Except Error Bool) :
    FastSet → List ISAM2Clique → Except Error FastSet
  | relinKeys, [] => .ok relinKeys
  | relinKeys, child :: rest =>
    match scan test relinKeys child with
    | .error e => .error e
    | .ok relinKeys => scanChildren test relinKeys rest
end

mutual
/-- All keys of a clique and of its descendants. -/
def ISAM2Clique.allKeys : ISAM2Clique → List Key
  | .mk frontals parents children => frontals ++ parents ++ allKeysList children
/-- All keys of the cliques of a forest and of their descendants. -/
def allKeysList : List ISAM2Clique → List Key
  | [] => []
  | c :: rest => c.allKeys ++ allKeysList rest
end

/-- The clique `d` lies in the subtree of `c` and every clique on the path from `c` down to
`d`, `d` itself apart, holds a flagged key among its frontal and separator keys. -/
inductive Reached (flag : Key → Bool) : ISAM2Clique → ISAM2Clique → Prop where
  | here (c : ISAM2Clique) : Reached flag c c
  | descend {c child d : ISAM2Clique} (hflag : ∃ k ∈ c.keys, flag k = true)
      (hchild : child ∈ c.children) (hrest : Reached flag child d) : Reached flag c d

/-- The clique `d` lies in the subtree of `c`. -/
inductive InSubtree : ISAM2Clique → ISAM2Clique → Prop where
  | here (c : ISAM2Clique) : InSubtree c c
  | descend {c child d : ISAM2Clique} (hchild : child ∈ c.children)
      (hrest : InSubtree child d) : InSubtree c d

/-- Value `m` is the largest absolute component of `v`: some component has absolute value `m`
and none has more. -/
def IsLargestAbs (v : Vector) (m : Double) : Prop :=
  (∃ x ∈ v, x.abs = m) ∧ ∀ x ∈ v, x.abs ≤ m

/-- One hypothesis for both threshold kinds: a per-type map has, for every entry of the delta
store, a threshold vector of the length of the entry's vector. -/
def ThresholdFits (chr : Key → Char) (delta : VectorValues) : RelinearizationThreshold → Prop
  | .scalar _ => True
  | .perType m =>
    ∀ kv ∈ delta, ∃ th, List.lookup (chr kv.1) m = some th ∧ th.length = kv.2.length

/-! ## Marked-subtree key collection -/

mutual
/-- The function `ISAM2::Impl::FindAll`. -/
def FindAll (markedMask : FastSet) : ISAM2Clique → FastSet → FastSet
  | .mk frontals parents children, keys =>
    let found := parents.any (fun key => decide (key ∈ markedMask))
    let keys := if found then frontals.foldl (fun s k => insert k s) keys else keys
    FindAllChildren markedMask children keys
/-- The loop over the children in `FindAll`. -/
def FindAllChildren (markedMask : FastSet) : List ISAM2Clique → FastSet → FastSet
  | [], keys => keys
  | child :: rest, keys => FindAllChildren markedMask rest (FindAll markedMask child keys)
end

/-! ## Masked retraction -/

/-- The type `Values`: the `(key, value)` entries in iteration order; `V` is the type of the
values. -/
abbrev Values (V : Type) := List (Key × V)

/-- The preprocessor symbols that `ExpmapMasked` depends on. -/
structure BuildFlags where
  /-- Whether `NDEBUG` is defined: `assert` then expands to nothing. -/
  NDEBUG : Bool
  /-- Whether `GTSAM_USE_TBB` is defined. -/
  GTSAM_USE_TBB : Bool

/-- The argument `invalidateIfDebug`, a `boost::optional<VectorValues&>`: nothing, a reference
to the store that is also passed as `delta`, or a reference to another store. -/
inductive Invalidate where
  | none
  | delta
  | other (store : VectorValues)

/-- The assignment `store[j] = v`: `operator[]` throws `std::out_of_range` when the store has no
entry for `j`. -/
def VectorValues.assign (store : VectorValues) (j : Key) (v : Vector) :
    Except Error VectorValues :=
  match store.find j with
  | none => .error (.out_of_range j)
  | some _ => .ok (store.map (fun kv => if kv.1 = j then (kv.1, v) else kv))

/-- The assertions at the head of the loop body of `ExpmapMasked`; they are compiled only
without `NDEBUG`, and the comparison with `key_delta` only without `GTSAM_USE_TBB`.
`key_delta` is the list of the keys of `delta` from the iterator `key_delta` on. -/
def expmapAsserts {V : Type} (flags : BuildFlags) (dim : V → Nat) (var : Key) (value : V)
    (key_delta : List Key) (delta : VectorValues) : Except Error Unit :=
  if flags.NDEBUG then
    .ok ()
  else if !flags.GTSAM_USE_TBB && key_delta.head? != some var then
    .error .assertion_failed
  else
    match delta.at var with
    | .error e => .error e
    | .ok d =>
      if d.rows ≠ dim value then .error .assertion_failed
      else if !d.allFinite then .error .assertion_failed
      else .ok ()

/-- The statement `if(invalidateIfDebug) (*invalidateIfDebug)[var] = Vector::Constant(n, inf)`,
acting on the store `delta` and on the store that `invalidateIfDebug` refers to. -/
def invalidate (var : Key) (n : Nat) (delta : VectorValues) :
    Invalidate → Except Error (VectorValues × Invalidate)
  | .none => .ok (delta, .none)
  | .delta =>
    match delta.assign var (Vector.Constant n .posInf) with
    | .error e => .error e
    | .ok delta => .ok (delta, .delta)
  | .other store =>
    match store.assign var (Vector.Constant n .posInf) with
    | .error e => .error e
    | .ok store => .ok (delta, .other store)

/-- The loop of `ExpmapMasked` over the entries of `values`.  The state is the store `delta`,
which changes when `invalidateIfDebug` refers to it, and the store that `invalidateIfDebug`
refers to; the result has the new entries of `values` in front. -/
def expmapLoop {V : Type} (flags : BuildFlags) (retract : V → Vector → V) (dim : V → Nat)
    (mask : FastSet) :
    Values V → List Key → VectorValues → Invalidate →
      Except Error (Values V × VectorValues × Invalidate)
  | [], _, delta, invalidateIfDebug => .ok ([], delta, invalidateIfDebug)
  | (var, value) :: rest, key_delta, delta, invalidateIfDebug =>
    match expmapAsserts flags dim var value key_delta delta with
    | .error e => .error e
    | .ok () =>
      if var ∈ mask then
        match delta.at var with
        | .error e => .error e
        | .ok d =>
          let retracted := retract value d
          match invalidate var d.rows delta invalidateIfDebug with
          | .error e => .error e
          | .ok (delta, invalidateIfDebug) =>
            match expmapLoop flags retract dim mask rest key_delta.tail delta
                invalidateIfDebug with
            | .error e => .error e
            | .ok (values, stores) => .ok ((var, retracted) :: values, stores)
      else
        match expmapLoop flags retract dim mask rest key_delta.tail delta
            invalidateIfDebug with
        | .error e => .error e
        | .ok (values, stores) => .ok ((var, value) :: values, stores)

/-- The function `ISAM2::Impl::ExpmapMasked`.  `retract` is `Value::retract_` and `dim` is
`Value::dim`.
The result is the store `values`, the store `delta` and the store that `invalidateIfDebug`
refers to, as they are when the function returns.  With `NDEBUG` the iterator `key_delta` is
advanced but never read, so it does not occur. -/
def ExpmapMasked {V : Type} (flags : BuildFlags) (retract : V → Vector → V) (dim : V → Nat)
    (values : Values V) (delta : VectorValues) (mask : FastSet)
    (invalidateIfDebug : Invalidate) : Except Error (Values V × VectorValues × Invalidate) :=
  if flags.NDEBUG then
    match expmapLoop flags retract dim mask values (delta.map Prod.fst) delta .none with
    | .error e => .error e
    | .ok (values, delta, _) => .ok (values, delta, invalidateIfDebug)
  else if values.length ≠ delta.length then
    .error .assertion_failed
  else
    expmapLoop flags retract dim mask values (delta.map Prod.fst) delta invalidateIfDebug

/-- What `ExpmapMasked` is to make of one entry of `values`: the retraction of the value by the
key's vector in `delta` when the key is in the mask, the entry itself otherwise. -/
def retractEntry {V : Type} (retract : V → Vector → V) (delta : VectorValues) (mask : FastSet)
    (kx : Key × V) : Key × V :=
  if kx.1 ∈ mask then
    match delta.find kx.1 with
    | some d => (kx.1, retract kx.2 d)
    | none => kx
  else kx

/-! ## Variable store lifecycle -/

/-- The vector `Vector::Zero(n)`. -/
def Vector.Zero (n : Nat) : Vector := List.replicate n 0

/-- Modelled from the spec: insertion of a new key into a `std::map`, which `Values` and
`VectorValues` are ("mapping Key → ..."); the entry goes to its place in key order. -/
def mapInsert {α : Type} (k : Key) (v : α) : List (Key × α) → List (Key × α)
  | [] => [(k, v)]
  | (a, b) :: rest => if k < a then (k, v) :: (a, b) :: rest else (a, b) :: mapInsert k v rest

/-- Modelled from the spec: whether a `std::map` holds key `k` (`exists`). -/
def mapExists {α : Type} (store : List (Key × α)) (k : Key) : Bool :=
  (List.lookup k store).isSome

/-- Modelled from the spec: removal of key `k` from a `std::map` ("removes it from ... every
delta store, the estimate store, any clique-lookup table"). -/
def mapErase {α : Type} (store : List (Key × α)) (k : Key) : List (Key × α) :=
  store.filter (fun kv => kv.1 ≠ k)

/-- Modelled from the spec: `Values::insert(key, value)`, not among the sources: "inserts each
new variable's value into the estimate store (fails if a key already exists — precondition
violation, not a recoverable error)". -/
def Values.insertOne {V : Type} (theta : Values V) (j : Key) (value : V) :
    Except Error (Values V) :=
  if mapExists theta j then .error (.key_already_exists j) else .ok (mapInsert j value theta)

/-- Modelled from the spec: `Values::insert(const Values&)`, not among the sources: the
insertion of each entry in turn. -/
def Values.insert {V : Type} (theta : Values V) : Values V → Except Error (Values V)
  | [] => .ok theta
  | (j, value) :: rest =>
    match Values.insertOne theta j value with
    | .error e => .error e
    | .ok theta => Values.insert theta rest

/-- Modelled from the spec: `Values::erase(key)`, not among the sources; erasing a key that the
store does not hold is a precondition violation. -/
def Values.erase {V : Type} (theta : Values V) (j : Key) : Except Error (Values V) :=
  if mapExists theta j then .ok (mapErase theta j) else .error (.key_does_not_exist j)

/-- Modelled from the spec: `Values::zeroVectors()`, not among the sources: "a zero vector of
matching dimension" for each value. -/
def Values.zeroVectors {V : Type} (dim : V → Nat) (theta : Values V) : VectorValues :=
  theta.map (fun kx => (kx.1, Vector.Zero (dim kx.2)))

/-- Modelled from the spec: `VectorValues::insert(const VectorValues&)`, not among the sources:
the insertion of each entry in turn; a key that the store already holds is a precondition
violation, as it is for the estimate store. -/
def VectorValues.insert (delta : VectorValues) : VectorValues → Except Error VectorValues
  | [] => .ok delta
  | (j, v) :: rest =>
    if mapExists delta j then .error (.key_already_exists j)
    else VectorValues.insert (mapInsert j v delta) rest

/-- Modelled from the spec: `VectorValues::erase(key)`, not among the sources; erasing a key
that the store does not hold is a precondition violation. -/
def VectorValues.erase (delta : VectorValues) (j : Key) : Except Error VectorValues :=
  if mapExists delta j then .ok (mapErase delta j) else .error (.key_does_not_exist j)

/-- The function `ISAM2::Impl::AddVariables`; `dim` is `Value::dim`.  The result is the stores
`theta`, `delta`, `deltaNewton` and `RgProd` after the call. -/
def AddVariables {V : Type} (dim : V → Nat) (newTheta theta : Values V)
    (delta deltaNewton RgProd : VectorValues) :
    Except Error (Values V × VectorValues × VectorValues × VectorValues) :=
  match theta.insert newTheta with
  | .error e => .error e
  | .ok theta =>
    match delta.insert (newTheta.zeroVectors dim) with
    | .error e => .error e
    | .ok delta =>
      match deltaNewton.insert (newTheta.zeroVectors dim) with
      | .error e => .error e
      | .ok deltaNewton =>
        match RgProd.insert (newTheta.zeroVectors dim) with
        | .error e => .error e
        | .ok RgProd => .ok (theta, delta, deltaNewton, RgProd)

/-- The type `VariableIndex`: for each key the indices of the factors that involve it. -/
abbrev VariableIndex := List (Key × List Nat)

/-- The type `Base::Nodes`: for each key the clique that holds it as a frontal key. -/
abbrev Nodes := List (Key × ISAM2Clique)

/-- The stores that `RemoveVariables` works on. -/
structure Stores (V : Type) where
  theta : Values V
  variableIndex : VariableIndex
  delta : VectorValues
  deltaNewton : VectorValues
  RgProd : VectorValues
  replacedKeys : FastSet
  nodes : Nodes
  fixedVariables : FastSet

/-- Modelled from the spec: `VariableIndex::removeUnusedVariables(first, last)`, not among the
sources: "for each key, removes it from the variable index"; a key that a factor still
references is "not detected here". -/
def VariableIndex.removeUnusedVariables (variableIndex : VariableIndex) (unusedKeys : List Key) :
    VariableIndex :=
  unusedKeys.foldl (fun index key => mapErase index key) variableIndex

/-- The body of the loop of `RemoveVariables` for one key. -/
def removeVariable {V : Type} (s : Stores V) (key : Key) : Except Error (Stores V) :=
  match s.delta.erase key with
  | .error e => .error e
  | .ok delta =>
    match s.deltaNewton.erase key with
    | .error e => .error e
    | .ok deltaNewton =>
      match s.RgProd.erase key with
      | .error e => .error e
      | .ok RgProd =>
        let replacedKeys := s.replacedKeys.erase key
        let nodes := mapErase s.nodes key
        match s.theta.erase key with
        | .error e => .error e
        | .ok theta =>
          let fixedVariables := s.fixedVariables.erase key
          .ok { s with
            theta := theta, delta := delta, deltaNewton := deltaNewton, RgProd := RgProd,
            replacedKeys := replacedKeys, nodes := nodes, fixedVariables := fixedVariables }

/-- The loop of `RemoveVariables` over the unused keys. -/
def removeLoop {V : Type} : List Key → Stores V → Except Error (Stores V)
  | [], s => .ok s
  | key :: rest, s =>
    match removeVariable s key with
    | .error e => .error e
    | .ok s => removeLoop rest s

/-- The function `ISAM2::Impl::RemoveVariables`; the set `unusedKeys` is iterated in key
order.  The argument `roots` is not used. -/
def RemoveVariables {V : Type} (unusedKeys : FastSet) (_roots : List ISAM2Clique)
    (s : Stores V) : Except Error (Stores V) :=
  let keys := unusedKeys.sort (· ≤ ·)
  removeLoop keys { s with variableIndex := s.variableIndex.removeUnusedVariables keys }

/-! ## Delta propagation -/

/-- Modelled from the spec: `VectorValues::update(const VectorValues&)`, not among the sources:
"writing every variable's entry in the delta store"; every key of `values` is assigned in
turn, and a key without entry throws `std::out_of_range`. -/
def VectorValues.update (result : VectorValues) : VectorValues → Except Error VectorValues
  | [] => .ok result
  | (j, v) :: rest =>
    match result.assign j v with
    | .error e => .error e
    | .ok result => VectorValues.update result rest

mutual
/-- The function `internal::optimizeInPlace`; `solve clique result` is
`clique->conditional()->solve(result)`. -/
def optimizeInPlace (solve : ISAM2Clique → VectorValues → VectorValues) :
    ISAM2Clique → VectorValues → Except Error VectorValues
  | .mk frontals parents children, result =>
    match result.update (solve (.mk frontals parents children) result) with
    | .error e => .error e
    | .ok result => optimizeInPlaceChildren solve children result
/-- The loop over the children in `internal::optimizeInPlace`. -/
def optimizeInPlaceChildren (solve : ISAM2Clique → VectorValues → VectorValues) :
    List ISAM2Clique → VectorValues → Except Error VectorValues
  | [], result => .ok result
  | child :: rest, result =>
    match optimizeInPlace solve child result with
    | .error e => .error e
    | .ok result => optimizeInPlaceChildren solve rest result
end

/-- The loop of the wildfire branch of `UpdateDelta` over the roots;
`optimizeWildfireNonRecursive`, declared elsewhere, returns its count and the store `delta` as
it leaves it.  The counts are counts of variables held in memory, so the `size_t` sum does not
wrap. -/
def wildfireLoop
    (optimizeWildfireNonRecursive :
      ISAM2Clique → Double → FastSet → VectorValues → Nat × VectorValues)
    (wildfireThreshold : Double) (replacedKeys : FastSet) :
    List ISAM2Clique → Nat × VectorValues → Nat × VectorValues
  | [], st => st
  | root :: rest, (lastBacksubVariableCount, delta) =>
    let r := optimizeWildfireNonRecursive root wildfireThreshold replacedKeys delta
    wildfireLoop optimizeWildfireNonRecursive wildfireThreshold replacedKeys rest
      (lastBacksubVariableCount + r.1, r.2)

/-- The loop `for(size_t j=0; j<delta.size(); ++j) assert(delta[j]...all())` of `UpdateDelta`,
from `j` on for `n` rounds. -/
def consistencyLoop (delta : VectorValues) : Nat → Nat → Except Error Unit
  | _, 0 => .ok ()
  | j, n + 1 =>
    match delta.at j with
    | .error e => .error e
    | .ok v => if v.allFinite then consistencyLoop delta (j + 1) n else .error .assertion_failed

/-- The function `ISAM2::Impl::UpdateDelta`.  `extraChecks` says whether
`GTSAM_EXTRA_CONSISTENCY_CHECKS` is defined.  The loop over the roots that calls
`internal::optimizeInPlace` is the loop over a list of cliques, `optimizeInPlaceChildren`.
`solve` and `optimizeWildfireNonRecursive`, whose code is elsewhere, are taken as functions
that return.  The result is the returned count and the stores `replacedKeys` and `delta` after
the call. -/
def UpdateDelta (flags : BuildFlags) (extraChecks : Bool)
    (solve : ISAM2Clique → VectorValues → VectorValues)
    (optimizeWildfireNonRecursive :
      ISAM2Clique → Double → FastSet → VectorValues → Nat × VectorValues)
    (roots : List ISAM2Clique) (replacedKeys : FastSet) (delta : VectorValues)
    (wildfireThreshold : Double) : Except Error (Nat × FastSet × VectorValues) :=
  if wildfireThreshold ≤ 0 then
    match optimizeInPlaceChildren solve roots delta with
    | .error e => .error e
    | .ok delta => .ok (delta.length, ∅, delta)
  else
    let r := wildfireLoop optimizeWildfireNonRecursive wildfireThreshold replacedKeys roots
      (0, delta)
    if extraChecks && !flags.NDEBUG then
      match consistencyLoop r.2 0 r.2.length with
      | .error e => .error e
      | .ok () => .ok (r.1, ∅, r.2)
    else
      .ok (r.1, ∅, r.2)

/-! ## Dogleg deltas -/

/-- Modelled from the spec: `VectorValues::vector(keys)`, not among the sources: "gather the
gradient sub-vectors" of the keys, in order, into one vector. -/
def VectorValues.vector (values : VectorValues) : List Key → Except Error Vector
  | [] => .ok []
  | j :: rest =>
    match values.at j with
    | .error e => .error e
    | .ok v =>
      match VectorValues.vector values rest with
      | .error e => .error e
      | .ok w => .ok (v ++ w)

/-- Eigen's `segment(start, n)`: the `n` coefficients from position `start` on; Eigen asserts
that they exist. -/
def Vector.segment (v : Vector) (start n : Nat) : Except Error Vector :=
  if start + n ≤ v.rows then .ok ((v.drop start).take n) else .error .assertion_failed

/-- The loop of `updateDoglegDeltas` that writes `RSgProd` into `RgProd`; the state is `RgProd`
and `vectorPosition`. -/
def scatterLoop (RSgProd : Vector) :
    List Key → VectorValues × Nat → Except Error (VectorValues × Nat)
  | [], st => .ok st
  | frontal :: rest, (RgProd, vectorPosition) =>
    match RgProd.at frontal with
    | .error e => .error e
    | .ok RgProdValue =>
      match RSgProd.segment vectorPosition RgProdValue.rows with
      | .error e => .error e
      | .ok seg =>
        match RgProd.assign frontal seg with
        | .error e => .error e
        | .ok RgProd => scatterLoop RSgProd rest (RgProd, vectorPosition + RgProdValue.rows)

mutual
/-- The function `internal::updateDoglegDeltas`.  `product clique gR gS` is
`get_R() * gR + get_S() * gS` for the cached blocks of the clique's conditional.  The state is
`RgProd` and `varsUpdated`, a count of keys held in memory, so that the `size_t` sum does not
wrap. -/
def updateDoglegDeltas (product : ISAM2Clique → Vector → Vector → Vector)
    (replacedKeys : FastSet) (grad : VectorValues) :
    ISAM2Clique → VectorValues × Nat → Except Error (VectorValues × Nat)
  | .mk frontals parents children, (RgProd, varsUpdated) =>
    let anyReplaced := (frontals ++ parents).any (fun j => decide (j ∈ replacedKeys))
    if anyReplaced then
      match grad.vector frontals with
      | .error e => .error e
      | .ok gR =>
        match grad.vector parents with
        | .error e => .error e
        | .ok gS =>
          let RSgProd := product (.mk frontals parents children) gR gS
          match scatterLoop RSgProd frontals (RgProd, 0) with
          | .error e => .error e
          | .ok (RgProd, _) =>
            updateDoglegDeltasChildren product replacedKeys grad children
              (RgProd, varsUpdated + frontals.length)
    else
      .ok (RgProd, varsUpdated)
/-- The loop over the children in `internal::updateDoglegDeltas`. -/
def updateDoglegDeltasChildren (product : ISAM2Clique → Vector → Vector → Vector)
    (replacedKeys : FastSet) (grad : VectorValues) :
    List ISAM2Clique → VectorValues × Nat → Except Error (VectorValues × Nat)
  | [], st => .ok st
  | child :: rest, st =>
    match updateDoglegDeltas product replacedKeys grad child st with
    | .error e => .error e
    | .ok st => updateDoglegDeltasChildren product replacedKeys grad rest st
end

/-- The loop of `UpdateDoglegDeltas` over the roots; the state is `RgProd`, `varsUpdated` and
`deltaNewton`. -/
def doglegLoop (product : ISAM2Clique → Vector → Vector → Vector)
    (optimizeWildfireNonRecursive :
      ISAM2Clique → Double → FastSet → VectorValues → Nat × VectorValues)
    (wildfireThreshold : Double) (replacedKeys : FastSet) (grad : VectorValues) :
    List ISAM2Clique → (VectorValues × Nat) × VectorValues →
      Except Error ((VectorValues × Nat) × VectorValues)
  | [], st => .ok st
  | root :: rest, (st, deltaNewton) =>
    match updateDoglegDeltas product replacedKeys grad root st with
    | .error e => .error e
    | .ok st =>
      let r := optimizeWildfireNonRecursive root wildfireThreshold replacedKeys deltaNewton
      doglegLoop product optimizeWildfireNonRecursive wildfireThreshold replacedKeys grad rest
        (st, r.2)

/-- The function `ISAM2::Impl::UpdateDoglegDeltas`; the `ISAM2` object is its list of roots,
and `gradientAtZero`, declared elsewhere, is the gradient it computes from it.  The result is
the returned count and the stores `replacedKeys`, `deltaNewton` and `RgProd` after the call. -/
def UpdateDoglegDeltas (product : ISAM2Clique → Vector → Vector → Vector)
    (gradientAtZero : List ISAM2Clique → VectorValues)
    (optimizeWildfireNonRecursive :
      ISAM2Clique → Double → FastSet → VectorValues → Nat × VectorValues)
    (isam : List ISAM2Clique) (wildfireThreshold : Double) (replacedKeys : FastSet)
    (deltaNewton RgProd : VectorValues) :
    Except Error (Nat × FastSet × VectorValues × VectorValues) :=
  let grad := gradientAtZero isam
  match doglegLoop product optimizeWildfireNonRecursive wildfireThreshold replacedKeys grad
      isam ((RgProd, 0), deltaNewton) with
  | .error e => .error e
  | .ok ((RgProd, varsUpdated), deltaNewton) => .ok (varsUpdated, ∅, deltaNewton, RgProd)

mutual
/-- The frontal keys of a clique and of its descendants. -/
def ISAM2Clique.allFrontals : ISAM2Clique → List Key
  | .mk frontals _ children => frontals ++ allFrontalsList children
/-- The frontal keys of the cliques of a forest and of their descendants. -/
def allFrontalsList : List ISAM2Clique → List Key
  | [] => []
  | c :: rest => c.allFrontals ++ allFrontalsList rest
end

mutual
/-- The cliques of the subtree of a clique that hold a replaced key among their frontal and
separator keys and all of whose ancestors in the subtree do. -/
def refreshed (replacedKeys : FastSet) : ISAM2Clique → List ISAM2Clique
  | .mk frontals parents children =>
    if (frontals ++ parents).any (fun j => decide (j ∈ replacedKeys)) then
      .mk frontals parents children :: refreshedList replacedKeys children
    else []
/-- The cliques of `refreshed` for each clique of a list. -/
def refreshedList (replacedKeys : FastSet) : List ISAM2Clique → List ISAM2Clique
  | [] => []
  | c :: rest => refreshed replacedKeys c ++ refreshedList replacedKeys rest
end

/-- The length of the vector that a store holds for key `k`, `0` when it holds none. -/
def rowsAt (store : VectorValues) (k : Key) : Nat :=
  ((store.find k).map Vector.rows).getD 0

/-- The sum of the lengths of the vectors that a store holds for the keys `keys`. -/
def dims (store : VectorValues) (keys : List Key) : Nat :=
  (keys.map (rowsAt store)).sum

/-- The sum of the numbers of frontal keys of the cliques of a list. -/
def frontalCount (cliques : List ISAM2Clique) : Nat :=
  (cliques.map (fun c => c.frontals.length)).sum

/-! ## Concrete inputs -/

/-- A type-tag function for the examples: keys below 100 are poses `x`, the others landmarks
`l`. -/
def exampleChr : Key → Char := fun k => if k < 100 then 'x' else 'l'

/-- The child clique of the scenario: frontal keys `x2, x3`, separator `x1`. -/
def scenarioChild : ISAM2Clique := .mk [2, 3] [1] []

/-- The root clique of the scenario: frontal key `x1`, child `scenarioChild`. -/
def scenarioRoot : ISAM2Clique := .mk [1] [] [scenarioChild]

/-- The delta store of the scenario: `x1: [0.02], x2: [0.2], x3: [0.001]`. -/
def scenarioDelta : VectorValues :=
  [(1, [.fin (1 / 50)]), (2, [.fin (1 / 5)]), (3, [.fin (1 / 1000)])]

/-- The threshold of the scenario: the scalar `0.1`. -/
def scenarioThreshold : RelinearizationThreshold := .scalar (.fin (1 / 10))

/-- A chain of three cliques: `x3` given `x2`, below `x2` given `x1`, below the root `x1`. -/
def chainLeaf : ISAM2Clique := .mk [3] [2] []

/-- The middle clique of the chain. -/
def chainMiddle : ISAM2Clique := .mk [2] [1] [chainLeaf]

/-- The root clique of the chain. -/
def chainRoot : ISAM2Clique := .mk [1] [] [chainMiddle]

/-- A delta store for the chain: `x1: [0.2], x2: [0.001], x3: [0.5]`. -/
def chainDelta : VectorValues :=
  [(1, [.fin (1 / 5)]), (2, [.fin (1 / 1000)]), (3, [.fin (1 / 2)])]

/-- A root clique with two frontal keys. -/
def pairRoot : ISAM2Clique := .mk [1, 2] [] []

/-- A delta store for `pairRoot`: `x1: [0.2], x2: [0.001]`. -/
def pairDelta : VectorValues := [(1, [.fin (1 / 5)]), (2, [.fin (1 / 1000)])]

/-- A per-type threshold map: `0.1` in each of the two dimensions of a pose `x`, `1` in the
one dimension of a landmark `l`. -/
def exampleThresholds : FastMap :=
  [('l', [.fin 1]), ('x', [.fin (1 / 10), .fin (1 / 10)])]

/-- A delta store with two poses and a landmark. -/
def typedDelta : VectorValues :=
  [(1, [.fin (1 / 10), .fin (-1 / 5)]), (2, [.fin (1 / 10), .fin 0]), (100, [.fin 2])]

/-- A delta store whose pose `x2` has three dimensions, one more than its threshold vector. -/
def mismatchedDelta : VectorValues :=
  [(1, [.fin (1 / 2), .fin 0]), (2, [.fin 0, .fin 0, .fin 0]), (100, [.fin 2])]

/-- A build with assertions and without TBB. -/
def debugFlags : BuildFlags := ⟨false, false⟩

/-- Points of the plane as values: the retraction adds the finite components of the tangent
vector. -/
def planeRetract (x : List ℚ) (d : Vector) : List ℚ :=
  List.zipWith (fun a b => match b with
    | .fin q => a + q
    | _ => a) x d

/-- The dimension of a point. -/
def planeDim (x : List ℚ) : Nat := x.length

/-- An estimate store with two points. -/
def planeValues : Values (List ℚ) := [(1, [0, 0]), (2, [1, 1])]

/-- A delta store for `planeValues`. -/
def planeDelta : VectorValues := [(1, [.fin (1 / 2), .fin 0]), (2, [.fin 0, .fin 1])]

/-- Store `s1` has the keys of store `s`, in the same order, and for every key outside the
mask the vector that `s` has. -/
def SameOutside (mask : FastSet) (s s1 : VectorValues) : Prop :=
  s1.map Prod.fst = s.map Prod.fst ∧ ∀ k, k ∉ mask → s1.find k = s.find k

/-- The store that `invalidateIfDebug` refers to, before (`inv`) and after (`inv1`) a call:
the reference is the same, and a store other than `delta` is the same outside the mask. -/
def InvalidateFrame (mask : FastSet) : Invalidate → Invalidate → Prop
  | .none, .none => True
  | .delta, .delta => True
  | .other s, .other s1 => SameOutside mask s s1
  | _, _ => False

/-- The store after the insertion of the entries of `entries`, each at its place in key
order. -/
def insertAll {α : Type} (store : List (Key × α)) : List (Key × α) → List (Key × α)
  | [] => store
  | (j, v) :: rest => insertAll (mapInsert j v store) rest

/-- The store-consistency invariant: the three delta stores have the keys of the estimate
store (the same keys in the same iteration order, which for maps is the same key set), and the
vector that a delta store holds for a key has the length of the dimension of the key's
estimate. -/
def Consistent {V : Type} (dim : V → Nat) (theta : Values V)
    (delta deltaNewton RgProd : VectorValues) : Prop :=
  delta.map Prod.fst = theta.map Prod.fst ∧
    deltaNewton.map Prod.fst = theta.map Prod.fst ∧
    RgProd.map Prod.fst = theta.map Prod.fst ∧
    ∀ k x d, (k, x) ∈ theta →
      ((k, d) ∈ delta ∨ (k, d) ∈ deltaNewton ∨ (k, d) ∈ RgProd) → d.rows = dim x
/-- New estimates for the examples: the point `x3`. -/
def newPlaneValues : Values (List ℚ) := [(3, [2, 2])]

/-- The stores of the examples: two points, zero Newton deltas and `RgProd`, the key `x2`
replaced and the key `x1` fixed. -/
def planeStores : Stores (List ℚ) where
  theta := planeValues
  variableIndex := [(1, [0]), (2, [0, 1])]
  delta := planeDelta
  deltaNewton := [(1, [0, 0]), (2, [0, 0])]
  RgProd := [(1, [0, 0]), (2, [0, 0])]
  replacedKeys := {2}
  nodes := [(1, pairRoot), (2, pairRoot)]
  fixedVariables := {1}

/-- A solve for the examples: the zero vector of one dimension for every frontal key. -/
def zeroSolve (c : ISAM2Clique) (_result : VectorValues) : VectorValues :=
  c.frontals.map (fun k => (k, [0]))

/-- A wildfire propagation for the examples that resolves no variable. -/
def noWildfire (_root : ISAM2Clique) (_threshold : Double) (_replaced : FastSet)
    (delta : VectorValues) : Nat × VectorValues :=
  (0, delta)

/-- A product for the examples: `R` the identity and `S` zero. -/
def identityProduct (_c : ISAM2Clique) (gR _gS : Vector) : Vector := gR

/-- A gradient for the examples: the delta store of the chain, whatever the forest. -/
def chainGradient (_isam : List ISAM2Clique) : VectorValues := chainDelta
/-- A delta store for the scenario's forest in which `x1` is below every threshold and `x2` has
three dimensions, one more than its threshold vector. -/
def prunedDelta : VectorValues :=
  [(1, [.fin 0, .fin 0]), (2, [.fin 0, .fin 0, .fin 0]), (3, [.fin 0, .fin 0])]

/-- A delta store for the scenario's forest in which `x1` exceeds its threshold and `x2` has
three dimensions. -/
def reachedDelta : VectorValues :=
  [(1, [.fin 1, .fin 0]), (2, [.fin 0, .fin 0, .fin 0]), (3, [.fin 0, .fin 0])]

/-- The store `store` after the invalidation of the keys that are both in the mask and in
`keys`: each of their entries is the all-infinity vector of the length of the vector that `ref`
holds for the key, every other entry is what it was. -/
def poison (mask : FastSet) (keys : List Key) (ref store : VectorValues) : VectorValues :=
  store.map (fun kv =>
    if kv.1 ∈ mask ∧ kv.1 ∈ keys then (kv.1, Vector.Constant (rowsAt ref kv.1) .posInf)
    else kv)

/-- The delta store and the store that `inv` refers to after the invalidation, in a build with
assertions, of the keys that are both in the mask and in `keys`: with no store supplied nothing
changes, with the delta store supplied the delta store is invalidated, with another store
supplied that store is invalidated and the delta store is unchanged. -/
def invalidated (mask : FastSet) (keys : List Key) (delta : VectorValues) :
    Invalidate → VectorValues × Invalidate
  | .none => (delta, .none)
  | .delta => (poison mask keys delta delta, .delta)
  | .other s => (delta, .other (poison mask keys delta s))

/-! ## Traversal orders and the properties of a clique forest -/

mutual
/-- The cliques of the subtree of a clique in the order in which a traversal that handles a
clique and then each of its children in turn, as `internal::optimizeInPlace` does, handles
them. -/
def ISAM2Clique.preorder : ISAM2Clique → List ISAM2Clique
  | .mk frontals parents children => .mk frontals parents children :: preorderList children
/-- The cliques of the subtrees of a list of cliques in traversal order. -/
def preorderList : List ISAM2Clique → List ISAM2Clique
  | [] => []
  | c :: rest => c.preorder ++ preorderList rest
end

/-- The frontal keys of the cliques of a list, in order. -/
def frontalKeys : List ISAM2Clique → List Key
  | [] => []
  | c :: rest => c.frontals ++ frontalKeys rest

/-- The solve of each clique of a list in turn, each written into the store before the next
clique is solved. -/
def solveAll (solve : ISAM2Clique → VectorValues → VectorValues) :
    List ISAM2Clique → VectorValues → Except Error VectorValues
  | [], result => .ok result
  | c :: rest, result =>
    match result.update (solve c result) with
    | .error e => .error e
    | .ok result => solveAll solve rest result

mutual
/-- The running-separator property of the subtree of a clique, as the spec words it:
"a clique's separator keys are always frontal keys of some ancestor"; `ancestors` are the
frontal keys of the ancestors of the clique. -/
def runningSeparator (ancestors : List Key) : ISAM2Clique → Bool
  | .mk frontals parents children =>
    parents.all (fun k => decide (k ∈ ancestors)) &&
      runningSeparatorList (ancestors ++ frontals) children
/-- The running-separator property of each subtree of a list of cliques with the same
ancestors. -/
def runningSeparatorList (ancestors : List Key) : List ISAM2Clique → Bool
  | [] => true
  | c :: rest => runningSeparator ancestors c && runningSeparatorList ancestors rest
end

/-- The cliques of a list are in an order in which each comes after the owners of its
separator keys: the separator keys of each clique are among `solved` and the frontal keys of
the cliques before it. -/
def orderedFrom (solved : List Key) : List ISAM2Clique → Prop
  | [] => True
  | c :: rest => (∀ k ∈ c.parents, k ∈ solved) ∧ orderedFrom (solved ++ c.frontals) rest

/-- The refresh of one clique in `internal::updateDoglegDeltas`: the gradient of the frontal
and of the separator keys is gathered, and the product is written into `RgProd`. -/
def refreshClique (product : ISAM2Clique → Vector → Vector → Vector) (grad : VectorValues)
    (c : ISAM2Clique) (RgProd : VectorValues) : Except Error VectorValues :=
  match grad.vector c.frontals with
  | .error e => .error e
  | .ok gR =>
    match grad.vector c.parents with
    | .error e => .error e
    | .ok gS =>
      match scatterLoop (product c gR gS) c.frontals (RgProd, 0) with
      | .error e => .error e
      | .ok (RgProd, _) => .ok RgProd

/-- The refresh of each clique of a list in turn. -/
def refreshAll (product : ISAM2Clique → Vector → Vector → Vector) (grad : VectorValues) :
    List ISAM2Clique → VectorValues → Except Error VectorValues
  | [], RgProd => .ok RgProd
  | c :: rest, RgProd =>
    match refreshClique product grad c RgProd with
    | .error e => .error e
    | .ok RgProd => refreshAll product grad rest RgProd

/-- The test `anyReplaced` of `internal::updateDoglegDeltas`: a frontal or separator key of
the clique is in the replaced-keys set. -/
def hasReplaced (replacedKeys : FastSet) (c : ISAM2Clique) : Bool :=
  c.keys.any (fun j => decide (j ∈ replacedKeys))

/-- An exhaustive traversal for `RgProd`: every clique of the forest that holds a replaced key
is refreshed, in traversal order; the result is the number of frontal keys of these cliques and
`RgProd`. -/
def exhaustiveDoglegDeltas (product : ISAM2Clique → Vector → Vector → Vector)
    (grad : VectorValues) (replacedKeys : FastSet) (roots : List ISAM2Clique)
    (RgProd : VectorValues) : Except Error (Nat × VectorValues) :=
  match refreshAll product grad ((preorderList roots).filter (hasReplaced replacedKeys))
      RgProd with
  | .error e => .error e
  | .ok RgProd =>
    .ok (frontalCount ((preorderList roots).filter (hasReplaced replacedKeys)), RgProd)

mutual
/-- Below a clique, the separator keys of every clique are keys of its parent clique, and a
clique that holds a replaced key among its frontal keys has a parent that holds a replaced key
among its frontal and separator keys. -/
def replacedFromAbove (replacedKeys : FastSet) : ISAM2Clique → Bool
  | .mk frontals parents children =>
    replacedFromAboveList replacedKeys (frontals ++ parents) children
/-- The cliques of a list, children of a clique with the keys `parentKeys`, and the cliques
below them satisfy `replacedFromAbove`. -/
def replacedFromAboveList (replacedKeys : FastSet) (parentKeys : List Key) :
    List ISAM2Clique → Bool
  | [] => true
  | c :: rest =>
    c.parents.all (fun k => decide (k ∈ parentKeys)) &&
      (!c.frontals.any (fun j => decide (j ∈ replacedKeys)) ||
        parentKeys.any (fun j => decide (j ∈ replacedKeys))) &&
      replacedFromAbove replacedKeys c &&
      replacedFromAboveList replacedKeys parentKeys rest
end

/-- A solve for the examples that depends on the separator: every frontal key gets the vector
that the store holds for the first separator key with a `1` in front, `[1]` at a root. -/
def stackSolve (c : ISAM2Clique) (result : VectorValues) : VectorValues :=
  c.frontals.map (fun k =>
    (k, Double.fin 1 :: (match c.parents with
      | [] => []
      | j :: _ => (result.find j).getD [])))

/-! ## Fixed-lag smoother -/

/-- The type `KeyTimestampMap` of the member `keyTimestampMap_` and of the argument of
`updateKeyTimestampMap`.  The calls made on it (`find`, `at`, `insert` of a pair, `erase` of a
key, assignment through the iterator that `find` returns) are those of a `std::map` from keys
to timestamps; timestamps are doubles other than NaN. -/
abbrev KeyTimestampMap := List (Key × Double)

/-- The type `TimestampKeyMap` of the member `timestampKeyMap_`.  The calls made on it
(`equal_range`, `lower_bound`, `upper_bound`, `insert` of a pair, `erase` of an iterator,
`rbegin`) and the loops over entries of equal timestamp are those of a `std::multimap` from
timestamps to keys: the entries in timestamp order, those of equal timestamp in the order of
their insertion.  An iterator is a position in the list, `end()` its length. -/
abbrev TimestampKeyMap := List (Double × Key)

namespace TimestampKeyMap

/-- The container keeps its entries in timestamp order. -/
def Ordered (m : TimestampKeyMap) : Prop := m.Pairwise (fun a b => a.1 ≤ b.1)

/-- The iterator `lower_bound(t)`: the position of the first entry whose timestamp is not below
`t`. -/
def lower_bound (m : TimestampKeyMap) (t : Double) : Nat :=
  (m.takeWhile (fun e => decide (e.1 < t))).length

/-- The iterator `upper_bound(t)`: the position of the first entry whose timestamp is above
`t`. -/
def upper_bound (m : TimestampKeyMap) (t : Double) : Nat :=
  (m.takeWhile (fun e => decide (e.1 ≤ t))).length

/-- The call `insert(value_type(t, k))`: the entry goes behind the entries whose timestamp is
not above `t`. -/
def insert : TimestampKeyMap → Double → Key → TimestampKeyMap
  | [], t, k => [(t, k)]
  | e :: rest, t, k => if t < e.1 then (t, k) :: e :: rest else e :: insert rest t k

end TimestampKeyMap

/-- Assignment through the iterator that `find(k)` returns: the entry of `k` gets the value
`v`. -/
def mapAssign {α : Type} (k : Key) (v : α) (store : List (Key × α)) : List (Key × α) :=
  store.map (fun kv => if kv.1 = k then (kv.1, v) else kv)

/-- The members of a `FixedLagSmoother` that the functions of `FixedLagSmoother.cpp` use. -/
structure FixedLagSmoother where
  /-- The member `smootherLag_`. -/
  smootherLag_ : Double
  /-- The member `keyTimestampMap_`. -/
  keyTimestampMap_ : KeyTimestampMap
  /-- The member `timestampKeyMap_`. -/
  timestampKeyMap_ : TimestampKeyMap

namespace FixedLagSmoother

/-- The test `std::fabs(a - b) < tol` on doubles other than NaN.  The difference of two finite
doubles is the double that their exact difference is rounded to, an infinity when it overflows;
`nearest`, the rounding of the double format, is declared by no source file and is taken as it
is.  When `a` or `b` is infinite the difference is infinite or NaN and the test is false. -/
def fabsLess (nearest : ℚ → Double) (a b tol : Double) : Bool :=
  match a, b with
  | .fin x, .fin y => decide ((nearest (x - y)).abs < tol)
  | _, _ => false

/-- The call `std::equal(first1, last1, first2)`: the entries of the first range are compared
in turn with the entries from `first2` on, and nothing checks that these exist; reading past
the end of the second container is undefined, and the model fails there. -/
def stdEqual : TimestampKeyMap → TimestampKeyMap → Except Error Bool
  | [], _ => .ok true
  | _ :: _, [] => .error .end_dereferenced
  | a :: rest1, b :: rest2 => if a = b then stdEqual rest1 rest2 else .ok false

/-- The function `FixedLagSmoother::equals`; `&&` evaluates its right side only when the left
one is true.  `nearest` is the rounding of the double format. -/
def equals (nearest : ℚ → Double) (self rhs : FixedLagSmoother) (tol : Double) :
    Except Error Bool :=
  if fabsLess nearest self.smootherLag_ rhs.smootherLag_ tol then
    stdEqual self.timestampKeyMap_ rhs.timestampKeyMap_
  else .ok false

/-- The loop `while(timeIter->second != key) ++timeIter;` of `updateKeyTimestampMap`, started
at the position `timeIter` from which on the entries are `entries`; nothing stops it at the end
of the equal range or of the container, and dereferencing `end()` is undefined: the model fails
there.  The result is the position at which the loop stops. -/
def searchLoop (key : Key) : List (Double × Key) → Nat → Except Error Nat
  | [], _ => .error .end_dereferenced
  | e :: entries, timeIter =>
    if e.2 ≠ key then searchLoop key entries (timeIter + 1) else .ok timeIter

/-- The body of the loop of `updateKeyTimestampMap` for one pair of `timestamps`. -/
def updateKeyTimestamp (self : FixedLagSmoother) (key : Key) (timestamp : Double) :
    Except Error FixedLagSmoother :=
  match List.lookup key self.keyTimestampMap_ with
  | some old =>
    let first := self.timestampKeyMap_.lower_bound old
    match searchLoop key (self.timestampKeyMap_.drop first) first with
    | .error e => .error e
    | .ok timeIter =>
      .ok { self with
        timestampKeyMap_ :=
          TimestampKeyMap.insert (self.timestampKeyMap_.eraseIdx timeIter) timestamp key
        keyTimestampMap_ := mapAssign key timestamp self.keyTimestampMap_ }
  | none =>
    .ok { self with
      keyTimestampMap_ := mapInsert key timestamp self.keyTimestampMap_
      timestampKeyMap_ := TimestampKeyMap.insert self.timestampKeyMap_ timestamp key }

/-- The function `FixedLagSmoother::updateKeyTimestampMap`; the pairs of `timestamps` come in
the order of the map. -/
def updateKeyTimestampMap (self : FixedLagSmoother) :
    KeyTimestampMap → Except Error FixedLagSmoother
  | [] => .ok self
  | (key, timestamp) :: rest =>
    match updateKeyTimestamp self key timestamp with
    | .error e => .error e
    | .ok self => updateKeyTimestampMap self rest

/-- The loop `while(iter != end() && iter->first == timestamp)` of `eraseKeyTimestampMap` over
the entries from `iter` on: what is left of them. -/
def eraseLoop (timestamp : Double) (key : Key) : List (Double × Key) → List (Double × Key)
  | [] => []
  | e :: entries =>
    if e.1 = timestamp then
      if e.2 = key then eraseLoop timestamp key entries
      else e :: eraseLoop timestamp key entries
    else e :: entries

/-- The body of the loop of `eraseKeyTimestampMap` for one key; `at` throws
`std::out_of_range` for a key that the map does not hold. -/
def eraseKeyTimestamp (self : FixedLagSmoother) (key : Key) : Except Error FixedLagSmoother :=
  match List.lookup key self.keyTimestampMap_ with
  | none => .error (.out_of_range key)
  | some timestamp =>
    let iter := self.timestampKeyMap_.lower_bound timestamp
    .ok { self with
      timestampKeyMap_ :=
        self.timestampKeyMap_.take iter ++
          eraseLoop timestamp key (self.timestampKeyMap_.drop iter)
      keyTimestampMap_ := mapErase self.keyTimestampMap_ key }

/-- The loop of `eraseKeyTimestampMap` over the keys in the order of the set. -/
def eraseKeys (self : FixedLagSmoother) : List Key → Except Error FixedLagSmoother
  | [] => .ok self
  | key :: rest =>
    match eraseKeyTimestamp self key with
    | .error e => .error e
    | .ok self => eraseKeys self rest

/-- The function `FixedLagSmoother::eraseKeyTimestampMap`; a `std::set<Key>` is gone through
in ascending order. -/
def eraseKeyTimestampMap (self : FixedLagSmoother) (keys : Finset Key) :
    Except Error FixedLagSmoother :=
  eraseKeys self (keys.sort (fun a b => a ≤ b))

/-- The function `FixedLagSmoother::findKeysBefore`: the keys of the entries before
`lower_bound(timestamp)`. -/
def findKeysBefore (self : FixedLagSmoother) (timestamp : Double) : Finset Key :=
  ((self.timestampKeyMap_.take (self.timestampKeyMap_.lower_bound timestamp)).map
    Prod.snd).toFinset

/-- The function `FixedLagSmoother::findKeysAfter`: the keys of the entries from
`upper_bound(timestamp)` on. -/
def findKeysAfter (self : FixedLagSmoother) (timestamp : Double) : Finset Key :=
  ((self.timestampKeyMap_.drop (self.timestampKeyMap_.upper_bound timestamp)).map
    Prod.snd).toFinset

/-- The two indexes agree: the multimap holds the pair of a timestamp and a key once when the
map sends the key to the timestamp, and not at all when it does not. -/
def IndexesAgree (self : FixedLagSmoother) : Prop :=
  ∀ (t : Double) (k : Key),
    self.timestampKeyMap_.countP (fun e => decide (e = (t, k))) =
      if List.lookup k self.keyTimestampMap_ = some t then 1 else 0

end FixedLagSmoother

/-- A smoother for the examples: lag `1`, the keys `x1` and `x2` stamped `0` and `x3` stamped
`1`. -/
def exampleSmoother : FixedLagSmoother where
  smootherLag_ := .fin 1
  keyTimestampMap_ := [(1, .fin 0), (2, .fin 0), (3, .fin 1)]
  timestampKeyMap_ := [(.fin 0, 1), (.fin 0, 2), (.fin 1, 3)]

/-- A smoother without keys, lag `1`. -/
def emptySmoother : FixedLagSmoother where
  smootherLag_ := .fin 1
  keyTimestampMap_ := []
  timestampKeyMap_ := []

/-- The constant `std::numeric_limits<double>::max()`, the largest finite double. -/
def numeric_limits_max : ℚ := (2 ^ 53 - 1) * 2 ^ 971

/-- The function `FixedLagSmoother::getCurrentTimestamp`: the timestamp of the last entry of
the multimap, `rbegin()->first`, when it has entries, and minus the largest finite double when
it has none. -/
def FixedLagSmoother.getCurrentTimestamp (self : FixedLagSmoother) : Double :=
  if h : self.timestampKeyMap_.length > 0 then
    (self.timestampKeyMap_.getLast (List.ne_nil_of_length_pos h)).1
  else .fin (-numeric_limits_max)

/-! ## Typedef instantiations of the wrap module -/

/-- The decrement of a `size_t` of 64 bits: at `0` it wraps to the largest value. -/
def size_t_dec (i : Nat) : Nat := (i + 2 ^ 64 - 1) % 2 ^ 64

/-- The increment of a `size_t` of 64 bits: at the largest value it wraps to `0`. -/
def size_t_inc (i : Nat) : Nat := (i + 1) % 2 ^ 64

/-- The loop of `Module::ExpandTypedefInstantiations` that appends the expansion of each
instantiation; `findAndExpand inst classes` is `inst.findAndExpand(classes)`, whose code is
elsewhere and which may throw. -/
def pushExpanded {Class Inst : Type} (findAndExpand : Inst → List Class → Except Error Class)
    (classes : List Class) : List Inst → List Class → Except Error (List Class)
  | [], expandedClasses => .ok expandedClasses
  | inst :: rest, expandedClasses =>
    match findAndExpand inst classes with
    | .error e => .error e
    | .ok c => pushExpanded findAndExpand classes rest (expandedClasses ++ [c])

/-- The loop `for(size_t i = 0; i < expandedClasses.size(); ++i)` of
`Module::ExpandTypedefInstantiations` from the test of its condition on, at most `fuel` tests;
`templateArgs` is the member of that name of a `Class`.  An erasure is followed by the
decrement of `i` and then by the increment of the loop header.  The result is `none` when the
tests run out. -/
def removeTemplates {Class : Type} (templateArgs : Class → List String) :
    Nat → List Class → Nat → Option (List Class)
  | 0, _, _ => none
  | fuel + 1, expandedClasses, i =>
    if h : i < expandedClasses.length then
      if !(templateArgs expandedClasses[i]).isEmpty then
        removeTemplates templateArgs fuel (expandedClasses.eraseIdx i)
          (size_t_inc (size_t_dec i))
      else
        removeTemplates templateArgs fuel expandedClasses (size_t_inc i)
    else some expandedClasses

/-- The function `Module::ExpandTypedefInstantiations`, with at most `fuel` tests of the
condition of its second loop. -/
def ExpandTypedefInstantiations {Class Inst : Type} (templateArgs : Class → List String)
    (findAndExpand : Inst → List Class → Except Error Class) (fuel : Nat)
    (classes : List Class) (instantiations : List Inst) :
    Except Error (Option (List Class)) :=
  match pushExpanded findAndExpand classes instantiations classes with
  | .error e => .error e
  | .ok expandedClasses => .ok (removeTemplates templateArgs fuel expandedClasses 0)

/-- Classes for the examples: a name and the template arguments. -/
def exampleClasses : List (String × List String) :=
  [("Pair", ["T"]), ("Point", []), ("Bag", ["E"])]

/-- An expansion for the examples: a class with the name of the instantiation and without
template arguments. -/
def exampleExpand (inst : String) (_classes : List (String × List String)) :
    Except Error (String × List String) :=
  .ok (inst, [])

/-! ## Lemmas -/

theorem Double.fin_le_fin {a b : ℚ} : Double.fin a ≤ Double.fin b ↔ a ≤ b := Iff.rfl

theorem Double.fin_lt_fin {a b : ℚ} : Double.fin a < Double.fin b ↔ a < b := by
  rw [lt_iff_le_not_le, lt_iff_le_not_le]
  exact Iff.rfl

theorem lookup_mem {α β : Type} [BEq α] [LawfulBEq α] :
    ∀ (l : List (α × β)) (k : α) (v : β), List.lookup k l = some v → (k, v) ∈ l
  | [], _, _, h => by simp at h
  | (a, b) :: rest, k, v, h => by
    by_cases hk : k = a
    · subst hk
      simp at h
      simp [h]
    · have hne : (k == a) = false := by simpa using hk
      rw [List.lookup_cons, hne] at h
      exact List.mem_cons_of_mem _ (lookup_mem rest k v h)

theorem lookup_of_mem_wf :
    ∀ (delta : VectorValues) (k : Key) (v : Vector), delta.WF → (k, v) ∈ delta →
      delta.find k = some v
  | [], _, _, _, h => by simp at h
  | (a, b) :: rest, k, v, hwf, h => by
    have hwf' : VectorValues.WF rest := (List.pairwise_cons.1 hwf).2
    have hlt : ∀ x ∈ rest, a < x.1 := by
      intro x hx
      exact (List.pairwise_cons.1 hwf).1 x.1 (List.mem_map_of_mem _ hx)
    rcases List.mem_cons.1 h with heq | hmem
    · cases heq
      simp [VectorValues.find]
    · have hne : k ≠ a := fun e => by
        have := hlt _ hmem
        simp [e] at this
      have hb : (k == a) = false := by simpa using hne
      have := lookup_of_mem_wf rest k v hwf' hmem
      simpa [VectorValues.find, List.lookup_cons, hb] using this

theorem cliqueLoopDouble_eq (threshold : Double) (delta : VectorValues) :
    ∀ (ks : List Key) (st : FastSet × Bool),
      cliqueLoopDouble threshold delta ks st = scanKeys (testDouble threshold delta) ks st
  | [], st => by simp [cliqueLoopDouble, scanKeys]
  | var :: rest, (S, r) => by
    have ih := cliqueLoopDouble_eq threshold delta rest
    have ht : testDouble threshold delta var =
        match delta.at var with
        | .error e => .error e
        | .ok d => .ok (decide (d.lpNormInf ≥ threshold)) := rfl
    cases hd : delta.at var with
    | error e => simp [cliqueLoopDouble, scanKeys, ht, hd]
    | ok d =>
      rw [hd] at ht
      by_cases h : d.lpNormInf ≥ threshold
      · simp [cliqueLoopDouble, scanKeys, ht, hd, h, ih]
      · simp [cliqueLoopDouble, scanKeys, ht, hd, h, ih]

theorem cliqueLoopMap_eq (chr : Key → Char) (thresholds : FastMap) (delta : VectorValues) :
    ∀ (ks : List Key) (st : FastSet × Bool),
      cliqueLoopMap chr thresholds delta ks st = scanKeys (testMap chr thresholds delta) ks st
  | [], st => by simp [cliqueLoopMap, scanKeys]
  | var :: rest, (S, r) => by
    have ih := cliqueLoopMap_eq chr thresholds delta rest
    have ht : testMap chr thresholds delta var =
        match thresholds.findSecond (chr var) with
        | .error e => .error e
        | .ok threshold =>
          match delta.at var with
          | .error e => .error e
          | .ok deltaVar =>
            if threshold.rows ≠ deltaVar.rows then
              .error (.invalid_argument (dimensionalityMessage (chr var)))
            else
              .ok (deltaVar.anyAbsGt threshold) := rfl
    cases hth : thresholds.findSecond (chr var) with
    | error e => simp [cliqueLoopMap, scanKeys, ht, hth]
    | ok threshold =>
      cases hd : delta.at var with
      | error e => simp [cliqueLoopMap, scanKeys, ht, hth, hd]
      | ok d =>
        rw [hth, hd] at ht
        by_cases hr : threshold.rows = d.rows
        · by_cases h : d.anyAbsGt threshold = true
          · simp [cliqueLoopMap, scanKeys, ht, hth, hd, hr, h, ih]
          · simp [cliqueLoopMap, scanKeys, ht, hth, hd, hr, h, ih]
        · simp [cliqueLoopMap, scanKeys, ht, hth, hd, hr]

mutual
theorem recursiveDouble_eq (threshold : Double) (delta : VectorValues) :
    ∀ (c : ISAM2Clique) (S : FastSet),
      CheckRelinearizationRecursiveDouble threshold delta S c =
        scan (testDouble threshold delta) S c
  | .mk f p ch, S => by
    unfold CheckRelinearizationRecursiveDouble scan
    rw [cliqueLoopDouble_eq]
    cases scanKeys (testDouble threshold delta) (f ++ p) (S, false) with
    | error e => rfl
    | ok st =>
      obtain ⟨S', r⟩ := st
      cases r
      · rfl
      · simp [recursiveDoubleChildren_eq threshold delta ch S']
theorem recursiveDoubleChildren_eq (threshold : Double) (delta : VectorValues) :
    ∀ (cs : List ISAM2Clique) (S : FastSet),
      CheckRelinearizationRecursiveDoubleChildren threshold delta S cs =
        scanChildren (testDouble threshold delta) S cs
  | [], S => by simp [CheckRelinearizationRecursiveDoubleChildren, scanChildren]
  | c :: rest, S => by
    unfold CheckRelinearizationRecursiveDoubleChildren scanChildren
    rw [recursiveDouble_eq threshold delta c S]
    cases scan (testDouble threshold delta) S c with
    | error e => rfl
    | ok S' => simp [recursiveDoubleChildren_eq threshold delta rest S']
end

mutual
theorem recursiveMap_eq (chr : Key → Char) (thresholds : FastMap) (delta : VectorValues) :
    ∀ (c : ISAM2Clique) (S : FastSet),
      CheckRelinearizationRecursiveMap chr thresholds delta S c =
        scan (testMap chr thresholds delta) S c
  | .mk f p ch, S => by
    unfold CheckRelinearizationRecursiveMap scan
    rw [cliqueLoopMap_eq]
    cases scanKeys (testMap chr thresholds delta) (f ++ p) (S, false) with
    | error e => rfl
    | ok st =>
      obtain ⟨S', r⟩ := st
      cases r
      · rfl
      · simp [recursiveMapChildren_eq chr thresholds delta ch S']
theorem recursiveMapChildren_eq (chr : Key → Char) (thresholds : FastMap)
    (delta : VectorValues) :
    ∀ (cs : List ISAM2Clique) (S : FastSet),
      CheckRelinearizationRecursiveMapChildren chr thresholds delta S cs =
        scanChildren (testMap chr thresholds delta) S cs
  | [], S => by simp [CheckRelinearizationRecursiveMapChildren, scanChildren]
  | c :: rest, S => by
    unfold CheckRelinearizationRecursiveMapChildren scanChildren
    rw [recursiveMap_eq chr thresholds delta c S]
    cases scan (testMap chr thresholds delta) S c with
    | error e => rfl
    | ok S' => simp [recursiveMapChildren_eq chr thresholds delta rest S']
end

theorem recursive_eq (chr : Key → Char) (delta : VectorValues)
    (thr : RelinearizationThreshold) (c : ISAM2Clique) (S : FastSet) :
    CheckRelinearizationRecursive chr delta thr S c = scan (keyTest chr delta thr) S c := by
  cases thr with
  | scalar t => exact recursiveDouble_eq t delta c S
  | perType m => exact recursiveMap_eq chr m delta c S

/-- The loop over the roots is the traversal of the children of a virtual root. -/
theorem rootsLoop_eq (chr : Key → Char) (delta : VectorValues) (thr : RelinearizationThreshold) :
    ∀ (roots : List ISAM2Clique) (S : FastSet),
      rootsLoop chr delta thr roots S = scanChildren (keyTest chr delta thr) S roots
  | [], S => by simp [rootsLoop, scanChildren]
  | r :: rest, S => by
    have ih := rootsLoop_eq chr delta thr rest
    simp only [rootsLoop, scanChildren, recursive_eq]
    cases scan (keyTest chr delta thr) S r with
    | error e => rfl
    | ok S' => exact ih S'

theorem scanChildren_append (test : Key → Except Error Bool) :
    ∀ (xs ys : List ISAM2Clique) (S : FastSet),
      scanChildren test S (xs ++ ys) =
        match scanChildren test S xs with
        | .error e => .error e
        | .ok S' => scanChildren test S' ys
  | [], ys, S => by simp [scanChildren]
  | x :: xs, ys, S => by
    simp only [List.cons_append, scanChildren]
    cases scan test S x with
    | error e => rfl
    | ok S' => exact scanChildren_append test xs ys S'

theorem ISAM2Clique.keys_mk (f p : List Key) (ch : List ISAM2Clique) :
    (ISAM2Clique.mk f p ch).keys = f ++ p := rfl

theorem ISAM2Clique.children_mk (f p : List Key) (ch : List ISAM2Clique) :
    (ISAM2Clique.mk f p ch).children = ch := rfl

/-- When every key test succeeds, the loop over the keys of a clique adds the flagged keys and
raises the flag when there is one. -/
theorem scanKeys_ok (test : Key → Except Error Bool) (flag : Key → Bool) :
    ∀ (ks : List Key) (S : FastSet) (r : Bool), (∀ k ∈ ks, test k = .ok (flag k)) →
      scanKeys test ks (S, r) = .ok (S ∪ (ks.filter flag).toFinset, r || ks.any flag)
  | [], S, r, _ => by simp [scanKeys]
  | var :: rest, S, r, h => by
    have hv : test var = .ok (flag var) := h var (List.mem_cons_self _ _)
    have ih := fun S r => scanKeys_ok test flag rest S r
      (fun k hk => h k (List.mem_cons_of_mem _ hk))
    cases hf : flag var with
    | true =>
      rw [hf] at hv
      simp only [scanKeys, hv, ih]
      refine congrArg Except.ok (Prod.ext ?_ ?_)
      · ext k
        simp [hf]
      · simp [hf]
    | false =>
      rw [hf] at hv
      simp only [scanKeys, hv, ih]
      refine congrArg Except.ok (Prod.ext ?_ ?_)
      · ext k
        simp [hf]
      · simp [hf]

/-- A clique without flagged key stops the traversal: nothing is added. -/
theorem scan_stop (test : Key → Except Error Bool) (c : ISAM2Clique) (S : FastSet)
    (h : ∀ k ∈ c.keys, test k = .ok false) : scan test S c = .ok S := by
  obtain ⟨f, p, ch⟩ := c
  have hk := scanKeys_ok test (fun _ => false) (f ++ p) S false h
  simp [scan, hk]

theorem reached_mk (flag : Key → Bool) (f p : List Key) (ch : List ISAM2Clique)
    (d : ISAM2Clique) :
    Reached flag (.mk f p ch) d ↔
      d = .mk f p ch ∨
        ((∃ k ∈ f ++ p, flag k = true) ∧ ∃ c ∈ ch, Reached flag c d) := by
  constructor
  · intro h
    cases h with
    | here => exact Or.inl rfl
    | descend hflag hchild hrest => exact Or.inr ⟨hflag, _, hchild, hrest⟩
  · rintro (rfl | ⟨hflag, c, hc, hr⟩)
    · exact Reached.here _
    · exact Reached.descend hflag hc hr

mutual
/-- The traversal returns the flagged keys of the cliques it reaches. -/
theorem scan_spec (test : Key → Except Error Bool) (flag : Key → Bool) :
    ∀ (c : ISAM2Clique) (S : FastSet), (∀ k ∈ c.allKeys, test k = .ok (flag k)) →
      ∃ S', scan test S c = .ok S' ∧
        ∀ k, k ∈ S' ↔ k ∈ S ∨ ∃ d, Reached flag c d ∧ k ∈ d.keys ∧ flag k = true
  | .mk f p ch, S, h => by
    have hk := scanKeys_ok test flag (f ++ p) S false
      (fun k hk => h k (by
        rw [ISAM2Clique.allKeys]
        exact List.mem_append_left _ hk))
    have hch : ∀ k ∈ allKeysList ch, test k = .ok (flag k) :=
      fun k hk => h k (by
        rw [ISAM2Clique.allKeys]
        exact List.mem_append_right _ hk)
    have hhere : ∀ k, k ∈ S ∪ ((f ++ p).filter flag).toFinset ↔
        k ∈ S ∨ (k ∈ f ++ p ∧ flag k = true) := by
      intro k
      rw [Finset.mem_union, List.mem_toFinset, List.mem_filter]
    cases hany : (f ++ p).any flag with
    | false =>
      have hno : ¬ ∃ k ∈ f ++ p, flag k = true := by
        intro hex
        have := List.any_eq_true.2 hex
        rw [hany] at this
        exact Bool.noConfusion this
      refine ⟨S ∪ ((f ++ p).filter flag).toFinset, ?_, ?_⟩
      · simp only [scan, hk, hany, Bool.or_self]
        rfl
      · intro k
        rw [hhere]
        constructor
        · rintro (h1 | ⟨h2, h3⟩)
          · exact Or.inl h1
          · exact Or.inr ⟨_, Reached.here _, h2, h3⟩
        · rintro (h1 | ⟨d, hr, hkd, hfk⟩)
          · exact Or.inl h1
          · rcases (reached_mk flag f p ch d).1 hr with rfl | ⟨hex, _⟩
            · exact Or.inr ⟨hkd, hfk⟩
            · exact absurd hex hno
    | true =>
      have hyes : ∃ k ∈ f ++ p, flag k = true := List.any_eq_true.1 hany
      obtain ⟨S', hS', hmem⟩ :=
        scanChildren_spec test flag ch (S ∪ ((f ++ p).filter flag).toFinset) hch
      refine ⟨S', ?_, ?_⟩
      · simp only [scan, hk, hany, Bool.or_true]
        exact hS'
      · intro k
        rw [hmem, hhere]
        constructor
        · rintro ((h1 | ⟨h2, h3⟩) | ⟨c, hc, d, hr, hkd, hfk⟩)
          · exact Or.inl h1
          · exact Or.inr ⟨_, Reached.here _, h2, h3⟩
          · exact Or.inr ⟨d, Reached.descend hyes hc hr, hkd, hfk⟩
        · rintro (h1 | ⟨d, hr, hkd, hfk⟩)
          · exact Or.inl (Or.inl h1)
          · rcases (reached_mk flag f p ch d).1 hr with rfl | ⟨_, c, hc, hr'⟩
            · exact Or.inl (Or.inr ⟨hkd, hfk⟩)
            · exact Or.inr ⟨c, hc, d, hr', hkd, hfk⟩
/-- The traversal of a list of cliques returns the flagged keys of the cliques it reaches. -/
theorem scanChildren_spec (test : Key → Except Error Bool) (flag : Key → Bool) :
    ∀ (cs : List ISAM2Clique) (S : FastSet), (∀ k ∈ allKeysList cs, test k = .ok (flag k)) →
      ∃ S', scanChildren test S cs = .ok S' ∧
        ∀ k, k ∈ S' ↔
          k ∈ S ∨ ∃ c ∈ cs, ∃ d, Reached flag c d ∧ k ∈ d.keys ∧ flag k = true
  | [], S, _ => ⟨S, by simp [scanChildren], by simp⟩
  | c :: rest, S, h => by
    obtain ⟨S1, hS1, hmem1⟩ := scan_spec test flag c S
      (fun k hk => h k (by
        rw [allKeysList]
        exact List.mem_append_left _ hk))
    obtain ⟨S2, hS2, hmem2⟩ := scanChildren_spec test flag rest S1
      (fun k hk => h k (by
        rw [allKeysList]
        exact List.mem_append_right _ hk))
    refine ⟨S2, by simp [scanChildren, hS1, hS2], ?_⟩
    intro k
    rw [hmem2, hmem1]
    constructor
    · rintro ((h1 | ⟨d, hd⟩) | ⟨c', hc', d, hd⟩)
      · exact Or.inl h1
      · exact Or.inr ⟨c, List.mem_cons_self _ _, d, hd⟩
      · exact Or.inr ⟨c', List.mem_cons_of_mem _ hc', d, hd⟩
    · rintro (h1 | ⟨c', hc', d, hd⟩)
      · exact Or.inl (Or.inl h1)
      · rcases List.mem_cons.1 hc' with rfl | hc''
        · exact Or.inl (Or.inr ⟨d, hd⟩)
        · exact Or.inr ⟨c', hc'', d, hd⟩
end

/-! ### The full scan -/

theorem foldl_max_le_iff (t : Double) :
    ∀ (xs : Vector) (a : Double),
      t ≤ xs.foldl (fun m y => max m y.abs) a ↔ t ≤ a ∨ ∃ x ∈ xs, t ≤ x.abs
  | [], a => by simp
  | y :: ys, a => by
    rw [List.foldl_cons, foldl_max_le_iff t ys (max a y.abs), le_max_iff]
    constructor
    · rintro ((h | h) | ⟨x, hx, h⟩)
      · exact Or.inl h
      · exact Or.inr ⟨y, List.mem_cons_self _ _, h⟩
      · exact Or.inr ⟨x, List.mem_cons_of_mem _ hx, h⟩
    · rintro (h | ⟨x, hx, h⟩)
      · exact Or.inl (Or.inl h)
      · rcases List.mem_cons.1 hx with rfl | hx'
        · exact Or.inl (Or.inr h)
        · exact Or.inr ⟨x, hx', h⟩

theorem le_lpNormInf_iff (t : Double) (v : Vector) :
    t ≤ v.lpNormInf ↔ if v = [] then t ≤ 0 else ∃ x ∈ v, t ≤ x.abs := by
  cases v with
  | nil => simp [Vector.lpNormInf]
  | cons x xs =>
    rw [Vector.lpNormInf, foldl_max_le_iff, if_neg (List.cons_ne_nil _ _)]
    constructor
    · rintro (h | ⟨y, hy, h⟩)
      · exact ⟨x, List.mem_cons_self _ _, h⟩
      · exact ⟨y, List.mem_cons_of_mem _ hy, h⟩
    · rintro ⟨y, hy, h⟩
      rcases List.mem_cons.1 hy with rfl | hy'
      · exact Or.inl h
      · exact Or.inr ⟨y, hy', h⟩

theorem exists_isLargestAbs : ∀ (v : Vector), v ≠ [] → ∃ m, IsLargestAbs v m
  | [], h => absurd rfl h
  | [x], _ => ⟨x.abs, ⟨x, List.mem_singleton_self _, rfl⟩, by
      intro y hy
      rw [List.mem_singleton.1 hy]⟩
  | x :: y :: ys, _ => by
    obtain ⟨m, ⟨z, hz, hzm⟩, hle⟩ := exists_isLargestAbs (y :: ys) (List.cons_ne_nil _ _)
    rcases le_total x.abs m with h | h
    · refine ⟨m, ⟨z, List.mem_cons_of_mem _ hz, hzm⟩, ?_⟩
      intro w hw
      rcases List.mem_cons.1 hw with rfl | hw'
      · exact h
      · exact hle w hw'
    · refine ⟨x.abs, ⟨x, List.mem_cons_self _ _, rfl⟩, ?_⟩
      intro w hw
      rcases List.mem_cons.1 hw with rfl | hw'
      · exact le_refl _
      · exact le_trans (hle w hw') h

/-- A vector with a component reaches `t` in some component exactly when its largest absolute
component does. -/
theorem exists_abs_ge_iff (t : Double) (v : Vector) (hv : v ≠ []) :
    (∃ x ∈ v, t ≤ x.abs) ↔ ∃ m, IsLargestAbs v m ∧ t ≤ m := by
  constructor
  · rintro ⟨x, hx, h⟩
    obtain ⟨m, hm⟩ := exists_isLargestAbs v hv
    exact ⟨m, hm, le_trans h (hm.2 x hx)⟩
  · rintro ⟨m, ⟨⟨x, hx, hxm⟩, _⟩, h⟩
    exact ⟨x, hx, hxm ▸ h⟩

theorem fullLoopDouble_mem (t : Double) :
    ∀ (delta : VectorValues) (S : FastSet) (k : Key),
      k ∈ fullLoopDouble t delta S ↔ k ∈ S ∨ ∃ v, (k, v) ∈ delta ∧ t ≤ v.lpNormInf
  | [], S, k => by simp [fullLoopDouble]
  | (a, b) :: rest, S, k => by
    by_cases h : b.lpNormInf ≥ t
    · simp only [fullLoopDouble, h, if_true]
      rw [fullLoopDouble_mem t rest, Finset.mem_insert]
      constructor
      · rintro ((rfl | h1) | ⟨v, hv, hle⟩)
        · exact Or.inr ⟨b, List.mem_cons_self _ _, h⟩
        · exact Or.inl h1
        · exact Or.inr ⟨v, List.mem_cons_of_mem _ hv, hle⟩
      · rintro (h1 | ⟨v, hv, hle⟩)
        · exact Or.inl (Or.inr h1)
        · rcases List.mem_cons.1 hv with heq | hv'
          · cases heq
            exact Or.inl (Or.inl rfl)
          · exact Or.inr ⟨v, hv', hle⟩
    · simp only [fullLoopDouble, h, if_false]
      rw [fullLoopDouble_mem t rest]
      constructor
      · rintro (h1 | ⟨v, hv, hle⟩)
        · exact Or.inl h1
        · exact Or.inr ⟨v, List.mem_cons_of_mem _ hv, hle⟩
      · rintro (h1 | ⟨v, hv, hle⟩)
        · exact Or.inl h1
        · rcases List.mem_cons.1 hv with heq | hv'
          · cases heq
            exact absurd hle h
          · exact Or.inr ⟨v, hv', hle⟩

theorem anyAbsGt_iff :
    ∀ (a b : Vector), a.anyAbsGt b = true ↔
      ∃ i, ∃ (h1 : i < a.length) (h2 : i < b.length), a[i].abs > b[i]
  | [], b => by simp [Vector.anyAbsGt]
  | x :: xs, [] => by simp [Vector.anyAbsGt]
  | x :: xs, t :: ts => by
    have ih := anyAbsGt_iff xs ts
    simp only [Vector.anyAbsGt] at ih ⊢
    rw [List.zipWith_cons_cons, List.any_cons, Bool.or_eq_true, ih]
    constructor
    · rintro (h | ⟨i, h1, h2, h⟩)
      · exact ⟨0, Nat.succ_pos _, Nat.succ_pos _, by simpa using h⟩
      · exact ⟨i + 1, Nat.succ_lt_succ h1, Nat.succ_lt_succ h2, by simpa using h⟩
    · rintro ⟨i, h1, h2, h⟩
      cases i with
      | zero => exact Or.inl (by simpa using h)
      | succ j =>
        exact Or.inr ⟨j, Nat.lt_of_succ_lt_succ h1, Nat.lt_of_succ_lt_succ h2,
          by simpa using h⟩

theorem fullLoopMap_cons (chr : Key → Char) (m : FastMap) (a : Key) (b th : Vector)
    (rest : VectorValues) (S : FastSet) (hth : List.lookup (chr a) m = some th) :
    fullLoopMap chr m ((a, b) :: rest) S =
      if th.length ≠ b.length then
        .error (.invalid_argument (dimensionalityMessage (chr a)))
      else if b.anyAbsGt th then fullLoopMap chr m rest (insert a S)
      else fullLoopMap chr m rest S := by
  simp [fullLoopMap, FastMap.findSecond, hth, Vector.rows]

theorem fullLoopMap_ok (chr : Key → Char) (m : FastMap) :
    ∀ (delta : VectorValues) (S : FastSet),
      (∀ kv ∈ delta, ∃ th, List.lookup (chr kv.1) m = some th ∧ th.length = kv.2.length) →
      ∃ S', fullLoopMap chr m delta S = .ok S' ∧
        ∀ k, k ∈ S' ↔ k ∈ S ∨
          ∃ v th, (k, v) ∈ delta ∧ List.lookup (chr k) m = some th ∧ v.anyAbsGt th = true
  | [], S, _ => ⟨S, by simp [fullLoopMap], by simp⟩
  | (a, b) :: rest, S, h => by
    obtain ⟨th, hth, hlen⟩ := h (a, b) (List.mem_cons_self _ _)
    have hrest : ∀ kv ∈ rest,
        ∃ th, List.lookup (chr kv.1) m = some th ∧ th.length = kv.2.length :=
      fun kv hkv => h kv (List.mem_cons_of_mem _ hkv)
    rw [fullLoopMap_cons chr m a b th rest S hth, if_neg (not_not.2 hlen)]
    by_cases hany : b.anyAbsGt th = true
    · rw [if_pos hany]
      obtain ⟨S', hS', hmem⟩ := fullLoopMap_ok chr m rest (insert a S) hrest
      refine ⟨S', hS', fun k => ?_⟩
      rw [hmem, Finset.mem_insert]
      constructor
      · rintro ((rfl | h1) | ⟨v, th', hv, hl, hg⟩)
        · exact Or.inr ⟨b, th, List.mem_cons_self _ _, hth, hany⟩
        · exact Or.inl h1
        · exact Or.inr ⟨v, th', List.mem_cons_of_mem _ hv, hl, hg⟩
      · rintro (h1 | ⟨v, th', hv, hl, hg⟩)
        · exact Or.inl (Or.inr h1)
        · rcases List.mem_cons.1 hv with heq | hv'
          · cases heq
            exact Or.inl (Or.inl rfl)
          · exact Or.inr ⟨v, th', hv', hl, hg⟩
    · rw [if_neg hany]
      obtain ⟨S', hS', hmem⟩ := fullLoopMap_ok chr m rest S hrest
      refine ⟨S', hS', fun k => ?_⟩
      rw [hmem]
      constructor
      · rintro (h1 | ⟨v, th', hv, hl, hg⟩)
        · exact Or.inl h1
        · exact Or.inr ⟨v, th', List.mem_cons_of_mem _ hv, hl, hg⟩
      · rintro (h1 | ⟨v, th', hv, hl, hg⟩)
        · exact Or.inl h1
        · rcases List.mem_cons.1 hv with heq | hv'
          · cases heq
            rw [hth] at hl
            cases hl
            exact absurd hg hany
          · exact Or.inr ⟨v, th', hv', hl, hg⟩

theorem fullLoopMap_error (chr : Key → Char) (m : FastMap) :
    ∀ (delta : VectorValues) (S : FastSet) (e : Error),
      (∀ kv ∈ delta, ∃ th, List.lookup (chr kv.1) m = some th) →
      fullLoopMap chr m delta S = .error e →
      ∃ kv ∈ delta, ∃ th, List.lookup (chr kv.1) m = some th ∧ th.length ≠ kv.2.length ∧
        e = .invalid_argument (dimensionalityMessage (chr kv.1))
  | [], S, e, _, he => by simp [fullLoopMap] at he
  | (a, b) :: rest, S, e, h, he => by
    obtain ⟨th, hth⟩ := h (a, b) (List.mem_cons_self _ _)
    have hrest : ∀ kv ∈ rest, ∃ th, List.lookup (chr kv.1) m = some th :=
      fun kv hkv => h kv (List.mem_cons_of_mem _ hkv)
    rw [fullLoopMap_cons chr m a b th rest S hth] at he
    by_cases hlen : th.length = b.length
    · rw [if_neg (not_not.2 hlen)] at he
      have key : ∀ S', fullLoopMap chr m rest S' = .error e →
          ∃ kv ∈ (a, b) :: rest, ∃ th, List.lookup (chr kv.1) m = some th ∧
            th.length ≠ kv.2.length ∧
            e = .invalid_argument (dimensionalityMessage (chr kv.1)) := by
        intro S' hS'
        obtain ⟨kv, hkv, hx⟩ := fullLoopMap_error chr m rest S' e hrest hS'
        exact ⟨kv, List.mem_cons_of_mem _ hkv, hx⟩
      by_cases hany : b.anyAbsGt th = true
      · rw [if_pos hany] at he
        exact key _ he
      · rw [if_neg hany] at he
        exact key _ he
    · rw [if_pos hlen] at he
      refine ⟨(a, b), List.mem_cons_self _ _, th, hth, hlen, ?_⟩
      cases he
      rfl

theorem fullLoopMap_mismatch (chr : Key → Char) (m : FastMap) :
    ∀ (delta : VectorValues) (S : FastSet),
      (∀ kv ∈ delta, ∃ th, List.lookup (chr kv.1) m = some th) →
      (∃ kv ∈ delta, ∃ th,
        List.lookup (chr kv.1) m = some th ∧ th.length ≠ kv.2.length) →
      ∃ e, fullLoopMap chr m delta S = .error e
  | [], S, _, hm => by
    obtain ⟨kv, hkv, _⟩ := hm
    simp at hkv
  | (a, b) :: rest, S, h, hm => by
    obtain ⟨th, hth⟩ := h (a, b) (List.mem_cons_self _ _)
    have hrest : ∀ kv ∈ rest, ∃ th, List.lookup (chr kv.1) m = some th :=
      fun kv hkv => h kv (List.mem_cons_of_mem _ hkv)
    rw [fullLoopMap_cons chr m a b th rest S hth]
    by_cases hlen : th.length = b.length
    · rw [if_neg (not_not.2 hlen)]
      have hm' : ∃ kv ∈ rest, ∃ th, List.lookup (chr kv.1) m = some th ∧
          th.length ≠ kv.2.length := by
        obtain ⟨kv, hkv, th', hth', hne⟩ := hm
        rcases List.mem_cons.1 hkv with heq | hkv'
        · subst heq
          rw [hth] at hth'
          cases hth'
          exact absurd hlen hne
        · exact ⟨kv, hkv', th', hth', hne⟩
      by_cases hany : b.anyAbsGt th = true
      · rw [if_pos hany]
        exact fullLoopMap_mismatch chr m rest _ hrest hm'
      · rw [if_neg hany]
        exact fullLoopMap_mismatch chr m rest _ hrest hm'
    · rw [if_pos hlen]
      exact ⟨_, rfl⟩

/-! ### The key test -/

theorem keyTest_scalar_of_find (chr : Key → Char) (delta : VectorValues) (t : Double) (k : Key)
    (v : Vector) (h : delta.find k = some v) :
    keyTest chr delta (.scalar t) k = .ok (decide (t ≤ v.lpNormInf)) := by
  simp [keyTest, testDouble, VectorValues.at, h]

theorem keyTest_perType_of_find (chr : Key → Char) (delta : VectorValues) (m : FastMap)
    (k : Key) (v th : Vector) (h : delta.find k = some v)
    (hth : List.lookup (chr k) m = some th) (hlen : th.length = v.length) :
    keyTest chr delta (.perType m) k = .ok (v.anyAbsGt th) := by
  simp [keyTest, testMap, VectorValues.at, FastMap.findSecond, h, hth, Vector.rows, hlen]

theorem keyTest_eq_satisfies (chr : Key → Char) (delta : VectorValues)
    (thr : RelinearizationThreshold) (k : Key) (b : Bool)
    (h : keyTest chr delta thr k = .ok b) :
    keyTest chr delta thr k = .ok (satisfies chr delta thr k) := by
  simp [satisfies, h]

theorem keyTest_ok (chr : Key → Char) (delta : VectorValues) (thr : RelinearizationThreshold)
    (hfit : ThresholdFits chr delta thr) (k : Key) (v : Vector) (h : delta.find k = some v) :
    keyTest chr delta thr k = .ok (satisfies chr delta thr k) := by
  cases thr with
  | scalar t => exact keyTest_eq_satisfies _ _ _ _ _ (keyTest_scalar_of_find chr delta t k v h)
  | perType m =>
    obtain ⟨th, hth, hlen⟩ := hfit (k, v) (lookup_mem _ _ _ h)
    exact keyTest_eq_satisfies _ _ _ _ _ (keyTest_perType_of_find chr delta m k v th h hth hlen)

theorem full_ok (chr : Key → Char) (delta : VectorValues) (thr : RelinearizationThreshold)
    (hfit : ThresholdFits chr delta thr) :
    ∃ F, CheckRelinearizationFull chr delta thr = .ok F ∧
      ∀ k, satisfies chr delta thr k = true → k ∈ F := by
  cases thr with
  | scalar t =>
    refine ⟨_, rfl, fun k hk => ?_⟩
    rw [fullLoopDouble_mem]
    right
    cases hf : delta.find k with
    | none => simp [satisfies, keyTest, testDouble, VectorValues.at, hf] at hk
    | some v =>
      rw [satisfies, keyTest_scalar_of_find chr delta t k v hf] at hk
      exact ⟨v, lookup_mem _ _ _ hf, by simpa using hk⟩
  | perType m =>
    obtain ⟨F, hF, hmem⟩ := fullLoopMap_ok chr m delta ∅ hfit
    refine ⟨F, hF, fun k hk => ?_⟩
    rw [hmem]
    right
    cases hf : delta.find k with
    | none =>
      cases hth : List.lookup (chr k) m <;>
        simp [satisfies, keyTest, testMap, VectorValues.at, FastMap.findSecond, hf, hth] at hk
    | some v =>
      obtain ⟨th, hth, hlen⟩ := hfit (k, v) (lookup_mem _ _ _ hf)
      rw [satisfies, keyTest_perType_of_find chr delta m k v th hf hth hlen] at hk
      exact ⟨v, th, lookup_mem _ _ _ hf, hth, hk⟩

theorem scanRoots_spec (chr : Key → Char) (roots : List ISAM2Clique) (delta : VectorValues)
    (thr : RelinearizationThreshold) (hfit : ThresholdFits chr delta thr)
    (hentry : ∀ k ∈ allKeysList roots, ∃ v, delta.find k = some v) :
    ∃ P, CheckRelinearizationPartial chr roots delta thr = .ok P ∧
      ∀ k, k ∈ P ↔ ∃ r ∈ roots, ∃ d,
        Reached (satisfies chr delta thr) r d ∧ k ∈ d.keys ∧
          satisfies chr delta thr k = true := by
  obtain ⟨P, hP, hmem⟩ := scanChildren_spec (keyTest chr delta thr) (satisfies chr delta thr)
    roots ∅ (fun k hk => by
      obtain ⟨v, hv⟩ := hentry k hk
      exact keyTest_ok chr delta thr hfit k v hv)
  refine ⟨P, by rw [CheckRelinearizationPartial, rootsLoop_eq, hP], fun k => ?_⟩
  rw [hmem]
  simp

theorem fullLoopMap_fits (chr : Key → Char) (m : FastMap) :
    ∀ (delta : VectorValues) (S F : FastSet), fullLoopMap chr m delta S = .ok F →
      ∀ kv ∈ delta, ∃ th, List.lookup (chr kv.1) m = some th ∧ th.length = kv.2.length
  | [], _, _, _ => by simp
  | (a, b) :: rest, S, F, h => by
    cases hth : List.lookup (chr a) m with
    | none => simp [fullLoopMap, FastMap.findSecond, hth] at h
    | some th =>
      rw [fullLoopMap_cons chr m a b th rest S hth] at h
      by_cases hlen : th.length = b.length
      · rw [if_neg (not_not.2 hlen)] at h
        have hrest : ∀ kv ∈ rest,
            ∃ th, List.lookup (chr kv.1) m = some th ∧ th.length = kv.2.length := by
          by_cases hany : b.anyAbsGt th = true
          · rw [if_pos hany] at h
            exact fullLoopMap_fits chr m rest _ F h
          · rw [if_neg hany] at h
            exact fullLoopMap_fits chr m rest _ F h
        intro kv hkv
        rcases List.mem_cons.1 hkv with rfl | hkv'
        · exact ⟨th, hth, hlen⟩
        · exact hrest kv hkv'
      · rw [if_pos hlen] at h
        cases h

theorem full_fits (chr : Key → Char) (delta : VectorValues) (thr : RelinearizationThreshold)
    (F : FastSet) (h : CheckRelinearizationFull chr delta thr = .ok F) :
    ThresholdFits chr delta thr := by
  cases thr with
  | scalar t => trivial
  | perType m => exact fullLoopMap_fits chr m delta ∅ F h

theorem full_mem_satisfies (chr : Key → Char) (delta : VectorValues)
    (thr : RelinearizationThreshold) (hwf : delta.WF) (F : FastSet)
    (h : CheckRelinearizationFull chr delta thr = .ok F) (k : Key) :
    k ∈ F ↔ satisfies chr delta thr k = true := by
  have hfit := full_fits chr delta thr F h
  constructor
  · intro hk
    cases thr with
    | scalar t =>
      simp only [CheckRelinearizationFull, Except.ok.injEq] at h
      rw [← h, fullLoopDouble_mem] at hk
      rcases hk with hk | ⟨v, hv, hle⟩
      · simp at hk
      · rw [satisfies, keyTest_scalar_of_find chr delta t k v (lookup_of_mem_wf _ _ _ hwf hv)]
        simpa using hle
    | perType m =>
      obtain ⟨F', hF', hmem⟩ := fullLoopMap_ok chr m delta ∅ hfit
      have hFF : F' = F := by
        simp only [CheckRelinearizationFull] at h
        rw [hF'] at h
        exact Except.ok.inj h
      subst hFF
      rw [hmem] at hk
      rcases hk with hk | ⟨v, th, hv, hth, hg⟩
      · simp at hk
      · obtain ⟨th', hth', hlen⟩ := hfit (k, v) hv
        rw [hth] at hth'
        cases hth'
        rw [satisfies, keyTest_perType_of_find chr delta m k v th
          (lookup_of_mem_wf _ _ _ hwf hv) hth hlen]
        exact hg
  · intro hk
    obtain ⟨F', hF', hmem⟩ := full_ok chr delta thr hfit
    rw [h] at hF'
    cases hF'
    exact hmem k hk

/-! ## The claims -/

/-- C1: when the delta store has an entry for every key of the forest and a per-type threshold
map fits the delta store, both scans return a key set, the key set of the partial scan is a
subset of the key set of the full scan, and every key the partial scan returns satisfies the
threshold with its own delta. -/
theorem CheckRelinearizationPartial_subset_Full (chr : Key → Char) (roots : List ISAM2Clique)
    (delta : VectorValues) (thr : RelinearizationThreshold)
    (hentry : ∀ k ∈ allKeysList roots, ∃ v, delta.find k = some v)
    (hfit : ThresholdFits chr delta thr) :
    ∃ P F, CheckRelinearizationPartial chr roots delta thr = .ok P ∧
      CheckRelinearizationFull chr delta thr = .ok F ∧ P ⊆ F ∧
      ∀ k ∈ P, satisfies chr delta thr k = true := by
  obtain ⟨P, hP, hmemP⟩ := scanRoots_spec chr roots delta thr hfit hentry
  obtain ⟨F, hF, hmemF⟩ := full_ok chr delta thr hfit
  have hsat : ∀ k ∈ P, satisfies chr delta thr k = true := by
    intro k hk
    obtain ⟨_, _, _, _, _, hs⟩ := (hmemP k).1 hk
    exact hs
  exact ⟨P, F, hP, hF, fun k hk => hmemF k (hsat k hk), hsat⟩

/-- C2: with a scalar threshold `t` the full scan returns exactly the keys of the delta store
whose largest absolute component is at least `t`; a key whose vector has no component at all
has norm `0` and is returned when `t ≤ 0`. -/
theorem CheckRelinearizationFull_scalar (chr : Key → Char) (delta : VectorValues) (t : Double) :
    ∃ F, CheckRelinearizationFull chr delta (.scalar t) = .ok F ∧
      ∀ k, k ∈ F ↔ ∃ v, (k, v) ∈ delta ∧
        if v = [] then t ≤ 0 else ∃ m, IsLargestAbs v m ∧ t ≤ m := by
  refine ⟨_, rfl, fun k => ?_⟩
  rw [fullLoopDouble_mem]
  constructor
  · rintro (h | ⟨v, hv, hle⟩)
    · simp at h
    · refine ⟨v, hv, ?_⟩
      rw [le_lpNormInf_iff] at hle
      by_cases hnil : v = []
      · rw [if_pos hnil] at hle ⊢
        exact hle
      · rw [if_neg hnil] at hle ⊢
        exact (exists_abs_ge_iff t v hnil).1 hle
  · rintro ⟨v, hv, h⟩
    refine Or.inr ⟨v, hv, ?_⟩
    rw [le_lpNormInf_iff]
    by_cases hnil : v = []
    · rw [if_pos hnil] at h ⊢
      exact h
    · rw [if_neg hnil] at h ⊢
      exact (exists_abs_ge_iff t v hnil).2 h

/-- C3: with a per-type threshold map that has, for every key of the delta store, a threshold
vector of the length of the key's delta, the full scan returns exactly the keys with a component
whose absolute value is strictly greater than the threshold of its dimension. -/
theorem CheckRelinearizationFull_perType (chr : Key → Char) (delta : VectorValues)
    (thresholds : FastMap)
    (hfit : ∀ kv ∈ delta, ∃ th,
      List.lookup (chr kv.1) thresholds = some th ∧ th.length = kv.2.length) :
    ∃ F, CheckRelinearizationFull chr delta (.perType thresholds) = .ok F ∧
      ∀ k, k ∈ F ↔ ∃ v th, (k, v) ∈ delta ∧ List.lookup (chr k) thresholds = some th ∧
        ∃ i, ∃ (h1 : i < v.length) (h2 : i < th.length), v[i].abs > th[i] := by
  obtain ⟨F, hF, hmem⟩ := fullLoopMap_ok chr thresholds delta ∅ hfit
  refine ⟨F, hF, fun k => ?_⟩
  rw [hmem]
  constructor
  · rintro (h | ⟨v, th, hv, hth, hg⟩)
    · simp at h
    · exact ⟨v, th, hv, hth, (anyAbsGt_iff v th).1 hg⟩
  · rintro ⟨v, th, hv, hth, hg⟩
    exact Or.inr ⟨v, th, hv, hth, (anyAbsGt_iff v th).2 hg⟩

/-- C4: with a per-type threshold map that has an entry for the type tag of every key, the full
scan throws exactly when some key's threshold vector and delta vector differ in length; what it
throws is `std::invalid_argument` with the message that names the type tag of such a key, and
it then returns no key set. -/
theorem CheckRelinearizationFull_invalid_argument (chr : Key → Char) (delta : VectorValues)
    (thresholds : FastMap)
    (hentry : ∀ kv ∈ delta, ∃ th, List.lookup (chr kv.1) thresholds = some th) :
    ((∃ e, CheckRelinearizationFull chr delta (.perType thresholds) = .error e) ↔
      ∃ kv ∈ delta, ∃ th,
        List.lookup (chr kv.1) thresholds = some th ∧ th.length ≠ kv.2.length) ∧
    (∀ e, CheckRelinearizationFull chr delta (.perType thresholds) = .error e →
      ∃ kv ∈ delta, ∃ th,
        List.lookup (chr kv.1) thresholds = some th ∧ th.length ≠ kv.2.length ∧
        e = .invalid_argument (dimensionalityMessage (chr kv.1))) ∧
    ((∃ kv ∈ delta, ∃ th,
        List.lookup (chr kv.1) thresholds = some th ∧ th.length ≠ kv.2.length) →
      ∀ F, CheckRelinearizationFull chr delta (.perType thresholds) ≠ .ok F) := by
  have herr := fullLoopMap_error chr thresholds delta ∅
  have hmis := fullLoopMap_mismatch chr thresholds delta ∅ hentry
  refine ⟨⟨?_, hmis⟩, fun e he => herr e hentry he, ?_⟩
  · rintro ⟨e, he⟩
    obtain ⟨kv, hkv, th, hth, hne, _⟩ := herr e hentry he
    exact ⟨kv, hkv, th, hth, hne⟩
  · intro hm F hF
    obtain ⟨e, he⟩ := hmis hm
    simp only [CheckRelinearizationFull] at hF he
    rw [he] at hF
    cases hF

/-- Witness of C1: the chain of three cliques with the scalar threshold `0.1`. -/
theorem CheckRelinearizationPartial_subset_Full_witness :
    ∃ P F, CheckRelinearizationPartial exampleChr [chainRoot] chainDelta scenarioThreshold
        = .ok P ∧
      CheckRelinearizationFull exampleChr chainDelta scenarioThreshold = .ok F ∧ P ⊆ F ∧
      ∀ k ∈ P, satisfies exampleChr chainDelta scenarioThreshold k = true :=
  CheckRelinearizationPartial_subset_Full exampleChr [chainRoot] chainDelta scenarioThreshold
    (fun k hk => Option.isSome_iff_exists.1
      ((by decide : ∀ k ∈ allKeysList [chainRoot], (chainDelta.find k).isSome = true) k hk))
    trivial

/-- Witness of C3: two poses and a landmark against the per-type thresholds. -/
theorem CheckRelinearizationFull_perType_witness :
    ∃ F, CheckRelinearizationFull exampleChr typedDelta (.perType exampleThresholds) = .ok F ∧
      ∀ k, k ∈ F ↔ ∃ v th, (k, v) ∈ typedDelta ∧
        List.lookup (exampleChr k) exampleThresholds = some th ∧
        ∃ i, ∃ (h1 : i < v.length) (h2 : i < th.length), v[i].abs > th[i] :=
  CheckRelinearizationFull_perType exampleChr typedDelta exampleThresholds
    (by simp [typedDelta, exampleChr, exampleThresholds, List.lookup])

/-- Witness of C4: the pose `x2` has three dimensions and its threshold vector two. -/
theorem CheckRelinearizationFull_invalid_argument_witness :
    CheckRelinearizationFull exampleChr mismatchedDelta (.perType exampleThresholds) =
      .error (.invalid_argument (dimensionalityMessage 'x')) := by
  have h := CheckRelinearizationFull_invalid_argument exampleChr mismatchedDelta
    exampleThresholds (by simp [mismatchedDelta, exampleChr, exampleThresholds, List.lookup])
  obtain ⟨e, he⟩ := h.1.2 ⟨(2, [.fin 0, .fin 0, .fin 0]), by simp [mismatchedDelta],
    [.fin (1 / 10), .fin (1 / 10)], by simp [exampleChr, exampleThresholds, List.lookup],
    by simp⟩
  obtain ⟨kv, hkv, th, hth, hne, hmsg⟩ := h.2.1 e he
  rw [he, hmsg]
  simp [mismatchedDelta] at hkv
  rcases hkv with rfl | rfl | rfl
  · simp [exampleChr, exampleThresholds, List.lookup] at hth
    subst hth
    simp at hne
  · simp [exampleChr]
  · simp [exampleChr, exampleThresholds, List.lookup] at hth
    subst hth
    simp at hne


/-- C5, as stated, fails: the root clique with frontal keys `x1, x2` is visited and its frontal
key `x1` is flagged, yet its frontal key `x2`, whose delta is below the threshold, is not in the
returned key set. -/
theorem CheckRelinearizationPartial_unflagged_frontal_counterexample :
    CheckRelinearizationPartial exampleChr [pairRoot] pairDelta scenarioThreshold = .ok {1} ∧
      (1 ∈ pairRoot.frontals ∧ satisfies exampleChr pairDelta scenarioThreshold 1 = true) ∧
      2 ∈ pairRoot.frontals ∧ 2 ∉ ({1} : FastSet) := by
  refine ⟨?_, ⟨by decide, ?_⟩, by decide, by decide⟩
  · simp [CheckRelinearizationPartial, rootsLoop, CheckRelinearizationRecursive,
      scenarioThreshold, pairRoot, CheckRelinearizationRecursiveDouble,
      CheckRelinearizationRecursiveDoubleChildren, cliqueLoopDouble, pairDelta,
      VectorValues.at, VectorValues.find, List.lookup, Vector.lpNormInf, Double.abs]
    norm_num [Double.fin_le_fin, Double.fin_lt_fin, abs_of_pos]
  · simp [satisfies, keyTest, testDouble, scenarioThreshold, pairDelta,
      VectorValues.at, VectorValues.find, List.lookup, Vector.lpNormInf, Double.abs]
    norm_num [Double.fin_le_fin, Double.fin_lt_fin, abs_of_pos]

/-- C5, amended: the partial scan returns every key, frontal or separator, of a clique it
visits that satisfies the threshold itself, and it returns no key that does not. -/
theorem CheckRelinearizationPartial_visited_flagged (chr : Key → Char)
    (roots : List ISAM2Clique) (delta : VectorValues) (thr : RelinearizationThreshold)
    (hentry : ∀ k ∈ allKeysList roots, ∃ v, delta.find k = some v)
    (hfit : ThresholdFits chr delta thr) :
    ∃ P, CheckRelinearizationPartial chr roots delta thr = .ok P ∧
      (∀ r ∈ roots, ∀ d, Reached (satisfies chr delta thr) r d →
        ∀ k ∈ d.keys, satisfies chr delta thr k = true → k ∈ P) ∧
      ∀ k ∈ P, satisfies chr delta thr k = true := by
  obtain ⟨P, hP, hmem⟩ := scanRoots_spec chr roots delta thr hfit hentry
  refine ⟨P, hP, ?_, ?_⟩
  · intro r hr d hd k hk hs
    exact (hmem k).2 ⟨r, hr, d, hd, hk, hs⟩
  · intro k hk
    obtain ⟨_, _, _, _, _, hs⟩ := (hmem k).1 hk
    exact hs

/-- Witness of C5, amended: the pair of frontal keys under the scalar threshold `0.1`. -/
theorem CheckRelinearizationPartial_visited_flagged_witness :
    ∃ P, CheckRelinearizationPartial exampleChr [pairRoot] pairDelta scenarioThreshold
        = .ok P ∧
      (∀ r ∈ [pairRoot], ∀ d,
        Reached (satisfies exampleChr pairDelta scenarioThreshold) r d →
        ∀ k ∈ d.keys, satisfies exampleChr pairDelta scenarioThreshold k = true → k ∈ P) ∧
      ∀ k ∈ P, satisfies exampleChr pairDelta scenarioThreshold k = true :=
  CheckRelinearizationPartial_visited_flagged exampleChr [pairRoot] pairDelta scenarioThreshold
    (fun k hk => Option.isSome_iff_exists.1
      ((by decide : ∀ k ∈ allKeysList [pairRoot], (pairDelta.find k).isSome = true) k hk))
    trivial

/-- C6, as stated, fails: in the chain the middle clique is visited and its only frontal key
`x2` is below the threshold, but its separator key `x1` satisfies it, so the traversal goes on
through the middle clique and adds the key `x3` of the leaf. -/
theorem CheckRelinearizationPartial_separator_counterexample :
    (∀ k ∈ chainMiddle.frontals,
        satisfies exampleChr chainDelta scenarioThreshold k = false) ∧
      CheckRelinearizationRecursive exampleChr chainDelta scenarioThreshold {1} chainMiddle
        = .ok {1, 3} ∧
      CheckRelinearizationPartial exampleChr [chainRoot] chainDelta scenarioThreshold
        = .ok {1, 3} ∧
      ({1, 3} : FastSet) ≠ {1} := by
  refine ⟨?_, ?_, ?_, by decide⟩
  · simp [chainMiddle, ISAM2Clique.frontals, satisfies, keyTest, testDouble, scenarioThreshold,
      chainDelta, VectorValues.at, VectorValues.find, List.lookup, Vector.lpNormInf, Double.abs]
    norm_num [Double.fin_le_fin, Double.fin_lt_fin, abs_of_pos]
  · simp [CheckRelinearizationRecursive, scenarioThreshold, chainMiddle, chainLeaf,
      CheckRelinearizationRecursiveDouble, CheckRelinearizationRecursiveDoubleChildren,
      cliqueLoopDouble, chainDelta, VectorValues.at, VectorValues.find, List.lookup,
      Vector.lpNormInf, Double.abs]
    norm_num [Double.fin_le_fin, Double.fin_lt_fin, abs_of_pos]
    decide
  · simp [CheckRelinearizationPartial, rootsLoop, CheckRelinearizationRecursive,
      scenarioThreshold, chainRoot, chainMiddle, chainLeaf,
      CheckRelinearizationRecursiveDouble, CheckRelinearizationRecursiveDoubleChildren,
      cliqueLoopDouble, chainDelta, VectorValues.at, VectorValues.find, List.lookup,
      Vector.lpNormInf, Double.abs]
    norm_num [Double.fin_le_fin, Double.fin_lt_fin, abs_of_pos]
    decide

/-- C6, amended: the test that decides whether to descend runs over all keys of the clique's
conditional, frontal and separator.  At a clique none of whose keys satisfies the threshold the
traversal stops and returns the key set unchanged.  At a clique all of whose key tests return
and one of whose keys, frontal or separator, satisfies the threshold, the keys of the clique
that satisfy it are added and the result is that of the calls for each child in turn, the loop
that `CheckRelinearizationPartial` runs over the roots. -/
theorem CheckRelinearizationRecursive_stops_or_descends (chr : Key → Char)
    (delta : VectorValues) (thr : RelinearizationThreshold) (clique : ISAM2Clique)
    (relinKeys : FastSet) :
    ((∀ k ∈ clique.keys, keyTest chr delta thr k = .ok false) →
      CheckRelinearizationRecursive chr delta thr relinKeys clique = .ok relinKeys) ∧
    ((∀ k ∈ clique.keys, ∃ b, keyTest chr delta thr k = .ok b) →
      (∃ k, (k ∈ clique.frontals ∨ k ∈ clique.parents) ∧
        keyTest chr delta thr k = .ok true) →
      CheckRelinearizationRecursive chr delta thr relinKeys clique =
        rootsLoop chr delta thr clique.children
          (relinKeys ∪ (clique.keys.filter (satisfies chr delta thr)).toFinset)) := by
  constructor
  · intro h
    rw [recursive_eq]
    exact scan_stop _ clique relinKeys h
  · intro htest hflag
    rw [recursive_eq, rootsLoop_eq]
    obtain ⟨f, p, ch⟩ := clique
    have hk := scanKeys_ok (keyTest chr delta thr) (satisfies chr delta thr) (f ++ p)
      relinKeys false (fun k hk => by
        obtain ⟨b, hb⟩ := htest k hk
        exact keyTest_eq_satisfies chr delta thr k b hb)
    have hany : (f ++ p).any (satisfies chr delta thr) = true := by
      obtain ⟨k, hmem, hkt⟩ := hflag
      rw [List.any_eq_true]
      refine ⟨k, List.mem_append.2 hmem, ?_⟩
      simp [satisfies, hkt]
    simp only [scan, hk, hany, Bool.false_or, if_true, ISAM2Clique.children_mk,
      ISAM2Clique.keys_mk]

/-- Witness of C6, amended: the child clique of the scenario under the scalar threshold `1`,
which none of its keys `x2, x3, x1` reaches, stops the traversal; the middle clique of the
chain under the threshold `0.1`, which its frontal key `x2` does not reach and its separator
key `x1` does, sends it on to the leaf, whose key `x3` is added. -/
theorem CheckRelinearizationRecursive_stops_or_descends_witness :
    CheckRelinearizationRecursive exampleChr scenarioDelta (.scalar (.fin 1)) {7} scenarioChild
        = .ok {7} ∧
      CheckRelinearizationRecursive exampleChr chainDelta scenarioThreshold {7} chainMiddle =
        rootsLoop exampleChr chainDelta scenarioThreshold chainMiddle.children
          ({7} ∪ (chainMiddle.keys.filter
            (satisfies exampleChr chainDelta scenarioThreshold)).toFinset) ∧
      CheckRelinearizationRecursive exampleChr chainDelta scenarioThreshold {7} chainMiddle =
        .ok {1, 3, 7} ∧
      satisfies exampleChr chainDelta scenarioThreshold 2 = false :=
  ⟨(CheckRelinearizationRecursive_stops_or_descends exampleChr scenarioDelta
      (.scalar (.fin 1)) scenarioChild {7}).1 (by
      simp [scenarioChild, ISAM2Clique.keys, ISAM2Clique.frontals, ISAM2Clique.parents, keyTest,
        testDouble, scenarioDelta, VectorValues.at, VectorValues.find, List.lookup,
        Vector.lpNormInf, Double.abs]
      norm_num [Double.fin_le_fin, Double.fin_lt_fin, abs_of_pos]),
    (CheckRelinearizationRecursive_stops_or_descends exampleChr chainDelta scenarioThreshold
      chainMiddle {7}).2
      (by
        intro k hk
        have hk1 : k = 2 ∨ k = 1 := by
          simpa [chainMiddle, ISAM2Clique.keys, ISAM2Clique.frontals, ISAM2Clique.parents]
            using hk
        rcases hk1 with rfl | rfl
        · exact ⟨_, rfl⟩
        · exact ⟨_, rfl⟩)
      ⟨1, Or.inr (by simp [chainMiddle, ISAM2Clique.parents]), by
        simp [keyTest, testDouble, scenarioThreshold, chainDelta, VectorValues.at,
          VectorValues.find, List.lookup, Vector.lpNormInf, Double.abs]
        norm_num [Double.fin_le_fin, Double.fin_lt_fin, abs_of_pos]⟩,
    by
      simp [CheckRelinearizationRecursive, scenarioThreshold, chainMiddle, chainLeaf,
        CheckRelinearizationRecursiveDouble, CheckRelinearizationRecursiveDoubleChildren,
        cliqueLoopDouble, chainDelta, VectorValues.at, VectorValues.find, List.lookup,
        Vector.lpNormInf, Double.abs]
      norm_num [Double.fin_le_fin, Double.fin_lt_fin, abs_of_pos]
      decide,
    by
      simp [satisfies, keyTest, testDouble, scenarioThreshold, chainDelta, VectorValues.at,
        VectorValues.find, List.lookup, Vector.lpNormInf, Double.abs]
      norm_num [Double.fin_le_fin, Double.fin_lt_fin, abs_of_pos]⟩

/-- C7: a root clique none of whose keys satisfies the threshold contributes no key of its
subtree, the partial scan returns what it returns without that root; in the scenario the
partial scan returns the empty set and the full scan returns `x2`. -/
theorem CheckRelinearizationPartial_prunes_root :
    (∀ (chr : Key → Char) (before after : List ISAM2Clique) (root : ISAM2Clique)
      (delta : VectorValues) (thr : RelinearizationThreshold),
      (∀ k ∈ root.keys, keyTest chr delta thr k = .ok false) →
      CheckRelinearizationPartial chr (before ++ root :: after) delta thr =
        CheckRelinearizationPartial chr (before ++ after) delta thr) ∧
    CheckRelinearizationPartial exampleChr [scenarioRoot] scenarioDelta scenarioThreshold
      = .ok ∅ ∧
    CheckRelinearizationFull exampleChr scenarioDelta scenarioThreshold = .ok {2} := by
  refine ⟨?_, ?_, ?_⟩
  · intro chr before after root delta thr h
    simp only [CheckRelinearizationPartial, rootsLoop_eq, scanChildren_append]
    cases scanChildren (keyTest chr delta thr) ∅ before with
    | error e => rfl
    | ok S => simp only [scanChildren, scan_stop _ root S h]
  · simp [CheckRelinearizationPartial, rootsLoop, CheckRelinearizationRecursive,
      scenarioThreshold, scenarioRoot, scenarioChild, CheckRelinearizationRecursiveDouble,
      cliqueLoopDouble, scenarioDelta, VectorValues.at, VectorValues.find, List.lookup,
      Vector.lpNormInf, Double.abs]
    norm_num [Double.fin_le_fin, Double.fin_lt_fin, abs_of_pos]
  · simp [CheckRelinearizationFull, scenarioThreshold, fullLoopDouble, scenarioDelta,
      Vector.lpNormInf, Double.abs]
    norm_num [Double.fin_le_fin, Double.fin_lt_fin, abs_of_pos]

/-- Witness of C7: the root of the scenario, whose only key `x1` is below the threshold. -/
theorem CheckRelinearizationPartial_prunes_root_witness :
    CheckRelinearizationPartial exampleChr ([] ++ scenarioRoot :: []) scenarioDelta
        scenarioThreshold =
      CheckRelinearizationPartial exampleChr ([] ++ []) scenarioDelta scenarioThreshold :=
  CheckRelinearizationPartial_prunes_root.1 exampleChr [] [] scenarioRoot scenarioDelta
    scenarioThreshold (by
      simp [scenarioRoot, ISAM2Clique.keys, ISAM2Clique.frontals, ISAM2Clique.parents, keyTest,
        testDouble, scenarioThreshold, scenarioDelta, VectorValues.at, VectorValues.find,
        List.lookup, Vector.lpNormInf, Double.abs]
      norm_num [Double.fin_le_fin, Double.fin_lt_fin, abs_of_pos])

/-- C8: for a well formed delta store with an entry for every key of the forest, when every key
that the full scan returns is a frontal key of a clique that is reached from a root through
cliques each of which holds a returned key, the partial scan returns the key set of the full
scan. -/
theorem CheckRelinearizationPartial_eq_Full (chr : Key → Char) (roots : List ISAM2Clique)
    (delta : VectorValues) (thr : RelinearizationThreshold) (F : FastSet)
    (hwf : delta.WF)
    (hentry : ∀ k ∈ allKeysList roots, ∃ v, delta.find k = some v)
    (hF : CheckRelinearizationFull chr delta thr = .ok F)
    (hchain : ∀ k ∈ F, ∃ r ∈ roots, ∃ c,
      Reached (fun j => decide (j ∈ F)) r c ∧ k ∈ c.frontals) :
    CheckRelinearizationPartial chr roots delta thr = .ok F := by
  have hfit := full_fits chr delta thr F hF
  have hsat := full_mem_satisfies chr delta thr hwf F hF
  have hflag : (fun j => decide (j ∈ F)) = satisfies chr delta thr := by
    funext j
    by_cases hj : j ∈ F
    · rw [(hsat j).1 hj]
      exact decide_eq_true hj
    · have : satisfies chr delta thr j = false := by
        cases hs : satisfies chr delta thr j with
        | false => rfl
        | true => exact absurd ((hsat j).2 hs) hj
      rw [this]
      exact decide_eq_false hj
  rw [hflag] at hchain
  obtain ⟨P, hP, hmem⟩ := scanRoots_spec chr roots delta thr hfit hentry
  have hPF : P = F := by
    ext k
    rw [hmem]
    constructor
    · rintro ⟨_, _, _, _, _, hs⟩
      exact (hsat k).2 hs
    · intro hk
      obtain ⟨r, hr, c, hc, hkc⟩ := hchain k hk
      exact ⟨r, hr, c, hc, List.mem_append_left _ hkc, (hsat k).1 hk⟩
  rw [hP, hPF]

/-- Witness of C8: in the chain the full scan returns `x1` and `x3`; `x1` is a frontal key of
the root and `x3` one of the leaf, reached through the root and the middle clique, which both
hold `x1`. -/
theorem CheckRelinearizationPartial_eq_Full_witness :
    CheckRelinearizationPartial exampleChr [chainRoot] chainDelta scenarioThreshold
      = .ok {3, 1} :=
  CheckRelinearizationPartial_eq_Full exampleChr [chainRoot] chainDelta scenarioThreshold {3, 1}
    (by decide)
    (fun k hk => Option.isSome_iff_exists.1
      ((by decide : ∀ k ∈ allKeysList [chainRoot], (chainDelta.find k).isSome = true) k hk))
    (by
      simp [CheckRelinearizationFull, scenarioThreshold, fullLoopDouble, chainDelta,
        Vector.lpNormInf, Double.abs]
      norm_num [Double.fin_le_fin, Double.fin_lt_fin, abs_of_pos])
    (by
      intro k hk
      rcases Finset.mem_insert.1 hk with rfl | hk'
      · exact ⟨chainRoot, List.mem_singleton.2 rfl, chainLeaf,
          Reached.descend ⟨1, by decide, by decide⟩ (List.mem_singleton.2 rfl)
            (Reached.descend ⟨1, by decide, by decide⟩ (List.mem_singleton.2 rfl)
              (Reached.here _)),
          by decide⟩
      · rw [Finset.mem_singleton.1 hk']
        exact ⟨chainRoot, List.mem_singleton.2 rfl, chainRoot, Reached.here _, by decide⟩)

/-! ### Marked-subtree key collection -/

theorem foldl_insert_mem (k : Key) :
    ∀ (l : List Key) (K : FastSet),
      k ∈ l.foldl (fun s j => insert j s) K ↔ k ∈ K ∨ k ∈ l
  | [], K => by simp
  | a :: rest, K => by
    rw [List.foldl_cons, foldl_insert_mem k rest, Finset.mem_insert, List.mem_cons]
    tauto

theorem inSubtree_mk (f p : List Key) (ch : List ISAM2Clique) (d : ISAM2Clique) :
    InSubtree (.mk f p ch) d ↔ d = .mk f p ch ∨ ∃ c ∈ ch, InSubtree c d := by
  constructor
  · intro h
    cases h with
    | here => exact Or.inl rfl
    | descend hchild hrest => exact Or.inr ⟨_, hchild, hrest⟩
  · rintro (rfl | ⟨c, hc, hr⟩)
    · exact InSubtree.here _
    · exact InSubtree.descend hc hr

mutual
theorem FindAll_mem (M : FastSet) (k : Key) :
    ∀ (c : ISAM2Clique) (K : FastSet),
      k ∈ FindAll M c K ↔
        k ∈ K ∨ ∃ d, InSubtree c d ∧ (∃ s ∈ d.parents, s ∈ M) ∧ k ∈ d.frontals
  | .mk f p ch, K => by
    rw [FindAll, FindAllChildren_mem M k ch]
    have hany : (p.any (fun key => decide (key ∈ M)) = true) ↔ ∃ s ∈ p, s ∈ M := by
      rw [List.any_eq_true]
      simp only [decide_eq_true_eq]
    constructor
    · rintro (h | ⟨c, hc, d, hd, hx⟩)
      · by_cases hf : p.any (fun key => decide (key ∈ M)) = true
        · rw [if_pos hf, foldl_insert_mem] at h
          rcases h with h | h
          · exact Or.inl h
          · exact Or.inr ⟨_, InSubtree.here _, hany.1 hf, h⟩
        · rw [if_neg hf] at h
          exact Or.inl h
      · exact Or.inr ⟨d, InSubtree.descend hc hd, hx⟩
    · rintro (h | ⟨d, hd, hx⟩)
      · left
        by_cases hf : p.any (fun key => decide (key ∈ M)) = true
        · rw [if_pos hf, foldl_insert_mem]
          exact Or.inl h
        · rw [if_neg hf]
          exact h
      · rcases (inSubtree_mk f p ch d).1 hd with rfl | ⟨c, hc, hcd⟩
        · left
          rw [if_pos (hany.2 hx.1), foldl_insert_mem]
          exact Or.inr hx.2
        · exact Or.inr ⟨c, hc, d, hcd, hx⟩
theorem FindAllChildren_mem (M : FastSet) (k : Key) :
    ∀ (cs : List ISAM2Clique) (K : FastSet),
      k ∈ FindAllChildren M cs K ↔
        k ∈ K ∨
          ∃ c ∈ cs, ∃ d, InSubtree c d ∧ (∃ s ∈ d.parents, s ∈ M) ∧ k ∈ d.frontals
  | [], K => by simp [FindAllChildren]
  | c :: rest, K => by
    rw [FindAllChildren, FindAllChildren_mem M k rest, FindAll_mem M k c]
    constructor
    · rintro ((h | ⟨d, hd⟩) | ⟨c', hc', d, hd⟩)
      · exact Or.inl h
      · exact Or.inr ⟨c, List.mem_cons_self _ _, d, hd⟩
      · exact Or.inr ⟨c', List.mem_cons_of_mem _ hc', d, hd⟩
    · rintro (h | ⟨c', hc', d, hd⟩)
      · exact Or.inl (Or.inl h)
      · rcases List.mem_cons.1 hc' with rfl | hc''
        · exact Or.inl (Or.inr ⟨d, hd⟩)
        · exact Or.inr ⟨c', hc'', d, hd⟩
end

/-- C9: `FindAll` leaves the key set equal to its initial contents united with the frontal keys
of exactly the cliques of the subtree of the root whose separator holds a marked key. -/
theorem FindAll_spec (markedMask : FastSet) (root : ISAM2Clique) (keys : FastSet) (k : Key) :
    k ∈ FindAll markedMask root keys ↔
      k ∈ keys ∨
        ∃ c, InSubtree root c ∧ (∃ s ∈ c.parents, s ∈ markedMask) ∧ k ∈ c.frontals :=
  FindAll_mem markedMask k root keys

/-! ### Masked retraction -/

theorem lookup_map_assign (j : Key) (v : Vector) :
    ∀ (store : VectorValues) (k : Key), k ≠ j →
      List.lookup k (store.map (fun kv => if kv.1 = j then (kv.1, v) else kv)) =
        List.lookup k store
  | [], _, _ => rfl
  | (a, b) :: rest, k, hk => by
    have ih := lookup_map_assign j v rest k hk
    by_cases ha : a = j
    · subst ha
      have hb : (k == a) = false := by simpa using hk
      simp only [List.map_cons, if_true, List.lookup_cons, hb]
      exact ih
    · simp only [List.map_cons, if_neg ha, List.lookup_cons]
      rw [ih]

theorem find_assign_ne (store store1 : VectorValues) (j k : Key) (v : Vector)
    (h : store.assign j v = .ok store1) (hk : k ≠ j) : store1.find k = store.find k := by
  unfold VectorValues.assign at h
  cases hf : store.find j with
  | none => simp [hf] at h
  | some d =>
    simp only [hf, Except.ok.injEq] at h
    rw [← h]
    exact lookup_map_assign j v store k hk

theorem assign_ok (store : VectorValues) (j : Key) (v d : Vector)
    (h : store.find j = some d) : ∃ store1, store.assign j v = .ok store1 := by
  simp [VectorValues.assign, h]

theorem invalidate_ok (var : Key) (n : Nat) (delta : VectorValues) (inv : Invalidate)
    (d : Vector) (hd : delta.find var = some d)
    (hinv : ∀ s, inv = .other s → ∃ v, s.find var = some v) :
    ∃ delta1 inv1, invalidate var n delta inv = .ok (delta1, inv1) ∧
      (∀ k, k ≠ var → delta1.find k = delta.find k) ∧
      ∀ s1, inv1 = .other s1 →
        ∃ s, inv = .other s ∧ ∀ k, k ≠ var → s1.find k = s.find k := by
  cases inv with
  | none =>
    refine ⟨delta, .none, rfl, fun _ _ => rfl, ?_⟩
    intro s1 h
    cases h
  | delta =>
    obtain ⟨delta1, h1⟩ := assign_ok delta var (Vector.Constant n .posInf) d hd
    refine ⟨delta1, .delta, by simp [invalidate, h1],
      fun k hk => find_assign_ne _ _ _ _ _ h1 hk, ?_⟩
    intro s1 h
    cases h
  | other s =>
    obtain ⟨v, hv⟩ := hinv s rfl
    obtain ⟨s1, h1⟩ := assign_ok s var (Vector.Constant n .posInf) v hv
    refine ⟨delta, .other s1, by simp [invalidate, h1], fun _ _ => rfl, ?_⟩
    intro s2 h
    cases h
    exact ⟨s, rfl, fun k hk => find_assign_ne _ _ _ _ _ h1 hk⟩

theorem expmapAsserts_ok {V : Type} (flags : BuildFlags) (dim : V → Nat) (var : Key)
    (value : V) (key_delta : List Key) (delta : VectorValues) (d : Vector)
    (hkeys : flags.NDEBUG = false → flags.GTSAM_USE_TBB = false →
      key_delta.head? = some var)
    (hd : delta.find var = some d)
    (hchk : flags.NDEBUG = false → d.rows = dim value ∧ d.allFinite = true) :
    expmapAsserts flags dim var value key_delta delta = .ok () := by
  unfold expmapAsserts
  cases hN : flags.NDEBUG with
  | true => simp
  | false =>
    obtain ⟨h1, h2⟩ := hchk hN
    cases hT : flags.GTSAM_USE_TBB with
    | true => simp [VectorValues.at, hd, h1, h2]
    | false => simp [hkeys hN hT, VectorValues.at, hd, h1, h2]

theorem expmapLoop_values {V : Type} (flags : BuildFlags) (retract : V → Vector → V)
    (dim : V → Nat) (mask : FastSet) :
    ∀ (vs : Values V) (ks : List Key) (delta : VectorValues) (inv : Invalidate),
      (vs.map Prod.fst).Nodup →
      (flags.NDEBUG = false → flags.GTSAM_USE_TBB = false → ks = vs.map Prod.fst) →
      (∀ kx ∈ vs, ∃ d, delta.find kx.1 = some d ∧
        (flags.NDEBUG = false → d.rows = dim kx.2 ∧ d.allFinite = true)) →
      (∀ s, inv = .other s → ∀ kx ∈ vs, kx.1 ∈ mask → ∃ v, s.find kx.1 = some v) →
      ∃ delta1 inv1, expmapLoop flags retract dim mask vs ks delta inv =
        .ok (vs.map (retractEntry retract delta mask), delta1, inv1)
  | [], ks, delta, inv, _, _, _, _ => ⟨delta, inv, rfl⟩
  | (var, value) :: rest, ks, delta, inv, hnd, hks, hent, hinv => by
    have hnd' : (rest.map Prod.fst).Nodup := (List.nodup_cons.1 hnd).2
    have hvar : ∀ kx ∈ rest, kx.1 ≠ var := by
      intro kx hkx e
      have hmem : kx.1 ∈ rest.map Prod.fst := List.mem_map_of_mem Prod.fst hkx
      rw [e] at hmem
      exact (List.nodup_cons.1 hnd).1 hmem
    have hks' : flags.NDEBUG = false → flags.GTSAM_USE_TBB = false →
        ks.tail = rest.map Prod.fst := by
      intro hN hT
      rw [hks hN hT]
      rfl
    obtain ⟨d, hd, hchk⟩ := hent (var, value) (List.mem_cons_self _ _)
    have hassert := expmapAsserts_ok flags dim var value ks delta d
      (fun hN hT => by rw [hks hN hT]; rfl) hd hchk
    have hentRest : ∀ delta1 : VectorValues,
        (∀ k, k ≠ var → delta1.find k = delta.find k) →
        ∀ kx ∈ rest, ∃ d, delta1.find kx.1 = some d ∧
          (flags.NDEBUG = false → d.rows = dim kx.2 ∧ d.allFinite = true) := by
      intro delta1 h1 kx hkx
      rw [h1 kx.1 (hvar kx hkx)]
      exact hent kx (List.mem_cons_of_mem _ hkx)
    have hmapRest : ∀ delta1 : VectorValues,
        (∀ k, k ≠ var → delta1.find k = delta.find k) →
        rest.map (retractEntry retract delta1 mask) =
          rest.map (retractEntry retract delta mask) := by
      intro delta1 h1
      apply List.map_congr_left
      intro kx hkx
      simp only [retractEntry, h1 kx.1 (hvar kx hkx)]
    by_cases hm : var ∈ mask
    · obtain ⟨delta1, inv1, hi, hfind, hother⟩ := invalidate_ok var d.rows delta inv d hd
        (fun s hs => hinv s hs (var, value) (List.mem_cons_self _ _) hm)
      obtain ⟨delta2, inv2, hloop⟩ := expmapLoop_values flags retract dim mask rest ks.tail
        delta1 inv1 hnd' hks' (hentRest delta1 hfind) (by
          intro s1 hs1 kx hkx hkm
          obtain ⟨s, hs, hsf⟩ := hother s1 hs1
          rw [hsf kx.1 (hvar kx hkx)]
          exact hinv s hs kx (List.mem_cons_of_mem _ hkx) hkm)
      refine ⟨delta2, inv2, ?_⟩
      rw [expmapLoop, hassert]
      simp only [if_pos hm, VectorValues.at, hd, hi, hloop, hmapRest delta1 hfind,
        List.map_cons, retractEntry]
    · obtain ⟨delta2, inv2, hloop⟩ := expmapLoop_values flags retract dim mask rest ks.tail
        delta inv hnd' hks' (hentRest delta (fun _ _ => rfl))
        (fun s hs kx hkx hkm => hinv s hs kx (List.mem_cons_of_mem _ hkx) hkm)
      refine ⟨delta2, inv2, ?_⟩
      rw [expmapLoop, hassert]
      simp only [if_neg hm, hloop, List.map_cons, retractEntry]

theorem wf_nodup (delta : VectorValues) (h : delta.WF) : (delta.map Prod.fst).Nodup :=
  List.Pairwise.imp (fun hab => Nat.ne_of_lt hab) h

theorem lookup_map_retractEntry {V : Type} (retract : V → Vector → V) (delta : VectorValues)
    (mask : FastSet) (k : Key) :
    ∀ (vs : Values V), List.lookup k (vs.map (retractEntry retract delta mask)) =
      (List.lookup k vs).map (fun x => (retractEntry retract delta mask (k, x)).2)
  | [] => rfl
  | (a, b) :: rest => by
    have ih := lookup_map_retractEntry retract delta mask k rest
    have hfst : (retractEntry retract delta mask (a, b)).1 = a := by
      unfold retractEntry
      split
      · split <;> rfl
      · rfl
    have hhead : retractEntry retract delta mask (a, b) =
        (a, (retractEntry retract delta mask (a, b)).2) := Prod.ext hfst rfl
    rw [List.map_cons, hhead, List.lookup_cons, List.lookup_cons, ih]
    by_cases hk : k = a
    · subst hk
      simp
    · have hb : (k == a) = false := by simpa using hk
      simp [hb]

theorem lookup_of_mem_nodup {V : Type} :
    ∀ (vs : Values V) (k : Key) (x : V), (vs.map Prod.fst).Nodup → (k, x) ∈ vs →
      List.lookup k vs = some x
  | [], _, _, _, h => by simp at h
  | (a, b) :: rest, k, x, hnd, h => by
    rcases List.mem_cons.1 h with heq | hmem
    · cases heq
      simp
    · have hne : k ≠ a := by
        intro e
        have hk : k ∈ rest.map Prod.fst := List.mem_map_of_mem Prod.fst hmem
        rw [e] at hk
        exact (List.nodup_cons.1 hnd).1 hk
      have hb : (k == a) = false := by simpa using hne
      rw [List.lookup_cons, hb]
      exact lookup_of_mem_nodup rest k x (List.nodup_cons.1 hnd).2 hmem

/-- C10: for an estimate store and a delta store with the same keys and matching dimensions,
`ExpmapMasked` returns, and the new estimate of every key of the mask that the estimate store
holds is the retraction of its old estimate by the vector that the delta store held for the key
when the function was called. -/
theorem ExpmapMasked_retracts {V : Type} (flags : BuildFlags) (retract : V → Vector → V)
    (dim : V → Nat) (values : Values V) (delta : VectorValues) (mask : FastSet)
    (invalidateIfDebug : Invalidate)
    (hwf : delta.WF)
    (hkeys : values.map Prod.fst = delta.map Prod.fst)
    (hdim : ∀ k x d, (k, x) ∈ values → delta.find k = some d → d.rows = dim x)
    (hfinite : flags.NDEBUG = false → ∀ kv ∈ delta, kv.2.allFinite = true)
    (hstore : ∀ s, invalidateIfDebug = .other s → flags.NDEBUG = false →
      ∀ kx ∈ values, kx.1 ∈ mask → ∃ v, s.find kx.1 = some v) :
    ∃ values1 delta1 invalidate1,
      ExpmapMasked flags retract dim values delta mask invalidateIfDebug =
        .ok (values1, delta1, invalidate1) ∧
      ∀ k ∈ mask, ∀ x d, (k, x) ∈ values → delta.find k = some d →
        List.lookup k values1 = some (retract x d) := by
  have hnd : (values.map Prod.fst).Nodup := hkeys ▸ wf_nodup delta hwf
  have hent : ∀ kx ∈ values, ∃ d, delta.find kx.1 = some d ∧
      (flags.NDEBUG = false → d.rows = dim kx.2 ∧ d.allFinite = true) := by
    intro kx hkx
    have hk : kx.1 ∈ delta.map Prod.fst := hkeys ▸ List.mem_map_of_mem Prod.fst hkx
    obtain ⟨kv, hkv, hfst⟩ := List.mem_map.1 hk
    have hfind : delta.find kx.1 = some kv.2 :=
      lookup_of_mem_wf delta kx.1 kv.2 hwf (by rw [← hfst]; exact hkv)
    exact ⟨kv.2, hfind, fun hN => ⟨hdim kx.1 kx.2 kv.2 hkx hfind, hfinite hN kv hkv⟩⟩
  have hval : ∀ k ∈ mask, ∀ x d, (k, x) ∈ values → delta.find k = some d →
      List.lookup k (values.map (retractEntry retract delta mask)) = some (retract x d) := by
    intro k hk x d hx hd
    rw [lookup_map_retractEntry, lookup_of_mem_nodup values k x hnd hx]
    simp [retractEntry, hk, hd]
  cases hN : flags.NDEBUG with
  | true =>
    obtain ⟨delta1, inv1, hloop⟩ := expmapLoop_values flags retract dim mask values
      (delta.map Prod.fst) delta .none hnd (fun _ _ => hkeys.symm) hent
      (fun s hs => by cases hs)
    exact ⟨_, delta1, invalidateIfDebug, by simp [ExpmapMasked, hN, hloop], hval⟩
  | false =>
    obtain ⟨delta1, inv1, hloop⟩ := expmapLoop_values flags retract dim mask values
      (delta.map Prod.fst) delta invalidateIfDebug hnd (fun _ _ => hkeys.symm) hent
      (fun s hs => hstore s hs hN)
    have hlen : values.length = delta.length := by
      have := congrArg List.length hkeys
      simpa using this
    exact ⟨_, delta1, inv1, by simp [ExpmapMasked, hN, hlen, hloop], hval⟩

/-- Witness of C10: two points of the plane, the first in the mask, in a build with assertions
where the store to invalidate is the delta store itself. -/
theorem ExpmapMasked_retracts_witness :
    ∃ values1 delta1 invalidate1,
      ExpmapMasked debugFlags planeRetract planeDim planeValues planeDelta {1} .delta =
        .ok (values1, delta1, invalidate1) ∧
      ∀ k ∈ ({1} : FastSet), ∀ x d, (k, x) ∈ planeValues → planeDelta.find k = some d →
        List.lookup k values1 = some (planeRetract x d) :=
  ExpmapMasked_retracts debugFlags planeRetract planeDim planeValues planeDelta {1} .delta
    (by decide) (by decide)
    (by
      intro k x d hx hd
      simp only [planeValues, List.mem_cons, Prod.mk.injEq, List.mem_singleton,
        List.not_mem_nil, or_false] at hx
      rcases hx with ⟨rfl, rfl⟩ | ⟨rfl, rfl⟩
      · simp only [planeDelta, VectorValues.find, List.lookup] at hd
        cases hd
        rfl
      · simp only [planeDelta, VectorValues.find, List.lookup] at hd
        cases hd
        rfl)
    (by
      intro _ kv hkv
      simp only [planeDelta, List.mem_cons, List.mem_singleton, List.not_mem_nil,
        or_false] at hkv
      rcases hkv with rfl | rfl <;> rfl)
    (by
      intro s hs
      cases hs)

/-! ### Masked retraction: what is left alone -/

theorem sameOutside_refl (mask : FastSet) (s : VectorValues) : SameOutside mask s s :=
  ⟨rfl, fun _ _ => rfl⟩

theorem sameOutside_trans (mask : FastSet) (s s1 s2 : VectorValues)
    (h1 : SameOutside mask s s1) (h2 : SameOutside mask s1 s2) : SameOutside mask s s2 :=
  ⟨h2.1.trans h1.1, fun k hk => (h2.2 k hk).trans (h1.2 k hk)⟩

theorem invalidateFrame_refl (mask : FastSet) (inv : Invalidate) :
    InvalidateFrame mask inv inv := by
  cases inv with
  | none => trivial
  | delta => trivial
  | other s => exact sameOutside_refl mask s

theorem invalidateFrame_trans (mask : FastSet) (a b c : Invalidate)
    (h1 : InvalidateFrame mask a b) (h2 : InvalidateFrame mask b c) :
    InvalidateFrame mask a c := by
  cases a <;> cases b <;> cases c <;>
    first
      | trivial
      | exact absurd h1 id
      | exact absurd h2 id
      | exact sameOutside_trans mask _ _ _ h1 h2

theorem assign_sameOutside (mask : FastSet) (store store1 : VectorValues) (j : Key)
    (v : Vector) (hj : j ∈ mask) (h : store.assign j v = .ok store1) :
    SameOutside mask store store1 := by
  refine ⟨?_, fun k hk => find_assign_ne store store1 j k v h (fun e => hk (e ▸ hj))⟩
  unfold VectorValues.assign at h
  cases hf : store.find j with
  | none => simp [hf] at h
  | some d =>
    simp only [hf, Except.ok.injEq] at h
    rw [← h, List.map_map]
    apply List.map_congr_left
    intro kv _
    by_cases hkv : kv.1 = j
    · simp [hkv]
    · simp [hkv]

theorem invalidate_frame (mask : FastSet) (var : Key) (n : Nat) (delta delta1 : VectorValues)
    (inv inv1 : Invalidate) (hvar : var ∈ mask)
    (h : invalidate var n delta inv = .ok (delta1, inv1)) :
    SameOutside mask delta delta1 ∧ InvalidateFrame mask inv inv1 := by
  cases inv with
  | none =>
    simp only [invalidate, Except.ok.injEq, Prod.mk.injEq] at h
    obtain ⟨rfl, rfl⟩ := h
    exact ⟨sameOutside_refl _ _, trivial⟩
  | delta =>
    unfold invalidate at h
    cases ha : delta.assign var (Vector.Constant n .posInf) with
    | error e => simp [ha] at h
    | ok d =>
      simp only [ha, Except.ok.injEq, Prod.mk.injEq] at h
      obtain ⟨rfl, rfl⟩ := h
      exact ⟨assign_sameOutside mask _ _ _ _ hvar ha, trivial⟩
  | other s =>
    unfold invalidate at h
    cases ha : s.assign var (Vector.Constant n .posInf) with
    | error e => simp [ha] at h
    | ok d =>
      simp only [ha, Except.ok.injEq, Prod.mk.injEq] at h
      obtain ⟨rfl, rfl⟩ := h
      exact ⟨sameOutside_refl _ _, assign_sameOutside mask _ _ _ _ hvar ha⟩

theorem expmapLoop_frame {V : Type} (flags : BuildFlags) (retract : V → Vector → V)
    (dim : V → Nat) (mask : FastSet) :
    ∀ (vs : Values V) (ks : List Key) (delta : VectorValues) (inv : Invalidate)
      (vs1 : Values V) (delta1 : VectorValues) (inv1 : Invalidate),
      expmapLoop flags retract dim mask vs ks delta inv = .ok (vs1, delta1, inv1) →
      vs1.map Prod.fst = vs.map Prod.fst ∧
        (∀ k, k ∉ mask → List.lookup k vs1 = List.lookup k vs) ∧
        SameOutside mask delta delta1 ∧ InvalidateFrame mask inv inv1
  | [], ks, delta, inv, vs1, delta1, inv1, h => by
    simp only [expmapLoop, Except.ok.injEq, Prod.mk.injEq] at h
    obtain ⟨rfl, rfl, rfl⟩ := h
    exact ⟨rfl, fun _ _ => rfl, sameOutside_refl _ _, invalidateFrame_refl _ _⟩
  | (var, value) :: rest, ks, delta, inv, vs1, delta1, inv1, h => by
    rw [expmapLoop] at h
    cases hassert : expmapAsserts flags dim var value ks delta with
    | error e => simp [hassert] at h
    | ok u =>
      simp only [hassert] at h
      by_cases hm : var ∈ mask
      · simp only [if_pos hm] at h
        cases hat : delta.at var with
        | error e => simp [hat] at h
        | ok d =>
          simp only [hat] at h
          cases hinv : invalidate var d.rows delta inv with
          | error e => simp [hinv] at h
          | ok st =>
            obtain ⟨delta2, inv2⟩ := st
            simp only [hinv] at h
            cases hrec : expmapLoop flags retract dim mask rest ks.tail delta2 inv2 with
            | error e => simp [hrec] at h
            | ok r =>
              obtain ⟨vs2, delta3, inv3⟩ := r
              simp only [hrec, Except.ok.injEq, Prod.mk.injEq] at h
              obtain ⟨rfl, rfl, rfl⟩ := h
              obtain ⟨hk, hl, hd, hi⟩ := expmapLoop_frame flags retract dim mask rest ks.tail
                delta2 inv2 vs2 _ _ hrec
              obtain ⟨hd0, hi0⟩ :=
                invalidate_frame mask var d.rows delta delta2 inv inv2 hm hinv
              refine ⟨by simp [hk], ?_, sameOutside_trans _ _ _ _ hd0 hd,
                invalidateFrame_trans _ _ _ _ hi0 hi⟩
              intro k hkm
              have hne : k ≠ var := fun e => hkm (e ▸ hm)
              have hb : (k == var) = false := by simpa using hne
              rw [List.lookup_cons, List.lookup_cons, hb]
              exact hl k hkm
      · simp only [if_neg hm] at h
        cases hrec : expmapLoop flags retract dim mask rest ks.tail delta inv with
        | error e => simp [hrec] at h
        | ok r =>
          obtain ⟨vs2, delta3, inv3⟩ := r
          simp only [hrec, Except.ok.injEq, Prod.mk.injEq] at h
          obtain ⟨rfl, rfl, rfl⟩ := h
          obtain ⟨hk, hl, hd, hi⟩ := expmapLoop_frame flags retract dim mask rest ks.tail
            delta inv vs2 _ _ hrec
          refine ⟨by simp [hk], ?_, hd, hi⟩
          intro k hkm
          rw [List.lookup_cons, List.lookup_cons, hl k hkm]

theorem expmapLoop_mask_congr {V : Type} (flags : BuildFlags) (retract : V → Vector → V)
    (dim : V → Nat) (mask mask1 : FastSet) :
    ∀ (vs : Values V) (ks : List Key) (delta : VectorValues) (inv : Invalidate),
      (∀ kx ∈ vs, (kx.1 ∈ mask1 ↔ kx.1 ∈ mask)) →
      expmapLoop flags retract dim mask1 vs ks delta inv =
        expmapLoop flags retract dim mask vs ks delta inv
  | [], _, _, _, _ => rfl
  | (var, value) :: rest, ks, delta, inv, h => by
    have ih := fun ks delta inv => expmapLoop_mask_congr flags retract dim mask mask1 rest ks
      delta inv (fun kx hkx => h kx (List.mem_cons_of_mem _ hkx))
    have hv : var ∈ mask1 ↔ var ∈ mask := h (var, value) (List.mem_cons_self _ _)
    rw [expmapLoop, expmapLoop]
    by_cases hm : var ∈ mask
    · simp only [if_pos hm, if_pos (hv.2 hm), ih]
    · simp only [if_neg hm, if_neg (fun x => hm (hv.1 x)), ih]

/-- C11: when `ExpmapMasked` returns, the estimate store has the keys it had and, for every key
outside the mask, the value it had; the delta store and a separately supplied invalidation store
have the keys they had and, for every key outside the mask, the vector they had; and the keys of
the mask that the estimate store does not hold have no effect, the call does what it does with
the mask restricted to the keys of the estimate store. -/
theorem ExpmapMasked_frame {V : Type} (flags : BuildFlags) (retract : V → Vector → V)
    (dim : V → Nat) (values : Values V) (delta : VectorValues) (mask : FastSet)
    (invalidateIfDebug : Invalidate) (values1 : Values V) (delta1 : VectorValues)
    (invalidate1 : Invalidate)
    (h : ExpmapMasked flags retract dim values delta mask invalidateIfDebug =
      .ok (values1, delta1, invalidate1)) :
    values1.map Prod.fst = values.map Prod.fst ∧
      (∀ k, k ∉ mask → List.lookup k values1 = List.lookup k values) ∧
      SameOutside mask delta delta1 ∧
      InvalidateFrame mask invalidateIfDebug invalidate1 ∧
      ExpmapMasked flags retract dim values delta
          (mask.filter (fun k => k ∈ values.map Prod.fst)) invalidateIfDebug =
        ExpmapMasked flags retract dim values delta mask invalidateIfDebug := by
  have hcongr : ∀ inv, expmapLoop flags retract dim
      (mask.filter (fun k => k ∈ values.map Prod.fst)) values (delta.map Prod.fst) delta inv =
        expmapLoop flags retract dim mask values (delta.map Prod.fst) delta inv := by
    intro inv
    apply expmapLoop_mask_congr
    intro kx hkx
    rw [Finset.mem_filter]
    exact ⟨fun hx => hx.1, fun hx => ⟨hx, List.mem_map_of_mem Prod.fst hkx⟩⟩
  have hlast : ExpmapMasked flags retract dim values delta
      (mask.filter (fun k => k ∈ values.map Prod.fst)) invalidateIfDebug =
        ExpmapMasked flags retract dim values delta mask invalidateIfDebug := by
    simp only [ExpmapMasked, hcongr]
  unfold ExpmapMasked at h
  cases hN : flags.NDEBUG with
  | true =>
    simp only [hN, if_true] at h
    cases hloop : expmapLoop flags retract dim mask values (delta.map Prod.fst) delta .none with
    | error e => simp [hloop] at h
    | ok r =>
      obtain ⟨vs2, delta2, inv2⟩ := r
      simp only [hloop, Except.ok.injEq, Prod.mk.injEq] at h
      obtain ⟨rfl, rfl, rfl⟩ := h
      obtain ⟨hk, hl, hd, _⟩ := expmapLoop_frame flags retract dim mask values _ delta .none
        vs2 delta2 inv2 hloop
      exact ⟨hk, hl, hd, invalidateFrame_refl _ _, hlast⟩
  | false =>
    simp only [hN] at h
    by_cases hlen : values.length = delta.length
    · simp only [hlen, ne_eq, not_true_eq_false, if_false] at h
      obtain ⟨hk, hl, hd, hi⟩ := expmapLoop_frame flags retract dim mask values _ delta
        invalidateIfDebug values1 delta1 invalidate1 (by simpa using h)
      exact ⟨hk, hl, hd, hi, hlast⟩
    · simp [hlen] at h
/-- Witness of C11: two points of the plane and the mask `x1, x5` in a build with assertions
where the store to invalidate is the delta store itself; `x5` is in no store. -/
theorem ExpmapMasked_frame_witness :
    ([(1, [1 / 2, 0]), (2, [1, 1])] : Values (List ℚ)).map Prod.fst =
        planeValues.map Prod.fst ∧
      (∀ k, k ∉ ({1, 5} : FastSet) →
        List.lookup k ([(1, [1 / 2, 0]), (2, [1, 1])] : Values (List ℚ)) =
          List.lookup k planeValues) ∧
      SameOutside {1, 5} planeDelta [(1, [.posInf, .posInf]), (2, [.fin 0, .fin 1])] ∧
      InvalidateFrame {1, 5} .delta .delta ∧
      ExpmapMasked debugFlags planeRetract planeDim planeValues planeDelta
          (({1, 5} : FastSet).filter (fun k => k ∈ planeValues.map Prod.fst)) .delta =
        ExpmapMasked debugFlags planeRetract planeDim planeValues planeDelta {1, 5} .delta :=
  ExpmapMasked_frame debugFlags planeRetract planeDim planeValues planeDelta {1, 5} .delta
    _ _ _ (by
      simp [ExpmapMasked, debugFlags, planeValues, planeDelta, expmapLoop, expmapAsserts,
        VectorValues.at, VectorValues.find, List.lookup, Vector.rows, planeDim, Vector.allFinite,
        Double.isFinite, invalidate, VectorValues.assign, Vector.Constant, planeRetract])

/-! ### Variable store lifecycle -/

theorem mapExists_iff {α : Type} :
    ∀ (store : List (Key × α)) (k : Key), mapExists store k = true ↔ k ∈ store.map Prod.fst
  | [], k => by simp [mapExists]
  | (a, b) :: rest, k => by
    have ih := mapExists_iff rest k
    unfold mapExists at ih ⊢
    by_cases hk : k = a
    · subst hk
      simp
    · have hb : (k == a) = false := by simpa using hk
      rw [List.lookup_cons, hb, ih]
      simp [hk]

theorem mapExists_false_iff {α : Type} (store : List (Key × α)) (k : Key) :
    mapExists store k = false ↔ k ∉ store.map Prod.fst := by
  rw [← mapExists_iff, Bool.not_eq_true]

theorem mem_mapInsert {α : Type} (k : Key) (v : α) (kv : Key × α) :
    ∀ (store : List (Key × α)), kv ∈ mapInsert k v store ↔ kv = (k, v) ∨ kv ∈ store
  | [] => by simp [mapInsert]
  | (a, b) :: rest => by
    unfold mapInsert
    by_cases h : k < a
    · rw [if_pos h, List.mem_cons]
    · rw [if_neg h, List.mem_cons, mem_mapInsert k v kv rest, List.mem_cons]
      tauto

theorem keys_mapInsert {α : Type} (k : Key) (v : α) (k1 : Key) (store : List (Key × α)) :
    k1 ∈ (mapInsert k v store).map Prod.fst ↔ k1 = k ∨ k1 ∈ store.map Prod.fst := by
  simp only [List.mem_map, mem_mapInsert]
  constructor
  · rintro ⟨kv, (rfl | h), rfl⟩
    · exact Or.inl rfl
    · exact Or.inr ⟨kv, h, rfl⟩
  · rintro (rfl | ⟨kv, h, rfl⟩)
    · exact ⟨(k1, v), Or.inl rfl, rfl⟩
    · exact ⟨kv, Or.inr h, rfl⟩

theorem keys_mapInsert_congr {α β : Type} (k : Key) (v : α) (w : β) :
    ∀ (s : List (Key × α)) (t : List (Key × β)), s.map Prod.fst = t.map Prod.fst →
      (mapInsert k v s).map Prod.fst = (mapInsert k w t).map Prod.fst
  | [], [], _ => rfl
  | [], _ :: _, h => by simp at h
  | _ :: _, [], h => by simp at h
  | (a, b) :: s, (c, d) :: t, h => by
    simp only [List.map_cons, List.cons.injEq] at h
    obtain ⟨rfl, h⟩ := h
    unfold mapInsert
    by_cases hk : k < a
    · simp [hk, h]
    · simp [hk, keys_mapInsert_congr k v w s t h]

theorem lookup_mapInsert_ne {α : Type} (k : Key) (v : α) (k1 : Key) (hne : k1 ≠ k) :
    ∀ (store : List (Key × α)), List.lookup k1 (mapInsert k v store) = List.lookup k1 store
  | [] => by
    have hb : (k1 == k) = false := by simpa using hne
    simp [mapInsert, List.lookup, hb]
  | (a, b) :: rest => by
    unfold mapInsert
    have hb : (k1 == k) = false := by simpa using hne
    by_cases h : k < a
    · rw [if_pos h, List.lookup_cons, hb]
    · rw [if_neg h, List.lookup_cons, List.lookup_cons, lookup_mapInsert_ne k v k1 hne rest]

theorem lookup_mapInsert_self {α : Type} (k : Key) (v : α) :
    ∀ (store : List (Key × α)), k ∉ store.map Prod.fst →
      List.lookup k (mapInsert k v store) = some v
  | [], _ => by simp [mapInsert]
  | (a, b) :: rest, h => by
    have hne : k ≠ a := fun e => h (by simp [e])
    have hrest : k ∉ rest.map Prod.fst := fun e => h (by simp at e ⊢; exact Or.inr e)
    have hb : (k == a) = false := by simpa using hne
    unfold mapInsert
    by_cases hk : k < a
    · rw [if_pos hk]
      simp
    · rw [if_neg hk, List.lookup_cons, hb]
      exact lookup_mapInsert_self k v rest hrest

theorem filter_mapInsert {α : Type} (p : Key → Bool) (k : Key) (v : α) (hp : p k = false) :
    ∀ (store : List (Key × α)),
      (mapInsert k v store).filter (fun kv => p kv.1) = store.filter (fun kv => p kv.1)
  | [] => by simp [mapInsert, hp]
  | (a, b) :: rest => by
    unfold mapInsert
    by_cases hk : k < a
    · rw [if_pos hk, List.filter_cons]
      simp [hp]
    · rw [if_neg hk, List.filter_cons, List.filter_cons, filter_mapInsert p k v hp rest]

theorem keys_mapErase {α : Type} (store : List (Key × α)) (k : Key) :
    (mapErase store k).map Prod.fst = (store.map Prod.fst).filter (fun j => j ≠ k) := by
  rw [List.filter_map]
  rfl

theorem mem_keys_mapErase {α : Type} (store : List (Key × α)) (k k1 : Key) :
    k1 ∈ (mapErase store k).map Prod.fst ↔ k1 ∈ store.map Prod.fst ∧ k1 ≠ k := by
  rw [keys_mapErase, List.mem_filter]
  simp

/-- The entries of a store whose keys are not in the list `U`. -/
theorem restrict_cons {α : Type} (store : List (Key × α)) (k : Key) (U : List Key) :
    (mapErase store k).filter (fun kv => decide (kv.1 ∉ U)) =
      store.filter (fun kv => decide (kv.1 ∉ k :: U)) := by
  unfold mapErase
  rw [List.filter_filter]
  apply List.filter_congr
  intro kv _
  by_cases h1 : kv.1 = k <;> by_cases h2 : kv.1 ∈ U <;> simp [h1, h2]

theorem restrict_nil {α : Type} (store : List (Key × α)) :
    store.filter (fun kv => decide (kv.1 ∉ ([] : List Key))) = store := by
  simp

theorem finset_restrict_cons (S : FastSet) (k : Key) (U : List Key) :
    (S.erase k).filter (fun j => j ∉ U) = S.filter (fun j => j ∉ k :: U) := by
  ext j
  simp only [Finset.mem_filter, Finset.mem_erase, List.mem_cons, not_or]
  tauto

theorem removeLoop_spec {V : Type} :
    ∀ (keys : List Key) (s : Stores V), keys.Nodup →
      (∀ k ∈ keys, k ∈ s.theta.map Prod.fst ∧ k ∈ s.delta.map Prod.fst ∧
        k ∈ s.deltaNewton.map Prod.fst ∧ k ∈ s.RgProd.map Prod.fst) →
      removeLoop keys s = .ok
        { theta := s.theta.filter (fun kv => decide (kv.1 ∉ keys))
          variableIndex := s.variableIndex
          delta := s.delta.filter (fun kv => decide (kv.1 ∉ keys))
          deltaNewton := s.deltaNewton.filter (fun kv => decide (kv.1 ∉ keys))
          RgProd := s.RgProd.filter (fun kv => decide (kv.1 ∉ keys))
          replacedKeys := s.replacedKeys.filter (fun j => j ∉ keys)
          nodes := s.nodes.filter (fun kv => decide (kv.1 ∉ keys))
          fixedVariables := s.fixedVariables.filter (fun j => j ∉ keys) }
  | [], s, _, _ => by
    simp [removeLoop]
  | k :: rest, s, hnd, h => by
    obtain ⟨h1, h2, h3, h4⟩ := h k (List.mem_cons_self _ _)
    have hk : k ∉ rest := (List.nodup_cons.1 hnd).1
    have hstep : removeVariable s k = .ok
        { theta := mapErase s.theta k
          variableIndex := s.variableIndex
          delta := mapErase s.delta k
          deltaNewton := mapErase s.deltaNewton k
          RgProd := mapErase s.RgProd k
          replacedKeys := s.replacedKeys.erase k
          nodes := mapErase s.nodes k
          fixedVariables := s.fixedVariables.erase k } := by
      simp [removeVariable, VectorValues.erase, Values.erase, (mapExists_iff _ _).2 h1,
        (mapExists_iff _ _).2 h2, (mapExists_iff _ _).2 h3, (mapExists_iff _ _).2 h4]
    rw [removeLoop, hstep]
    simp only
    rw [removeLoop_spec rest _ (List.nodup_cons.1 hnd).2]
    · simp only [restrict_cons, finset_restrict_cons]
    · intro j hj
      have hne : j ≠ k := fun e => hk (e ▸ hj)
      obtain ⟨g1, g2, g3, g4⟩ := h j (List.mem_cons_of_mem _ hj)
      simp only [mem_keys_mapErase]
      exact ⟨⟨g1, hne⟩, ⟨g2, hne⟩, ⟨g3, hne⟩, ⟨g4, hne⟩⟩
theorem mem_insertAll {α : Type} (kv : Key × α) :
    ∀ (entries store : List (Key × α)),
      kv ∈ insertAll store entries ↔ kv ∈ entries ∨ kv ∈ store
  | [], store => by simp [insertAll]
  | (j, v) :: rest, store => by
    rw [insertAll, mem_insertAll kv rest, mem_mapInsert, List.mem_cons]
    tauto

theorem keys_insertAll_congr {α β : Type} :
    ∀ (X : List (Key × α)) (Y : List (Key × β)) (s : List (Key × α)) (t : List (Key × β)),
      X.map Prod.fst = Y.map Prod.fst → s.map Prod.fst = t.map Prod.fst →
      (insertAll s X).map Prod.fst = (insertAll t Y).map Prod.fst
  | [], [], _, _, _, h => h
  | [], _ :: _, _, _, h, _ => by simp at h
  | _ :: _, [], _, _, h, _ => by simp at h
  | (j, v) :: X, (i, w) :: Y, s, t, hXY, h => by
    simp only [List.map_cons, List.cons.injEq] at hXY
    obtain ⟨rfl, hXY⟩ := hXY
    exact keys_insertAll_congr X Y _ _ hXY (keys_mapInsert_congr j v w s t h)

theorem filter_insertAll {α : Type} (p : Key → Bool) :
    ∀ (entries store : List (Key × α)), (∀ k ∈ entries.map Prod.fst, p k = false) →
      (insertAll store entries).filter (fun kv => p kv.1) = store.filter (fun kv => p kv.1)
  | [], _, _ => rfl
  | (j, v) :: rest, store, h => by
    rw [insertAll, filter_insertAll p rest _ (fun k hk => h k (by simp at hk ⊢; exact Or.inr hk)),
      filter_mapInsert p j v (h j (by simp))]

theorem lookup_insertAll_ne {α : Type} (k : Key) :
    ∀ (entries store : List (Key × α)), k ∉ entries.map Prod.fst →
      List.lookup k (insertAll store entries) = List.lookup k store
  | [], _, _ => rfl
  | (j, v) :: rest, store, h => by
    have hne : k ≠ j := fun e => h (by simp [e])
    have hrest : k ∉ rest.map Prod.fst := fun e => h (by simp at e ⊢; exact Or.inr e)
    rw [insertAll, lookup_insertAll_ne k rest _ hrest, lookup_mapInsert_ne j v k hne]

theorem lookup_insertAll_self {α : Type} (k : Key) (x : α) :
    ∀ (entries store : List (Key × α)), (entries.map Prod.fst).Nodup →
      (∀ j ∈ entries.map Prod.fst, j ∉ store.map Prod.fst) → (k, x) ∈ entries →
      List.lookup k (insertAll store entries) = some x
  | [], _, _, _, h => by simp at h
  | (j, v) :: rest, store, hnd, hdis, h => by
    simp only [List.map_cons, List.nodup_cons] at hnd
    rw [insertAll]
    rcases List.mem_cons.1 h with heq | hmem
    · cases heq
      rw [lookup_insertAll_ne k rest _ hnd.1]
      exact lookup_mapInsert_self k x store (hdis k (by simp))
    · apply lookup_insertAll_self k x rest _ hnd.2 _ hmem
      intro i hi
      rw [keys_mapInsert]
      rintro (rfl | hs)
      · exact hnd.1 hi
      · exact hdis i (by simp at hi ⊢; exact Or.inr hi) hs

theorem valuesInsert_ok_iff {V : Type} :
    ∀ (X theta theta1 : Values V), theta.insert X = .ok theta1 ↔
      ((X.map Prod.fst).Nodup ∧ (∀ k ∈ X.map Prod.fst, k ∉ theta.map Prod.fst) ∧
        theta1 = insertAll theta X)
  | [], theta, theta1 => by
    simp only [Values.insert, insertAll, Except.ok.injEq]
    constructor
    · intro h
      exact ⟨List.nodup_nil, by simp, h.symm⟩
    · intro h
      exact h.2.2.symm
  | (j, v) :: rest, theta, theta1 => by
    rw [Values.insert, Values.insertOne]
    by_cases hj : mapExists theta j = true
    · rw [if_pos hj]
      constructor
      · intro h
        cases h
      · intro h
        exact absurd ((mapExists_iff _ _).1 hj) (h.2.1 j (by simp))
    · rw [if_neg hj]
      have hj' : j ∉ theta.map Prod.fst := fun e => hj ((mapExists_iff _ _).2 e)
      simp only
      rw [valuesInsert_ok_iff rest, insertAll]
      simp only [List.map_cons, List.nodup_cons, List.mem_cons, forall_eq_or_imp]
      constructor
      · rintro ⟨hnd, hdis, rfl⟩
        refine ⟨⟨?_, hnd⟩, ⟨hj', ?_⟩, rfl⟩
        · intro hin
          exact hdis j hin ((keys_mapInsert _ _ _ _).2 (Or.inl rfl))
        · intro k hk hkt
          exact hdis k hk ((keys_mapInsert _ _ _ _).2 (Or.inr hkt))
      · rintro ⟨⟨hjr, hnd⟩, ⟨_, hdis⟩, rfl⟩
        refine ⟨hnd, ?_, rfl⟩
        intro k hk
        rw [keys_mapInsert]
        rintro (rfl | hkt)
        · exact hjr hk
        · exact hdis k hk hkt

theorem vectorValuesInsert_ok_iff :
    ∀ (X delta delta1 : VectorValues), delta.insert X = .ok delta1 ↔
      ((X.map Prod.fst).Nodup ∧ (∀ k ∈ X.map Prod.fst, k ∉ delta.map Prod.fst) ∧
        delta1 = insertAll delta X)
  | [], delta, delta1 => by
    simp only [VectorValues.insert, insertAll, Except.ok.injEq]
    constructor
    · intro h
      exact ⟨List.nodup_nil, by simp, h.symm⟩
    · intro h
      exact h.2.2.symm
  | (j, v) :: rest, delta, delta1 => by
    rw [VectorValues.insert]
    by_cases hj : mapExists delta j = true
    · rw [if_pos hj]
      constructor
      · intro h
        cases h
      · intro h
        exact absurd ((mapExists_iff _ _).1 hj) (h.2.1 j (by simp))
    · rw [if_neg hj]
      have hj' : j ∉ delta.map Prod.fst := fun e => hj ((mapExists_iff _ _).2 e)
      rw [vectorValuesInsert_ok_iff rest, insertAll]
      simp only [List.map_cons, List.nodup_cons, List.mem_cons, forall_eq_or_imp]
      constructor
      · rintro ⟨hnd, hdis, rfl⟩
        refine ⟨⟨?_, hnd⟩, ⟨hj', ?_⟩, rfl⟩
        · intro hin
          exact hdis j hin ((keys_mapInsert _ _ _ _).2 (Or.inl rfl))
        · intro k hk hkt
          exact hdis k hk ((keys_mapInsert _ _ _ _).2 (Or.inr hkt))
      · rintro ⟨⟨hjr, hnd⟩, ⟨_, hdis⟩, rfl⟩
        refine ⟨hnd, ?_, rfl⟩
        intro k hk
        rw [keys_mapInsert]
        rintro (rfl | hkt)
        · exact hjr hk
        · exact hdis k hk hkt

theorem keys_zeroVectors {V : Type} (dim : V → Nat) (X : Values V) :
    (X.zeroVectors dim).map Prod.fst = X.map Prod.fst := by
  simp [Values.zeroVectors, List.map_map, Function.comp_def]

theorem mem_zeroVectors {V : Type} (dim : V → Nat) (X : Values V) (k : Key) (d : Vector) :
    (k, d) ∈ X.zeroVectors dim ↔ ∃ x, (k, x) ∈ X ∧ d = Vector.Zero (dim x) := by
  simp only [Values.zeroVectors, List.mem_map, Prod.mk.injEq]
  constructor
  · rintro ⟨⟨k1, x⟩, h, rfl, rfl⟩
    exact ⟨x, h, rfl⟩
  · rintro ⟨x, h, rfl⟩
    exact ⟨(k, x), h, rfl, rfl⟩

theorem AddVariables_ok_iff {V : Type} (dim : V → Nat) (X theta theta1 : Values V)
    (delta deltaNewton RgProd delta1 deltaNewton1 RgProd1 : VectorValues) :
    AddVariables dim X theta delta deltaNewton RgProd =
        .ok (theta1, delta1, deltaNewton1, RgProd1) ↔
      ((X.map Prod.fst).Nodup ∧
        (∀ k ∈ X.map Prod.fst, k ∉ theta.map Prod.fst ∧ k ∉ delta.map Prod.fst ∧
          k ∉ deltaNewton.map Prod.fst ∧ k ∉ RgProd.map Prod.fst) ∧
        theta1 = insertAll theta X ∧ delta1 = insertAll delta (X.zeroVectors dim) ∧
        deltaNewton1 = insertAll deltaNewton (X.zeroVectors dim) ∧
        RgProd1 = insertAll RgProd (X.zeroVectors dim)) := by
  unfold AddVariables
  constructor
  · intro h
    cases h1 : theta.insert X with
    | error e => simp [h1] at h
    | ok t1 =>
      simp only [h1] at h
      cases h2 : delta.insert (X.zeroVectors dim) with
      | error e => simp [h2] at h
      | ok d1 =>
        simp only [h2] at h
        cases h3 : deltaNewton.insert (X.zeroVectors dim) with
        | error e => simp [h3] at h
        | ok n1 =>
          simp only [h3] at h
          cases h4 : RgProd.insert (X.zeroVectors dim) with
          | error e => simp [h4] at h
          | ok r1 =>
            simp only [h4, Except.ok.injEq, Prod.mk.injEq] at h
            obtain ⟨rfl, rfl, rfl, rfl⟩ := h
            obtain ⟨g1, g2, g3⟩ := (valuesInsert_ok_iff _ _ _).1 h1
            obtain ⟨_, e2, e3⟩ := (vectorValuesInsert_ok_iff _ _ _).1 h2
            obtain ⟨_, f2, f3⟩ := (vectorValuesInsert_ok_iff _ _ _).1 h3
            obtain ⟨_, c2, c3⟩ := (vectorValuesInsert_ok_iff _ _ _).1 h4
            rw [keys_zeroVectors] at e2 f2 c2
            exact ⟨g1, fun k hk => ⟨g2 k hk, e2 k hk, f2 k hk, c2 k hk⟩, g3, e3, f3, c3⟩
  · rintro ⟨hnd, hdis, rfl, rfl, rfl, rfl⟩
    have h1 := (valuesInsert_ok_iff X theta _).2 ⟨hnd, fun k hk => (hdis k hk).1, rfl⟩
    have hz : ((X.zeroVectors dim).map Prod.fst).Nodup := by
      rw [keys_zeroVectors]
      exact hnd
    have h2 := (vectorValuesInsert_ok_iff (X.zeroVectors dim) delta _).2
      ⟨hz, fun k hk => (hdis k (keys_zeroVectors dim X ▸ hk)).2.1, rfl⟩
    have h3 := (vectorValuesInsert_ok_iff (X.zeroVectors dim) deltaNewton _).2
      ⟨hz, fun k hk => (hdis k (keys_zeroVectors dim X ▸ hk)).2.2.1, rfl⟩
    have h4 := (vectorValuesInsert_ok_iff (X.zeroVectors dim) RgProd _).2
      ⟨hz, fun k hk => (hdis k (keys_zeroVectors dim X ▸ hk)).2.2.2, rfl⟩
    simp only [h1, h2, h3, h4]
theorem keys_insertAll {α : Type} (k : Key) (entries store : List (Key × α)) :
    k ∈ (insertAll store entries).map Prod.fst ↔
      k ∈ entries.map Prod.fst ∨ k ∈ store.map Prod.fst := by
  simp only [List.mem_map, mem_insertAll]
  constructor
  · rintro ⟨kv, (h | h), rfl⟩
    · exact Or.inl ⟨kv, h, rfl⟩
    · exact Or.inr ⟨kv, h, rfl⟩
  · rintro (⟨kv, h, rfl⟩ | ⟨kv, h, rfl⟩)
    · exact ⟨kv, Or.inl h, rfl⟩
    · exact ⟨kv, Or.inr h, rfl⟩

theorem foldl_mapErase {α : Type} :
    ∀ (keys : List Key) (store : List (Key × α)),
      keys.foldl (fun index key => mapErase index key) store =
        store.filter (fun kv => decide (kv.1 ∉ keys))
  | [], store => (restrict_nil store).symm
  | k :: rest, store => by
    rw [List.foldl_cons, foldl_mapErase rest, restrict_cons]

theorem filter_sort {α : Type} (U : FastSet) (store : List (Key × α)) :
    store.filter (fun kv => decide (kv.1 ∉ U.sort (· ≤ ·))) =
      store.filter (fun kv => decide (kv.1 ∉ U)) := by
  apply List.filter_congr
  intro kv _
  simp [Finset.mem_sort]

theorem finset_filter_sort (U S : FastSet) :
    S.filter (fun j => j ∉ U.sort (· ≤ ·)) = S \ U := by
  ext j
  simp [Finset.mem_sort, Finset.mem_sdiff]

/-- What `RemoveVariables` returns when the stores hold the keys to remove. -/
theorem removeVariables_spec {V : Type} (U : FastSet) (roots : List ISAM2Clique)
    (s : Stores V)
    (h : ∀ k ∈ U, k ∈ s.theta.map Prod.fst ∧ k ∈ s.delta.map Prod.fst ∧
      k ∈ s.deltaNewton.map Prod.fst ∧ k ∈ s.RgProd.map Prod.fst) :
    RemoveVariables U roots s = .ok
      { theta := s.theta.filter (fun kv => decide (kv.1 ∉ U))
        variableIndex := s.variableIndex.filter (fun kv => decide (kv.1 ∉ U))
        delta := s.delta.filter (fun kv => decide (kv.1 ∉ U))
        deltaNewton := s.deltaNewton.filter (fun kv => decide (kv.1 ∉ U))
        RgProd := s.RgProd.filter (fun kv => decide (kv.1 ∉ U))
        replacedKeys := s.replacedKeys \ U
        nodes := s.nodes.filter (fun kv => decide (kv.1 ∉ U))
        fixedVariables := s.fixedVariables \ U } := by
  have hloop := removeLoop_spec (U.sort (· ≤ ·))
    { s with variableIndex := s.variableIndex.removeUnusedVariables (U.sort (· ≤ ·)) }
    (Finset.sort_nodup _ _) (fun k hk => h k ((Finset.mem_sort _).1 hk))
  unfold RemoveVariables
  simp only
  rw [hloop]
  simp only [VariableIndex.removeUnusedVariables, foldl_mapErase, filter_sort,
    finset_filter_sort]

/-- C15: when the estimate store and the three delta stores hold the keys of `U`,
`RemoveVariables` returns, and each of the delta stores, the estimate store, the clique-lookup
table, the fixed-variables set and the replaced-keys set (and the variable index) is what it
was, restricted to the keys outside `U`. -/
theorem RemoveVariables_restricts {V : Type} (U : FastSet) (roots : List ISAM2Clique)
    (s : Stores V)
    (h : ∀ k ∈ U, k ∈ s.theta.map Prod.fst ∧ k ∈ s.delta.map Prod.fst ∧
      k ∈ s.deltaNewton.map Prod.fst ∧ k ∈ s.RgProd.map Prod.fst) :
    ∃ s1, RemoveVariables U roots s = .ok s1 ∧
      s1.delta = s.delta.filter (fun kv => decide (kv.1 ∉ U)) ∧
      s1.deltaNewton = s.deltaNewton.filter (fun kv => decide (kv.1 ∉ U)) ∧
      s1.RgProd = s.RgProd.filter (fun kv => decide (kv.1 ∉ U)) ∧
      s1.theta = s.theta.filter (fun kv => decide (kv.1 ∉ U)) ∧
      s1.nodes = s.nodes.filter (fun kv => decide (kv.1 ∉ U)) ∧
      s1.fixedVariables = s.fixedVariables \ U ∧
      s1.replacedKeys = s.replacedKeys \ U ∧
      s1.variableIndex = s.variableIndex.filter (fun kv => decide (kv.1 ∉ U)) :=
  ⟨_, removeVariables_spec U roots s h, rfl, rfl, rfl, rfl, rfl, rfl, rfl, rfl⟩

/-- Witness of C15: the removal of `x2` from the stores of the examples. -/
theorem RemoveVariables_restricts_witness :
    ∃ s1, RemoveVariables {2} [pairRoot] planeStores = .ok s1 ∧
      s1.delta = planeStores.delta.filter (fun kv => decide (kv.1 ∉ ({2} : FastSet))) ∧
      s1.deltaNewton =
        planeStores.deltaNewton.filter (fun kv => decide (kv.1 ∉ ({2} : FastSet))) ∧
      s1.RgProd = planeStores.RgProd.filter (fun kv => decide (kv.1 ∉ ({2} : FastSet))) ∧
      s1.theta = planeStores.theta.filter (fun kv => decide (kv.1 ∉ ({2} : FastSet))) ∧
      s1.nodes = planeStores.nodes.filter (fun kv => decide (kv.1 ∉ ({2} : FastSet))) ∧
      s1.fixedVariables = planeStores.fixedVariables \ {2} ∧
      s1.replacedKeys = planeStores.replacedKeys \ {2} ∧
      s1.variableIndex =
        planeStores.variableIndex.filter (fun kv => decide (kv.1 ∉ ({2} : FastSet))) :=
  RemoveVariables_restricts {2} [pairRoot] planeStores (by decide)

theorem filter_eq_self_of_disjoint {α : Type} (U : FastSet) (store : List (Key × α))
    (h : ∀ k ∈ U, k ∉ store.map Prod.fst) :
    store.filter (fun kv => decide (kv.1 ∉ U)) = store := by
  rw [List.filter_eq_self]
  intro kv hkv
  have : kv.1 ∉ U := fun hU => h kv.1 hU (List.mem_map_of_mem Prod.fst hkv)
  simpa using this

theorem filter_insertAll_disjoint {α : Type} (X store : List (Key × α))
    (h : ∀ k ∈ X.map Prod.fst, k ∉ store.map Prod.fst) :
    (insertAll store X).filter (fun kv => decide (kv.1 ∉ (X.map Prod.fst).toFinset)) =
      store := by
  rw [filter_insertAll (fun k => decide (k ∉ (X.map Prod.fst).toFinset)) X store
    (fun k hk => by simpa using hk)]
  exact filter_eq_self_of_disjoint _ _ (fun k hk => h k (List.mem_toFinset.1 hk))

/-- C12: for new estimates whose keys are in none of the four stores, `AddVariables` returns,
`RemoveVariables` of the keys of the new estimates then returns as well, and the estimate store
and the three delta stores are then what they were before the two calls. -/
theorem AddVariables_RemoveVariables {V : Type} (dim : V → Nat) (newTheta : Values V)
    (roots : List ISAM2Clique) (s : Stores V)
    (hmap : (newTheta.map Prod.fst).Nodup)
    (hnew : ∀ k ∈ newTheta.map Prod.fst, k ∉ s.theta.map Prod.fst ∧
      k ∉ s.delta.map Prod.fst ∧ k ∉ s.deltaNewton.map Prod.fst ∧
      k ∉ s.RgProd.map Prod.fst) :
    ∃ theta1 delta1 deltaNewton1 RgProd1,
      AddVariables dim newTheta s.theta s.delta s.deltaNewton s.RgProd =
        .ok (theta1, delta1, deltaNewton1, RgProd1) ∧
      ∃ s2, RemoveVariables (newTheta.map Prod.fst).toFinset roots
          { s with theta := theta1, delta := delta1, deltaNewton := deltaNewton1,
                   RgProd := RgProd1 } = .ok s2 ∧
        s2.theta = s.theta ∧ s2.delta = s.delta ∧ s2.deltaNewton = s.deltaNewton ∧
        s2.RgProd = s.RgProd := by
  have hz := keys_zeroVectors dim newTheta
  refine ⟨_, _, _, _, (AddVariables_ok_iff dim newTheta s.theta _ s.delta s.deltaNewton
    s.RgProd _ _ _).2 ⟨hmap, hnew, rfl, rfl, rfl, rfl⟩, _, removeVariables_spec _ roots _ ?_,
    ?_, ?_, ?_, ?_⟩
  · intro k hk
    have hk' : k ∈ newTheta.map Prod.fst := List.mem_toFinset.1 hk
    simp only [keys_insertAll, hz]
    exact ⟨Or.inl hk', Or.inl hk', Or.inl hk', Or.inl hk'⟩
  · exact filter_insertAll_disjoint newTheta s.theta (fun k hk => (hnew k hk).1)
  · have := filter_insertAll_disjoint (newTheta.zeroVectors dim) s.delta
      (fun k hk => (hnew k (hz ▸ hk)).2.1)
    rw [hz] at this
    exact this
  · have := filter_insertAll_disjoint (newTheta.zeroVectors dim) s.deltaNewton
      (fun k hk => (hnew k (hz ▸ hk)).2.2.1)
    rw [hz] at this
    exact this
  · have := filter_insertAll_disjoint (newTheta.zeroVectors dim) s.RgProd
      (fun k hk => (hnew k (hz ▸ hk)).2.2.2)
    rw [hz] at this
    exact this

/-- Witness of C12: the point `x3` added to the stores of the examples and removed again. -/
theorem AddVariables_RemoveVariables_witness :
    ∃ theta1 delta1 deltaNewton1 RgProd1,
      AddVariables planeDim newPlaneValues planeStores.theta planeStores.delta
          planeStores.deltaNewton planeStores.RgProd =
        .ok (theta1, delta1, deltaNewton1, RgProd1) ∧
      ∃ s2, RemoveVariables (newPlaneValues.map Prod.fst).toFinset [pairRoot]
          { planeStores with theta := theta1, delta := delta1, deltaNewton := deltaNewton1,
                             RgProd := RgProd1 } = .ok s2 ∧
        s2.theta = planeStores.theta ∧ s2.delta = planeStores.delta ∧
        s2.deltaNewton = planeStores.deltaNewton ∧ s2.RgProd = planeStores.RgProd :=
  AddVariables_RemoveVariables planeDim newPlaneValues [pairRoot] planeStores
    (by decide) (by decide)
theorem mem_filter_notin {α : Type} (U : FastSet) (store : List (Key × α)) (kv : Key × α)
    (h : kv ∈ store.filter (fun kv => decide (kv.1 ∉ U))) : kv ∈ store :=
  (List.mem_filter.1 h).1

theorem keys_filter_congr {α β : Type} (p : Key → Bool) (s : List (Key × α))
    (t : List (Key × β)) (h : s.map Prod.fst = t.map Prod.fst) :
    (s.filter (fun kv => p kv.1)).map Prod.fst = (t.filter (fun kv => p kv.1)).map Prod.fst := by
  have hs : (s.filter (fun kv => p kv.1)).map Prod.fst = (s.map Prod.fst).filter p := by
    rw [List.filter_map]
    rfl
  have ht : (t.filter (fun kv => p kv.1)).map Prod.fst = (t.map Prod.fst).filter p := by
    rw [List.filter_map]
    rfl
  rw [hs, ht, h]

theorem zero_rows (n : Nat) : (Vector.Zero n).rows = n := by
  simp [Vector.Zero, Vector.rows]

theorem consistent_add {V : Type} (dim : V → Nat) (X theta : Values V)
    (delta deltaNewton RgProd : VectorValues)
    (hc : Consistent dim theta delta deltaNewton RgProd)
    (hnd : (X.map Prod.fst).Nodup)
    (hdis : ∀ k ∈ X.map Prod.fst, k ∉ theta.map Prod.fst) :
    Consistent dim (insertAll theta X) (insertAll delta (X.zeroVectors dim))
      (insertAll deltaNewton (X.zeroVectors dim)) (insertAll RgProd (X.zeroVectors dim)) := by
  obtain ⟨h1, h2, h3, h4⟩ := hc
  have hz := keys_zeroVectors dim X
  refine ⟨keys_insertAll_congr _ _ _ _ hz h1, keys_insertAll_congr _ _ _ _ hz h2,
    keys_insertAll_congr _ _ _ _ hz h3, ?_⟩
  intro k x d hx hd
  have hd' : (k, d) ∈ X.zeroVectors dim ∨
      ((k, d) ∈ delta ∨ (k, d) ∈ deltaNewton ∨ (k, d) ∈ RgProd) := by
    simp only [mem_insertAll] at hd
    tauto
  have hkeys : ((k, d) ∈ delta ∨ (k, d) ∈ deltaNewton ∨ (k, d) ∈ RgProd) →
      k ∈ theta.map Prod.fst := by
    rintro (h | h | h)
    · exact h1 ▸ List.mem_map_of_mem Prod.fst h
    · exact h2 ▸ List.mem_map_of_mem Prod.fst h
    · exact h3 ▸ List.mem_map_of_mem Prod.fst h
  rcases (mem_insertAll _ _ _).1 hx with hxX | hxT
  · have hkX : k ∈ X.map Prod.fst := List.mem_map_of_mem Prod.fst hxX
    rcases hd' with hdZ | hdS
    · obtain ⟨x1, hx1, rfl⟩ := (mem_zeroVectors dim X k d).1 hdZ
      have hlx := lookup_of_mem_nodup X k x hnd hxX
      have hlx1 := lookup_of_mem_nodup X k x1 hnd hx1
      rw [hlx] at hlx1
      cases hlx1
      exact zero_rows _
    · exact absurd (hkeys hdS) (hdis k hkX)
  · rcases hd' with hdZ | hdS
    · obtain ⟨x1, hx1, _⟩ := (mem_zeroVectors dim X k d).1 hdZ
      exact absurd (List.mem_map_of_mem Prod.fst hxT)
        (hdis k (List.mem_map_of_mem Prod.fst hx1))
    · exact h4 k x d hxT hdS

theorem consistent_filter {V : Type} (dim : V → Nat) (theta : Values V)
    (delta deltaNewton RgProd : VectorValues) (U : FastSet)
    (hc : Consistent dim theta delta deltaNewton RgProd) :
    Consistent dim (theta.filter (fun kv => decide (kv.1 ∉ U)))
      (delta.filter (fun kv => decide (kv.1 ∉ U)))
      (deltaNewton.filter (fun kv => decide (kv.1 ∉ U)))
      (RgProd.filter (fun kv => decide (kv.1 ∉ U))) := by
  obtain ⟨h1, h2, h3, h4⟩ := hc
  refine ⟨keys_filter_congr (fun k => decide (k ∉ U)) _ _ h1,
    keys_filter_congr (fun k => decide (k ∉ U)) _ _ h2,
    keys_filter_congr (fun k => decide (k ∉ U)) _ _ h3, ?_⟩
  intro k x d hx hd
  refine h4 k x d (mem_filter_notin U _ _ hx) ?_
  rcases hd with h | h | h
  · exact Or.inl (mem_filter_notin U _ _ h)
  · exact Or.inr (Or.inl (mem_filter_notin U _ _ h))
  · exact Or.inr (Or.inr (mem_filter_notin U _ _ h))

/-- C13: from stores that satisfy the store-consistency invariant, every `AddVariables` call
that returns leaves stores that satisfy it, and every `RemoveVariables` call for keys that the
estimate store holds returns and leaves stores that satisfy it. -/
theorem Consistent_preserved {V : Type} (dim : V → Nat) (s : Stores V)
    (hc : Consistent dim s.theta s.delta s.deltaNewton s.RgProd) :
    (∀ (newTheta theta1 : Values V) (delta1 deltaNewton1 RgProd1 : VectorValues),
      AddVariables dim newTheta s.theta s.delta s.deltaNewton s.RgProd =
        .ok (theta1, delta1, deltaNewton1, RgProd1) →
      Consistent dim theta1 delta1 deltaNewton1 RgProd1) ∧
    (∀ (unusedKeys : FastSet) (roots : List ISAM2Clique),
      (∀ k ∈ unusedKeys, k ∈ s.theta.map Prod.fst) →
      ∃ s1, RemoveVariables unusedKeys roots s = .ok s1 ∧
        Consistent dim s1.theta s1.delta s1.deltaNewton s1.RgProd) := by
  constructor
  · intro X theta1 delta1 deltaNewton1 RgProd1 h
    obtain ⟨hnd, hdis, rfl, rfl, rfl, rfl⟩ := (AddVariables_ok_iff dim X s.theta _ s.delta
      s.deltaNewton s.RgProd _ _ _).1 h
    exact consistent_add dim X s.theta s.delta s.deltaNewton s.RgProd hc hnd
      (fun k hk => (hdis k hk).1)
  · intro U roots hU
    refine ⟨_, removeVariables_spec U roots s ?_, ?_⟩
    · intro k hk
      obtain ⟨h1, h2, h3, _⟩ := hc
      have := hU k hk
      exact ⟨this, h1 ▸ this, h2 ▸ this, h3 ▸ this⟩
    · exact consistent_filter dim s.theta s.delta s.deltaNewton s.RgProd U hc

/-- Witness of C13: the stores of the examples satisfy the invariant. -/
theorem Consistent_preserved_witness :
    (∀ (newTheta theta1 : Values (List ℚ)) (delta1 deltaNewton1 RgProd1 : VectorValues),
      AddVariables planeDim newTheta planeStores.theta planeStores.delta
          planeStores.deltaNewton planeStores.RgProd =
        .ok (theta1, delta1, deltaNewton1, RgProd1) →
      Consistent planeDim theta1 delta1 deltaNewton1 RgProd1) ∧
    (∀ (unusedKeys : FastSet) (roots : List ISAM2Clique),
      (∀ k ∈ unusedKeys, k ∈ planeStores.theta.map Prod.fst) →
      ∃ s1, RemoveVariables unusedKeys roots planeStores = .ok s1 ∧
        Consistent planeDim s1.theta s1.delta s1.deltaNewton s1.RgProd) :=
  Consistent_preserved planeDim planeStores (by
    refine ⟨by decide, by decide, by decide, ?_⟩
    intro k x d hx hd
    simp only [planeStores, planeValues, planeDelta, List.mem_cons, Prod.mk.injEq,
      List.mem_singleton, List.not_mem_nil, or_false] at hx hd
    rcases hx with ⟨rfl, rfl⟩ | ⟨rfl, rfl⟩ <;>
      rcases hd with
        (⟨_, rfl⟩ | ⟨_, rfl⟩) | (⟨_, rfl⟩ | ⟨_, rfl⟩) | (⟨_, rfl⟩ | ⟨_, rfl⟩) <;>
      rfl)

/-- C14: for new estimates whose keys are in none of the four stores, `AddVariables` returns;
afterwards every new key has the supplied value in the estimate store and the zero vector of
the dimension of that value in each of `delta`, `deltaNewton` and `RgProd`, and every other key
has in each store what it had. -/
theorem AddVariables_spec {V : Type} (dim : V → Nat) (newTheta theta : Values V)
    (delta deltaNewton RgProd : VectorValues)
    (hmap : (newTheta.map Prod.fst).Nodup)
    (hnew : ∀ k ∈ newTheta.map Prod.fst, k ∉ theta.map Prod.fst ∧
      k ∉ delta.map Prod.fst ∧ k ∉ deltaNewton.map Prod.fst ∧ k ∉ RgProd.map Prod.fst) :
    ∃ theta1 delta1 deltaNewton1 RgProd1,
      AddVariables dim newTheta theta delta deltaNewton RgProd =
        .ok (theta1, delta1, deltaNewton1, RgProd1) ∧
      (∀ k x, (k, x) ∈ newTheta →
        List.lookup k theta1 = some x ∧ delta1.find k = some (Vector.Zero (dim x)) ∧
        deltaNewton1.find k = some (Vector.Zero (dim x)) ∧
        RgProd1.find k = some (Vector.Zero (dim x))) ∧
      (∀ k, k ∉ newTheta.map Prod.fst →
        List.lookup k theta1 = List.lookup k theta ∧ delta1.find k = delta.find k ∧
        deltaNewton1.find k = deltaNewton.find k ∧ RgProd1.find k = RgProd.find k) := by
  have hz := keys_zeroVectors dim newTheta
  have hzn : ((newTheta.zeroVectors dim).map Prod.fst).Nodup := hz ▸ hmap
  refine ⟨_, _, _, _, (AddVariables_ok_iff dim newTheta theta _ delta deltaNewton
    RgProd _ _ _).2 ⟨hmap, hnew, rfl, rfl, rfl, rfl⟩, ?_, ?_⟩
  · intro k x hx
    have hzx : (k, Vector.Zero (dim x)) ∈ newTheta.zeroVectors dim :=
      (mem_zeroVectors dim newTheta k _).2 ⟨x, hx, rfl⟩
    exact ⟨lookup_insertAll_self k x newTheta theta hmap (fun j hj => (hnew j hj).1) hx,
      lookup_insertAll_self k _ _ delta hzn (fun j hj => (hnew j (hz ▸ hj)).2.1) hzx,
      lookup_insertAll_self k _ _ deltaNewton hzn (fun j hj => (hnew j (hz ▸ hj)).2.2.1) hzx,
      lookup_insertAll_self k _ _ RgProd hzn (fun j hj => (hnew j (hz ▸ hj)).2.2.2) hzx⟩
  · intro k hk
    have hkz : k ∉ (newTheta.zeroVectors dim).map Prod.fst := hz ▸ hk
    exact ⟨lookup_insertAll_ne k newTheta theta hk,
      lookup_insertAll_ne k _ delta hkz, lookup_insertAll_ne k _ deltaNewton hkz,
      lookup_insertAll_ne k _ RgProd hkz⟩

/-- Witness of C14: the point `x3` added to the stores of the examples. -/
theorem AddVariables_spec_witness :
    ∃ theta1 delta1 deltaNewton1 RgProd1,
      AddVariables planeDim newPlaneValues planeStores.theta planeStores.delta
          planeStores.deltaNewton planeStores.RgProd =
        .ok (theta1, delta1, deltaNewton1, RgProd1) ∧
      (∀ k x, (k, x) ∈ newPlaneValues →
        List.lookup k theta1 = some x ∧ delta1.find k = some (Vector.Zero (planeDim x)) ∧
        deltaNewton1.find k = some (Vector.Zero (planeDim x)) ∧
        RgProd1.find k = some (Vector.Zero (planeDim x))) ∧
      (∀ k, k ∉ newPlaneValues.map Prod.fst →
        List.lookup k theta1 = List.lookup k planeStores.theta ∧
        delta1.find k = planeStores.delta.find k ∧
        deltaNewton1.find k = planeStores.deltaNewton.find k ∧
        RgProd1.find k = planeStores.RgProd.find k) :=
  AddVariables_spec planeDim newPlaneValues planeStores.theta planeStores.delta
    planeStores.deltaNewton planeStores.RgProd (by decide) (by decide)

theorem valuesInsert_error {V : Type} :
    ∀ (X theta : Values V), (∃ k ∈ X.map Prod.fst, k ∈ theta.map Prod.fst) →
      ∃ j, j ∈ X.map Prod.fst ∧ theta.insert X = .error (.key_already_exists j)
  | [], _, h => by
    obtain ⟨k, hk, _⟩ := h
    simp at hk
  | (j, v) :: rest, theta, h => by
    rw [Values.insert, Values.insertOne]
    by_cases hj : mapExists theta j = true
    · rw [if_pos hj]
      exact ⟨j, by simp, rfl⟩
    · rw [if_neg hj]
      have hj' : j ∉ theta.map Prod.fst := fun e => hj ((mapExists_iff _ _).2 e)
      obtain ⟨k, hk, hkt⟩ := h
      have hkr : k ∈ rest.map Prod.fst := by
        simp only [List.map_cons, List.mem_cons] at hk
        rcases hk with rfl | hk
        · exact absurd hkt hj'
        · exact hk
      obtain ⟨i, hi, he⟩ := valuesInsert_error rest (mapInsert j v theta)
        ⟨k, hkr, (keys_mapInsert _ _ _ _).2 (Or.inr hkt)⟩
      exact ⟨i, by simp only [List.map_cons, List.mem_cons]; exact Or.inr hi, he⟩

/-- C16: when a key of the new estimates is already in the estimate store, `AddVariables` does
not return: the insertion into the estimate store throws for a key of the new estimates. -/
theorem AddVariables_fails {V : Type} (dim : V → Nat) (newTheta theta : Values V)
    (delta deltaNewton RgProd : VectorValues)
    (h : ∃ k ∈ newTheta.map Prod.fst, k ∈ theta.map Prod.fst) :
    ∃ j, j ∈ newTheta.map Prod.fst ∧
      AddVariables dim newTheta theta delta deltaNewton RgProd =
        .error (.key_already_exists j) := by
  obtain ⟨j, hj, he⟩ := valuesInsert_error newTheta theta h
  exact ⟨j, hj, by simp [AddVariables, he]⟩

/-- Witness of C16: the estimate store of the examples added to itself. -/
theorem AddVariables_fails_witness :
    ∃ j, j ∈ planeValues.map Prod.fst ∧
      AddVariables planeDim planeValues planeValues planeDelta planeDelta planeDelta =
        .error (.key_already_exists j) :=
  AddVariables_fails planeDim planeValues planeValues planeDelta planeDelta planeDelta
    ⟨1, by decide, by decide⟩

/-! ### Delta propagation -/

theorem find_isSome_of_mem_keys (store : VectorValues) (k : Key)
    (h : k ∈ store.map Prod.fst) : ∃ d, store.find k = some d :=
  Option.isSome_iff_exists.1 ((mapExists_iff store k).2 h)

theorem keys_assign (store store1 : VectorValues) (j : Key) (v : Vector)
    (h : store.assign j v = .ok store1) : store1.map Prod.fst = store.map Prod.fst := by
  unfold VectorValues.assign at h
  cases hf : store.find j with
  | none => simp [hf] at h
  | some d =>
    simp only [hf, Except.ok.injEq] at h
    rw [← h, List.map_map]
    apply List.map_congr_left
    intro kv _
    by_cases hkv : kv.1 = j
    · simp [hkv]
    · simp [hkv]

theorem update_ok :
    ∀ (values result : VectorValues),
      (∀ k ∈ values.map Prod.fst, k ∈ result.map Prod.fst) →
      ∃ r, result.update values = .ok r ∧ r.map Prod.fst = result.map Prod.fst
  | [], result, _ => ⟨result, rfl, rfl⟩
  | (j, v) :: rest, result, h => by
    obtain ⟨d, hd⟩ := find_isSome_of_mem_keys result j (h j (by simp))
    obtain ⟨r1, hr1⟩ := assign_ok result j v d hd
    have hk1 := keys_assign result r1 j v hr1
    obtain ⟨r, hr, hk⟩ := update_ok rest r1 (fun k hk => by
      rw [hk1]
      exact h k (by simp at hk ⊢; exact Or.inr hk))
    exact ⟨r, by simp [VectorValues.update, hr1, hr], hk.trans hk1⟩

mutual
theorem optimizeInPlace_ok (solve : ISAM2Clique → VectorValues → VectorValues)
    (hsolve : ∀ c result, ∀ k ∈ (solve c result).map Prod.fst, k ∈ c.frontals) :
    ∀ (c : ISAM2Clique) (result : VectorValues),
      (∀ k ∈ c.allFrontals, k ∈ result.map Prod.fst) →
      ∃ r, optimizeInPlace solve c result = .ok r ∧ r.map Prod.fst = result.map Prod.fst
  | .mk f p ch, result, h => by
    obtain ⟨r1, hr1, hk1⟩ := update_ok (solve (.mk f p ch) result) result (fun k hk =>
      h k (by
        rw [ISAM2Clique.allFrontals]
        exact List.mem_append_left _ (hsolve _ _ k hk)))
    obtain ⟨r, hr, hk⟩ := optimizeInPlaceChildren_ok solve hsolve ch r1 (fun k hk => by
      rw [hk1]
      exact h k (by
        rw [ISAM2Clique.allFrontals]
        exact List.mem_append_right _ hk))
    exact ⟨r, by simp [optimizeInPlace, hr1, hr], hk.trans hk1⟩
theorem optimizeInPlaceChildren_ok (solve : ISAM2Clique → VectorValues → VectorValues)
    (hsolve : ∀ c result, ∀ k ∈ (solve c result).map Prod.fst, k ∈ c.frontals) :
    ∀ (cs : List ISAM2Clique) (result : VectorValues),
      (∀ k ∈ allFrontalsList cs, k ∈ result.map Prod.fst) →
      ∃ r, optimizeInPlaceChildren solve cs result = .ok r ∧
        r.map Prod.fst = result.map Prod.fst
  | [], result, _ => ⟨result, rfl, rfl⟩
  | c :: rest, result, h => by
    obtain ⟨r1, hr1, hk1⟩ := optimizeInPlace_ok solve hsolve c result (fun k hk =>
      h k (by
        rw [allFrontalsList]
        exact List.mem_append_left _ hk))
    obtain ⟨r, hr, hk⟩ := optimizeInPlaceChildren_ok solve hsolve rest r1 (fun k hk => by
      rw [hk1]
      exact h k (by
        rw [allFrontalsList]
        exact List.mem_append_right _ hk))
    exact ⟨r, by simp [optimizeInPlaceChildren, hr1, hr], hk.trans hk1⟩
end

/-- C17: with a wildfire threshold that is not positive, when the solve of a clique returns
entries for frontal keys of the clique and the delta store holds the frontal keys of the
forest, `UpdateDelta` returns the number of entries of the delta store, which has the keys it
had; that is the number of frontal keys of the forest when these are the keys of the delta
store, each once. -/
theorem UpdateDelta_full_count (flags : BuildFlags) (extraChecks : Bool)
    (solve : ISAM2Clique → VectorValues → VectorValues)
    (optimizeWildfireNonRecursive :
      ISAM2Clique → Double → FastSet → VectorValues → Nat × VectorValues)
    (roots : List ISAM2Clique) (replacedKeys : FastSet) (delta : VectorValues)
    (wildfireThreshold : Double)
    (hthr : wildfireThreshold ≤ 0)
    (hsolve : ∀ c result, ∀ k ∈ (solve c result).map Prod.fst, k ∈ c.frontals)
    (hentry : ∀ k ∈ allFrontalsList roots, k ∈ delta.map Prod.fst) :
    ∃ delta1,
      UpdateDelta flags extraChecks solve optimizeWildfireNonRecursive roots replacedKeys delta
          wildfireThreshold = .ok (delta.length, ∅, delta1) ∧
      delta1.map Prod.fst = delta.map Prod.fst ∧
      ((allFrontalsList roots).Perm (delta.map Prod.fst) →
        delta.length = (allFrontalsList roots).length) := by
  obtain ⟨r, hr, hk⟩ := optimizeInPlaceChildren_ok solve hsolve roots delta hentry
  have hlen : r.length = delta.length := by
    have := congrArg List.length hk
    simpa using this
  refine ⟨r, by simp [UpdateDelta, hthr, hr, hlen], hk, ?_⟩
  intro hperm
  have := hperm.length_eq
  simpa using this.symm
/-- Witness of C17: the scenario, every frontal key solved to zero, with the threshold `0`:
three variables. -/
theorem UpdateDelta_full_count_witness :
    ∃ delta1,
      UpdateDelta debugFlags false zeroSolve noWildfire [scenarioRoot] {2} scenarioDelta 0 =
        .ok (scenarioDelta.length, ∅, delta1) ∧
      delta1.map Prod.fst = scenarioDelta.map Prod.fst ∧
      ((allFrontalsList [scenarioRoot]).Perm (scenarioDelta.map Prod.fst) →
        scenarioDelta.length = (allFrontalsList [scenarioRoot]).length) :=
  UpdateDelta_full_count debugFlags false zeroSolve noWildfire [scenarioRoot] {2}
    scenarioDelta 0 (le_refl _)
    (by
      intro c result k hk
      simpa [zeroSolve, List.map_map, Function.comp_def] using hk)
    (by decide)

/-- C18: whenever `UpdateDelta` returns, whatever the wildfire threshold, the replaced-keys set
is empty, and whenever `UpdateDoglegDeltas` returns it is empty. -/
theorem replacedKeys_cleared :
    (∀ (flags : BuildFlags) (extraChecks : Bool)
      (solve : ISAM2Clique → VectorValues → VectorValues)
      (optimizeWildfireNonRecursive :
        ISAM2Clique → Double → FastSet → VectorValues → Nat × VectorValues)
      (roots : List ISAM2Clique) (replacedKeys : FastSet) (delta : VectorValues)
      (wildfireThreshold : Double) (r : Nat × FastSet × VectorValues),
      UpdateDelta flags extraChecks solve optimizeWildfireNonRecursive roots replacedKeys delta
          wildfireThreshold = .ok r → r.2.1 = ∅) ∧
    (∀ (product : ISAM2Clique → Vector → Vector → Vector)
      (gradientAtZero : List ISAM2Clique → VectorValues)
      (optimizeWildfireNonRecursive :
        ISAM2Clique → Double → FastSet → VectorValues → Nat × VectorValues)
      (isam : List ISAM2Clique) (wildfireThreshold : Double) (replacedKeys : FastSet)
      (deltaNewton RgProd : VectorValues) (r : Nat × FastSet × VectorValues × VectorValues),
      UpdateDoglegDeltas product gradientAtZero optimizeWildfireNonRecursive isam
          wildfireThreshold replacedKeys deltaNewton RgProd = .ok r → r.2.1 = ∅) := by
  constructor
  · intro flags extraChecks solve wf roots replacedKeys delta thr r h
    unfold UpdateDelta at h
    by_cases hthr : thr ≤ 0
    · rw [if_pos hthr] at h
      cases ho : optimizeInPlaceChildren solve roots delta with
      | error e => simp [ho] at h
      | ok d =>
        simp only [ho, Except.ok.injEq] at h
        rw [← h]
    · rw [if_neg hthr] at h
      simp only at h
      by_cases hc : (extraChecks && !flags.NDEBUG) = true
      · rw [if_pos hc] at h
        cases hl : consistencyLoop (wildfireLoop wf thr replacedKeys roots (0, delta)).2 0
            (wildfireLoop wf thr replacedKeys roots (0, delta)).2.length with
        | error e => simp [hl] at h
        | ok u =>
          simp only [hl, Except.ok.injEq] at h
          rw [← h]
      · rw [if_neg hc] at h
        simp only [Except.ok.injEq] at h
        rw [← h]
  · intro product gradientAtZero wf isam thr replacedKeys deltaNewton RgProd r h
    unfold UpdateDoglegDeltas at h
    simp only at h
    cases hl : doglegLoop product wf thr replacedKeys (gradientAtZero isam) isam
        ((RgProd, 0), deltaNewton) with
    | error e => simp [hl] at h
    | ok st =>
      obtain ⟨⟨R1, n⟩, d1⟩ := st
      simp only [hl, Except.ok.injEq] at h
      rw [← h]
/-- Witness of C18: a wildfire call with the replaced key `x2` and the threshold `1`. -/
theorem replacedKeys_cleared_witness :
    UpdateDelta debugFlags false zeroSolve noWildfire [scenarioRoot] {2} scenarioDelta
        (.fin 1) = .ok (0, ∅, scenarioDelta) ∧
      ((0, ∅, scenarioDelta) : Nat × FastSet × VectorValues).2.1 = ∅ :=
  have h : UpdateDelta debugFlags false zeroSolve noWildfire [scenarioRoot] {2} scenarioDelta
      (.fin 1) = .ok (0, ∅, scenarioDelta) := by
    have hthr : ¬ (Double.fin 1 ≤ 0) := by
      show ¬ (Double.fin 1 ≤ Double.fin 0)
      rw [Double.fin_le_fin]
      norm_num
    simp [UpdateDelta, hthr, wildfireLoop, noWildfire, debugFlags]
  ⟨h, replacedKeys_cleared.1 debugFlags false zeroSolve noWildfire [scenarioRoot] {2}
    scenarioDelta (.fin 1) _ h⟩

/-! ### Dogleg deltas -/

theorem lookup_map_assign_self (j : Key) (v : Vector) :
    ∀ (store : VectorValues),
      List.lookup j (store.map (fun kv => if kv.1 = j then (kv.1, v) else kv)) =
        (List.lookup j store).map (fun _ => v)
  | [] => rfl
  | (a, b) :: rest => by
    have ih := lookup_map_assign_self j v rest
    by_cases ha : a = j
    · subst ha
      simp
    · have hb : (j == a) = false := by simpa using (fun e : j = a => ha e.symm)
      simp only [List.map_cons, if_neg ha, List.lookup_cons, hb]
      exact ih

theorem find_assign_self (store store1 : VectorValues) (j : Key) (v : Vector)
    (h : store.assign j v = .ok store1) : store1.find j = some v := by
  unfold VectorValues.assign at h
  cases hf : store.find j with
  | none => simp [hf] at h
  | some d =>
    simp only [hf, Except.ok.injEq] at h
    rw [← h]
    unfold VectorValues.find at hf ⊢
    rw [lookup_map_assign_self, hf]
    rfl

theorem segment_ok (v : Vector) (start n : Nat) (h : start + n ≤ v.rows) :
    ∃ seg, v.segment start n = .ok seg ∧ seg.rows = n := by
  refine ⟨(v.drop start).take n, by simp [Vector.segment, h], ?_⟩
  simp only [Vector.rows, List.length_take, List.length_drop] at h ⊢
  omega

theorem vector_ok (grad : VectorValues) :
    ∀ (ks : List Key), (∀ k ∈ ks, ∃ v, grad.find k = some v) →
      ∃ w, grad.vector ks = .ok w ∧ w.rows = dims grad ks
  | [], _ => ⟨[], rfl, rfl⟩
  | j :: rest, h => by
    obtain ⟨v, hv⟩ := h j (List.mem_cons_self _ _)
    obtain ⟨w, hw, hr⟩ := vector_ok grad rest (fun k hk => h k (List.mem_cons_of_mem _ hk))
    refine ⟨v ++ w, by simp [VectorValues.vector, VectorValues.at, hv, hw], ?_⟩
    simp only [Vector.rows, List.length_append] at hr ⊢
    simp [dims, rowsAt, hv, Vector.rows, hr]

theorem dims_congr (R S : VectorValues) (ks : List Key)
    (h : ∀ k ∈ ks, rowsAt R k = rowsAt S k) : dims R ks = dims S ks := by
  unfold dims
  rw [List.map_congr_left h]

theorem scatterLoop_ok (v : Vector) :
    ∀ (ks : List Key) (R : VectorValues) (pos : Nat),
      (∀ k ∈ ks, ∃ d, R.find k = some d) → pos + dims R ks ≤ v.rows →
      ∃ R1, scatterLoop v ks (R, pos) = .ok (R1, pos + dims R ks) ∧
        ∀ k, (R1.find k).map Vector.rows = (R.find k).map Vector.rows
  | [], R, pos, _, _ => ⟨R, by simp [scatterLoop, dims], fun _ => rfl⟩
  | j :: rest, R, pos, h, hlen => by
    obtain ⟨d, hd⟩ := h j (List.mem_cons_self _ _)
    have hdims : dims R (j :: rest) = d.rows + dims R rest := by
      simp [dims, rowsAt, hd]
    rw [hdims] at hlen
    obtain ⟨seg, hseg, hsr⟩ := segment_ok v pos d.rows (by omega)
    obtain ⟨R', hR'⟩ := assign_ok R j seg d hd
    have hsame : ∀ k, (R'.find k).map Vector.rows = (R.find k).map Vector.rows := by
      intro k
      by_cases hk : k = j
      · subst hk
        rw [find_assign_self R R' k seg hR', hd]
        simp [hsr]
      · rw [find_assign_ne R R' j k seg hR' hk]
    have hrows : ∀ k, rowsAt R' k = rowsAt R k := fun k => by
      unfold rowsAt
      rw [hsame k]
    have hd' : dims R' rest = dims R rest := dims_congr _ _ _ (fun k _ => hrows k)
    obtain ⟨R1, hR1, hs1⟩ := scatterLoop_ok v rest R' (pos + d.rows)
      (fun k hk => by
        obtain ⟨dk, hdk⟩ := h k (List.mem_cons_of_mem _ hk)
        have := hsame k
        rw [hdk] at this
        cases hf : R'.find k with
        | none => simp [hf] at this
        | some x => exact ⟨x, rfl⟩)
      (by rw [hd']; omega)
    refine ⟨R1, ?_, fun k => (hs1 k).trans (hsame k)⟩
    simp only [scatterLoop, VectorValues.at, hd, hseg, hR', hR1, hdims, hd']
    rw [Nat.add_assoc]
theorem matches_transfer (R R1 grad : VectorValues)
    (hs : ∀ k, (R1.find k).map Vector.rows = (R.find k).map Vector.rows) (k : Key)
    (h : ∃ v w, R.find k = some v ∧ grad.find k = some w ∧ v.rows = w.rows) :
    ∃ v w, R1.find k = some v ∧ grad.find k = some w ∧ v.rows = w.rows := by
  obtain ⟨v, w, hv, hw, hr⟩ := h
  have := hs k
  rw [hv] at this
  cases hf : R1.find k with
  | none => simp [hf] at this
  | some x =>
    rw [hf] at this
    simp only [Option.map_some', Option.some.injEq] at this
    exact ⟨x, w, rfl, hw, this.trans hr⟩

theorem frontalCount_cons (c : ISAM2Clique) (l : List ISAM2Clique) :
    frontalCount (c :: l) = c.frontals.length + frontalCount l := by
  simp [frontalCount]

theorem frontalCount_append (l m : List ISAM2Clique) :
    frontalCount (l ++ m) = frontalCount l + frontalCount m := by
  simp [frontalCount]

mutual
theorem updateDoglegDeltas_ok (product : ISAM2Clique → Vector → Vector → Vector)
    (replaced : FastSet) (grad : VectorValues)
    (hprod : ∀ c gR gS, (product c gR gS).rows = gR.rows) :
    ∀ (c : ISAM2Clique) (R : VectorValues) (n : Nat),
      (∀ k ∈ c.allKeys, ∃ v, grad.find k = some v) →
      (∀ k ∈ c.allFrontals, ∃ v w, R.find k = some v ∧ grad.find k = some w ∧
        v.rows = w.rows) →
      ∃ R1, updateDoglegDeltas product replaced grad c (R, n) =
          .ok (R1, n + frontalCount (refreshed replaced c)) ∧
        ∀ k, (R1.find k).map Vector.rows = (R.find k).map Vector.rows
  | .mk f p ch, R, n, hg, hR => by
    cases hany : (f ++ p).any (fun j => decide (j ∈ replaced)) with
    | false =>
      refine ⟨R, ?_, fun _ => rfl⟩
      simp [updateDoglegDeltas, refreshed, hany, frontalCount]
    | true =>
      have hgf : ∀ k ∈ f, ∃ v, grad.find k = some v := fun k hk => hg k (by
        rw [ISAM2Clique.allKeys]
        exact List.mem_append_left _ (List.mem_append_left _ hk))
      have hgp : ∀ k ∈ p, ∃ v, grad.find k = some v := fun k hk => hg k (by
        rw [ISAM2Clique.allKeys]
        exact List.mem_append_left _ (List.mem_append_right _ hk))
      have hRf : ∀ k ∈ f, ∃ v w, R.find k = some v ∧ grad.find k = some w ∧
          v.rows = w.rows := fun k hk => hR k (by
        rw [ISAM2Clique.allFrontals]
        exact List.mem_append_left _ hk)
      obtain ⟨gR, hgR, hgRr⟩ := vector_ok grad f hgf
      obtain ⟨gS, hgS, _⟩ := vector_ok grad p hgp
      have hdims : dims R f = dims grad f := dims_congr _ _ _ (fun k hk => by
        obtain ⟨v, w, hv, hw, hr⟩ := hRf k hk
        simp [rowsAt, hv, hw, hr])
      obtain ⟨R', hR', hs'⟩ := scatterLoop_ok (product (.mk f p ch) gR gS) f R 0
        (fun k hk => by
          obtain ⟨v, _, hv, _, _⟩ := hRf k hk
          exact ⟨v, hv⟩)
        (by rw [hprod, hgRr, hdims]; omega)
      obtain ⟨R1, hR1, hs1⟩ := updateDoglegDeltasChildren_ok product replaced grad hprod ch R'
        (n + f.length)
        (fun k hk => hg k (by
          rw [ISAM2Clique.allKeys]
          exact List.mem_append_right _ hk))
        (fun k hk => matches_transfer R R' grad hs' k (hR k (by
          rw [ISAM2Clique.allFrontals]
          exact List.mem_append_right _ hk)))
      refine ⟨R1, ?_, fun k => (hs1 k).trans (hs' k)⟩
      simp only [updateDoglegDeltas, hany, if_true, hgR, hgS, hR', hR1, refreshed,
        frontalCount_cons, ISAM2Clique.frontals]
      rw [Nat.add_assoc]
theorem updateDoglegDeltasChildren_ok (product : ISAM2Clique → Vector → Vector → Vector)
    (replaced : FastSet) (grad : VectorValues)
    (hprod : ∀ c gR gS, (product c gR gS).rows = gR.rows) :
    ∀ (cs : List ISAM2Clique) (R : VectorValues) (n : Nat),
      (∀ k ∈ allKeysList cs, ∃ v, grad.find k = some v) →
      (∀ k ∈ allFrontalsList cs, ∃ v w, R.find k = some v ∧ grad.find k = some w ∧
        v.rows = w.rows) →
      ∃ R1, updateDoglegDeltasChildren product replaced grad cs (R, n) =
          .ok (R1, n + frontalCount (refreshedList replaced cs)) ∧
        ∀ k, (R1.find k).map Vector.rows = (R.find k).map Vector.rows
  | [], R, n, _, _ =>
    ⟨R, by simp [updateDoglegDeltasChildren, refreshedList, frontalCount], fun _ => rfl⟩
  | c :: rest, R, n, hg, hR => by
    obtain ⟨R', hR', hs'⟩ := updateDoglegDeltas_ok product replaced grad hprod c R n
      (fun k hk => hg k (by
        rw [allKeysList]
        exact List.mem_append_left _ hk))
      (fun k hk => hR k (by
        rw [allFrontalsList]
        exact List.mem_append_left _ hk))
    obtain ⟨R1, hR1, hs1⟩ := updateDoglegDeltasChildren_ok product replaced grad hprod rest R'
      (n + frontalCount (refreshed replaced c))
      (fun k hk => hg k (by
        rw [allKeysList]
        exact List.mem_append_right _ hk))
      (fun k hk => matches_transfer R R' grad hs' k (hR k (by
        rw [allFrontalsList]
        exact List.mem_append_right _ hk)))
    refine ⟨R1, ?_, fun k => (hs1 k).trans (hs' k)⟩
    simp only [updateDoglegDeltasChildren, hR', hR1, refreshedList, frontalCount_append]
    rw [Nat.add_assoc]
end

theorem doglegLoop_ok (product : ISAM2Clique → Vector → Vector → Vector)
    (wf : ISAM2Clique → Double → FastSet → VectorValues → Nat × VectorValues)
    (thr : Double) (replaced : FastSet) (grad : VectorValues)
    (hprod : ∀ c gR gS, (product c gR gS).rows = gR.rows) :
    ∀ (roots : List ISAM2Clique) (R : VectorValues) (n : Nat) (deltaNewton : VectorValues),
      (∀ k ∈ allKeysList roots, ∃ v, grad.find k = some v) →
      (∀ k ∈ allFrontalsList roots, ∃ v w, R.find k = some v ∧ grad.find k = some w ∧
        v.rows = w.rows) →
      ∃ R1 d1, doglegLoop product wf thr replaced grad roots ((R, n), deltaNewton) =
        .ok ((R1, n + frontalCount (refreshedList replaced roots)), d1)
  | [], R, n, d, _, _ => ⟨R, d, by simp [doglegLoop, refreshedList, frontalCount]⟩
  | c :: rest, R, n, d, hg, hR => by
    obtain ⟨R', hR', hs'⟩ := updateDoglegDeltas_ok product replaced grad hprod c R n
      (fun k hk => hg k (by
        rw [allKeysList]
        exact List.mem_append_left _ hk))
      (fun k hk => hR k (by
        rw [allFrontalsList]
        exact List.mem_append_left _ hk))
    obtain ⟨R1, d1, hR1⟩ := doglegLoop_ok product wf thr replaced grad hprod rest R'
      (n + frontalCount (refreshed replaced c)) (wf c thr replaced d).2
      (fun k hk => hg k (by
        rw [allKeysList]
        exact List.mem_append_right _ hk))
      (fun k hk => matches_transfer R R' grad hs' k (hR k (by
        rw [allFrontalsList]
        exact List.mem_append_right _ hk)))
    refine ⟨R1, d1, ?_⟩
    simp only [doglegLoop, hR', hR1, refreshedList, frontalCount_append]
    rw [Nat.add_assoc]

mutual
theorem mem_refreshed (replaced : FastSet) (d : ISAM2Clique) :
    ∀ (c : ISAM2Clique), d ∈ refreshed replaced c ↔
      Reached (fun j => decide (j ∈ replaced)) c d ∧ ∃ k ∈ d.keys, k ∈ replaced
  | .mk f p ch => by
    have hflag : (f ++ p).any (fun j => decide (j ∈ replaced)) = true ↔
        ∃ k ∈ f ++ p, k ∈ replaced := by
      rw [List.any_eq_true]
      simp only [decide_eq_true_eq]
    have hflag' : (∃ k ∈ f ++ p, (fun j => decide (j ∈ replaced)) k = true) ↔
        ∃ k ∈ f ++ p, k ∈ replaced := by
      simp only [decide_eq_true_eq]
    rw [refreshed, reached_mk, hflag']
    by_cases hany : (f ++ p).any (fun j => decide (j ∈ replaced)) = true
    · rw [if_pos hany, List.mem_cons, mem_refreshedList replaced d ch]
      have hex := hflag.1 hany
      constructor
      · rintro (rfl | ⟨c, hc, hr, hk⟩)
        · exact ⟨Or.inl rfl, hex⟩
        · exact ⟨Or.inr ⟨hex, c, hc, hr⟩, hk⟩
      · rintro ⟨(rfl | ⟨_, c, hc, hr⟩), hk⟩
        · exact Or.inl rfl
        · exact Or.inr ⟨c, hc, hr, hk⟩
    · rw [if_neg hany]
      have hno : ¬ ∃ k ∈ f ++ p, k ∈ replaced := fun h => hany (hflag.2 h)
      constructor
      · intro h
        simp at h
      · rintro ⟨(rfl | ⟨hex, _⟩), hk⟩
        · exact absurd hk hno
        · exact absurd hex hno
theorem mem_refreshedList (replaced : FastSet) (d : ISAM2Clique) :
    ∀ (cs : List ISAM2Clique), d ∈ refreshedList replaced cs ↔
      ∃ c ∈ cs,
        Reached (fun j => decide (j ∈ replaced)) c d ∧ ∃ k ∈ d.keys, k ∈ replaced
  | [] => by simp [refreshedList]
  | c :: rest => by
    rw [refreshedList, List.mem_append, mem_refreshed replaced d c,
      mem_refreshedList replaced d rest]
    constructor
    · rintro (h | ⟨c', hc', h⟩)
      · exact ⟨c, List.mem_cons_self _ _, h⟩
      · exact ⟨c', List.mem_cons_of_mem _ hc', h⟩
    · rintro ⟨c', hc', h⟩
      rcases List.mem_cons.1 hc' with rfl | hc''
      · exact Or.inl h
      · exact Or.inr ⟨c', hc'', h⟩
end

/-- C19: when the gradient holds every key of the forest, `RgProd` holds every frontal key of
the forest with a vector of the length of the key's gradient, and the product for a clique has
the length of its frontal gradient, `UpdateDoglegDeltas` returns the sum of the numbers of
frontal keys of the refreshed cliques: the cliques that hold a replaced key among their frontal
and separator keys and all of whose ancestors do.  With no replaced key that is `0`. -/
theorem UpdateDoglegDeltas_count (product : ISAM2Clique → Vector → Vector → Vector)
    (gradientAtZero : List ISAM2Clique → VectorValues)
    (optimizeWildfireNonRecursive :
      ISAM2Clique → Double → FastSet → VectorValues → Nat × VectorValues)
    (isam : List ISAM2Clique) (wildfireThreshold : Double) (replacedKeys : FastSet)
    (deltaNewton RgProd : VectorValues)
    (hprod : ∀ c gR gS, (product c gR gS).rows = gR.rows)
    (hgrad : ∀ k ∈ allKeysList isam, ∃ v, (gradientAtZero isam).find k = some v)
    (hRg : ∀ k ∈ allFrontalsList isam, ∃ v w, RgProd.find k = some v ∧
      (gradientAtZero isam).find k = some w ∧ v.rows = w.rows) :
    (∃ deltaNewton1 RgProd1,
      UpdateDoglegDeltas product gradientAtZero optimizeWildfireNonRecursive isam
          wildfireThreshold replacedKeys deltaNewton RgProd =
        .ok (frontalCount (refreshedList replacedKeys isam), ∅, deltaNewton1, RgProd1)) ∧
    (∀ d, d ∈ refreshedList replacedKeys isam ↔
      ∃ r ∈ isam, Reached (fun j => decide (j ∈ replacedKeys)) r d ∧
        ∃ k ∈ d.keys, k ∈ replacedKeys) ∧
    (replacedKeys = ∅ → frontalCount (refreshedList replacedKeys isam) = 0) := by
  refine ⟨?_, fun d => mem_refreshedList replacedKeys d isam, ?_⟩
  · obtain ⟨R1, d1, h⟩ := doglegLoop_ok product optimizeWildfireNonRecursive wildfireThreshold
      replacedKeys (gradientAtZero isam) hprod isam RgProd 0 deltaNewton hgrad hRg
    exact ⟨d1, R1, by simp [UpdateDoglegDeltas, h]⟩
  · intro hempty
    have hnil : refreshedList replacedKeys isam = [] := by
      apply List.eq_nil_iff_forall_not_mem.2
      intro d hd
      obtain ⟨_, _, _, k, _, hk⟩ := (mem_refreshedList replacedKeys d isam).1 hd
      rw [hempty] at hk
      simp at hk
    rw [hnil]
    rfl

/-- Witness of C19: the chain with the replaced key `x1`, which the root and the middle
clique hold and the leaf does not: two frontal keys are refreshed. -/
theorem UpdateDoglegDeltas_count_witness :
    ((∃ deltaNewton1 RgProd1,
      UpdateDoglegDeltas identityProduct chainGradient noWildfire [chainRoot] 0 {1}
          chainDelta chainDelta =
        .ok (frontalCount (refreshedList {1} [chainRoot]), ∅, deltaNewton1, RgProd1)) ∧
    (∀ d, d ∈ refreshedList {1} [chainRoot] ↔
      ∃ r ∈ [chainRoot], Reached (fun j => decide (j ∈ ({1} : FastSet))) r d ∧
        ∃ k ∈ d.keys, k ∈ ({1} : FastSet)) ∧
    (({1} : FastSet) = ∅ → frontalCount (refreshedList {1} [chainRoot]) = 0)) ∧
    frontalCount (refreshedList {1} [chainRoot]) = 2 :=
  ⟨UpdateDoglegDeltas_count identityProduct chainGradient noWildfire [chainRoot] 0 {1}
    chainDelta chainDelta (fun _ _ _ => rfl)
    (fun k hk => Option.isSome_iff_exists.1
      ((by decide : ∀ k ∈ allKeysList [chainRoot],
        ((chainGradient [chainRoot]).find k).isSome = true) k hk))
    (by
      intro k hk
      have hk' : k = 1 ∨ k = 2 ∨ k = 3 := by
        revert k
        decide
      rcases hk' with rfl | rfl | rfl
      · exact ⟨_, _, rfl, rfl, rfl⟩
      · exact ⟨_, _, rfl, rfl, rfl⟩
      · exact ⟨_, _, rfl, rfl, rfl⟩),
    by decide⟩
/-! ### Errors of the partial scan -/

theorem scanKeys_error_source (test : Key → Except Error Bool) :
    ∀ (ks : List Key) (st : FastSet × Bool) (e : Error), scanKeys test ks st = .error e →
      ∃ k ∈ ks, test k = .error e
  | [], st, e, h => by simp [scanKeys] at h
  | var :: rest, (S, r), e, h => by
    cases ht : test var with
    | error e1 =>
      simp only [scanKeys, ht, Except.error.injEq] at h
      exact ⟨var, List.mem_cons_self _ _, by rw [ht, h]⟩
    | ok b =>
      cases b with
      | true =>
        simp only [scanKeys, ht] at h
        obtain ⟨k, hk, hke⟩ := scanKeys_error_source test rest _ e h
        exact ⟨k, List.mem_cons_of_mem _ hk, hke⟩
      | false =>
        simp only [scanKeys, ht] at h
        obtain ⟨k, hk, hke⟩ := scanKeys_error_source test rest _ e h
        exact ⟨k, List.mem_cons_of_mem _ hk, hke⟩

theorem scanKeys_error (test : Key → Except Error Bool) :
    ∀ (ks : List Key) (st : FastSet × Bool), (∃ k ∈ ks, ∃ e, test k = .error e) →
      ∃ e, scanKeys test ks st = .error e
  | [], _, h => by
    obtain ⟨k, hk, _⟩ := h
    simp at hk
  | var :: rest, (S, r), h => by
    cases ht : test var with
    | error e1 => exact ⟨e1, by simp [scanKeys, ht]⟩
    | ok b =>
      have hrest : ∃ k ∈ rest, ∃ e, test k = .error e := by
        obtain ⟨k, hk, e, he⟩ := h
        rcases List.mem_cons.1 hk with rfl | hk'
        · rw [ht] at he
          cases he
        · exact ⟨k, hk', e, he⟩
      cases b with
      | true =>
        obtain ⟨e, he⟩ := scanKeys_error test rest (insert var S, true) hrest
        exact ⟨e, by simp [scanKeys, ht, he]⟩
      | false =>
        obtain ⟨e, he⟩ := scanKeys_error test rest (S, r) hrest
        exact ⟨e, by simp [scanKeys, ht, he]⟩

mutual
theorem scan_error_source (test : Key → Except Error Bool) :
    ∀ (c : ISAM2Clique) (S : FastSet) (e : Error), scan test S c = .error e →
      ∃ k ∈ c.allKeys, test k = .error e
  | .mk f p ch, S, e, h => by
    rw [scan] at h
    cases hk : scanKeys test (f ++ p) (S, false) with
    | error e1 =>
      simp only [hk, Except.error.injEq] at h
      obtain ⟨k, hkm, hke⟩ := scanKeys_error_source test (f ++ p) _ e1 hk
      exact ⟨k, by rw [ISAM2Clique.allKeys]; exact List.mem_append_left _ hkm, h ▸ hke⟩
    | ok st =>
      obtain ⟨S1, r⟩ := st
      simp only [hk] at h
      cases r with
      | false => simp at h
      | true =>
        simp only [if_true] at h
        obtain ⟨k, hkm, hke⟩ := scanChildren_error_source test ch S1 e h
        exact ⟨k, by rw [ISAM2Clique.allKeys]; exact List.mem_append_right _ hkm, hke⟩
theorem scanChildren_error_source (test : Key → Except Error Bool) :
    ∀ (cs : List ISAM2Clique) (S : FastSet) (e : Error), scanChildren test S cs = .error e →
      ∃ k ∈ allKeysList cs, test k = .error e
  | [], S, e, h => by simp [scanChildren] at h
  | c :: rest, S, e, h => by
    rw [scanChildren] at h
    cases hc : scan test S c with
    | error e1 =>
      simp only [hc, Except.error.injEq] at h
      obtain ⟨k, hkm, hke⟩ := scan_error_source test c S e1 hc
      exact ⟨k, by rw [allKeysList]; exact List.mem_append_left _ hkm, h ▸ hke⟩
    | ok S1 =>
      simp only [hc] at h
      obtain ⟨k, hkm, hke⟩ := scanChildren_error_source test rest S1 e h
      exact ⟨k, by rw [allKeysList]; exact List.mem_append_right _ hkm, hke⟩
end

mutual
theorem scan_error_of_reached (test : Key → Except Error Bool) (flag : Key → Bool)
    (hflag : ∀ k b, test k = .ok b → flag k = b) :
    ∀ (c : ISAM2Clique) (S : FastSet),
      (∃ d, Reached flag c d ∧ ∃ k ∈ d.keys, ∃ e, test k = .error e) →
      ∃ e, scan test S c = .error e
  | .mk f p ch, S, h => by
    by_cases herr : ∃ k ∈ f ++ p, ∃ e, test k = .error e
    · obtain ⟨e, he⟩ := scanKeys_error test (f ++ p) (S, false) herr
      exact ⟨e, by simp [scan, he]⟩
    · have hok : ∀ k ∈ f ++ p, test k = .ok (flag k) := by
        intro k hk
        cases ht : test k with
        | error e => exact absurd ⟨k, hk, e, ht⟩ herr
        | ok b => rw [hflag k b ht]
      have hkeys := scanKeys_ok test flag (f ++ p) S false hok
      obtain ⟨d, hd, hkd⟩ := h
      rcases (reached_mk flag f p ch d).1 hd with rfl | ⟨hex, c, hc, hr⟩
      · exact absurd hkd herr
      · have hany : (f ++ p).any flag = true := List.any_eq_true.2 hex
        obtain ⟨e, he⟩ := scanChildren_error_of_reached test flag hflag ch
          (S ∪ ((f ++ p).filter flag).toFinset) ⟨c, hc, d, hr, hkd⟩
        exact ⟨e, by simp only [scan, hkeys, hany, Bool.or_true, if_true, he]⟩
theorem scanChildren_error_of_reached (test : Key → Except Error Bool) (flag : Key → Bool)
    (hflag : ∀ k b, test k = .ok b → flag k = b) :
    ∀ (cs : List ISAM2Clique) (S : FastSet),
      (∃ c ∈ cs, ∃ d, Reached flag c d ∧ ∃ k ∈ d.keys, ∃ e, test k = .error e) →
      ∃ e, scanChildren test S cs = .error e
  | [], _, h => by
    obtain ⟨c, hc, _⟩ := h
    simp at hc
  | c :: rest, S, h => by
    cases hs : scan test S c with
    | error e => exact ⟨e, by simp [scanChildren, hs]⟩
    | ok S1 =>
      obtain ⟨c', hc', hd⟩ := h
      rcases List.mem_cons.1 hc' with rfl | hc''
      · obtain ⟨e, he⟩ := scan_error_of_reached test flag hflag c' S hd
        rw [hs] at he
        cases he
      · obtain ⟨e, he⟩ :=
          scanChildren_error_of_reached test flag hflag rest S1 ⟨c', hc'', hd⟩
        exact ⟨e, by simp [scanChildren, hs, he]⟩
end

theorem testMap_cases (chr : Key → Char) (m : FastMap) (delta : VectorValues) (k : Key)
    (v th : Vector) (hv : delta.find k = some v) (hth : List.lookup (chr k) m = some th) :
    testMap chr m delta k =
      if th.length ≠ v.length then
        .error (.invalid_argument (dimensionalityMessage (chr k)))
      else .ok (v.anyAbsGt th) := by
  simp [testMap, FastMap.findSecond, hth, VectorValues.at, hv, Vector.rows]

/-- C20, as stated, fails: in the scenario's forest the key `x2` of the child clique has a
threshold vector of length two and a delta vector of length three, but the root's key `x1` is
below its threshold, the child is never visited and the partial scan returns the empty set. -/
theorem CheckRelinearizationPartial_mismatch_counterexample :
    CheckRelinearizationPartial exampleChr [scenarioRoot] prunedDelta
        (.perType exampleThresholds) = .ok ∅ ∧
      2 ∈ allKeysList [scenarioRoot] ∧
      List.lookup (exampleChr 2) exampleThresholds = some [.fin (1 / 10), .fin (1 / 10)] ∧
      prunedDelta.find 2 = some [.fin 0, .fin 0, .fin 0] := by
  refine ⟨?_, by decide, rfl, rfl⟩
  simp [CheckRelinearizationPartial, rootsLoop, CheckRelinearizationRecursive, scenarioRoot,
    scenarioChild, CheckRelinearizationRecursiveMap, cliqueLoopMap, prunedDelta, exampleChr,
    exampleThresholds, FastMap.findSecond, VectorValues.at, VectorValues.find, List.lookup,
    Vector.rows, Vector.anyAbsGt, Double.abs]
  norm_num [Double.fin_le_fin, Double.fin_lt_fin]

/-- C20, amended: when the delta store holds every key of the forest and the threshold map an
entry for the type tag of each, and some key of a clique that the traversal reaches (a root, or
a clique all of whose ancestors hold a key that exceeds its threshold) has a threshold vector
and a delta vector of different lengths, `CheckRelinearizationPartial` throws
`std::invalid_argument` with the message that names the type tag of such a key of the
forest. -/
theorem CheckRelinearizationPartial_invalid_argument (chr : Key → Char)
    (roots : List ISAM2Clique) (delta : VectorValues) (thresholds : FastMap)
    (hentry : ∀ k ∈ allKeysList roots, ∃ v, delta.find k = some v)
    (htag : ∀ k ∈ allKeysList roots, ∃ th, List.lookup (chr k) thresholds = some th)
    (hmis : ∃ r ∈ roots, ∃ d, Reached (satisfies chr delta (.perType thresholds)) r d ∧
      ∃ k ∈ d.keys, ∃ th v, List.lookup (chr k) thresholds = some th ∧
        delta.find k = some v ∧ th.length ≠ v.length) :
    ∃ k ∈ allKeysList roots,
      (∃ th v, List.lookup (chr k) thresholds = some th ∧ delta.find k = some v ∧
        th.length ≠ v.length) ∧
      CheckRelinearizationPartial chr roots delta (.perType thresholds) =
        .error (.invalid_argument (dimensionalityMessage (chr k))) := by
  have hflag : ∀ k b, keyTest chr delta (.perType thresholds) k = .ok b →
      satisfies chr delta (.perType thresholds) k = b := by
    intro k b h
    simp [satisfies, h]
  obtain ⟨e, he⟩ := scanChildren_error_of_reached (keyTest chr delta (.perType thresholds))
    (satisfies chr delta (.perType thresholds)) hflag roots ∅ (by
      obtain ⟨r, hr, d, hd, k, hk, th, v, hth, hv, hne⟩ := hmis
      refine ⟨r, hr, d, hd, k, hk,
        .invalid_argument (dimensionalityMessage (chr k)), ?_⟩
      show testMap chr thresholds delta k = _
      rw [testMap_cases chr thresholds delta k v th hv hth, if_pos hne])
  obtain ⟨k, hk, hke⟩ := scanChildren_error_source _ roots ∅ e he
  obtain ⟨v, hv⟩ := hentry k hk
  obtain ⟨th, hth⟩ := htag k hk
  have hcase : testMap chr thresholds delta k = .error e := hke
  rw [testMap_cases chr thresholds delta k v th hv hth] at hcase
  by_cases hne : th.length ≠ v.length
  · rw [if_pos hne] at hcase
    refine ⟨k, hk, ⟨th, v, hth, hv, hne⟩, ?_⟩
    rw [CheckRelinearizationPartial, rootsLoop_eq, he]
    have he' : e = .invalid_argument (dimensionalityMessage (chr k)) :=
      (Except.error.inj hcase).symm
    rw [he']
  · rw [if_neg hne] at hcase
    cases hcase

/-- Witness of C20, amended: in the scenario's forest `x1` exceeds its threshold, so the child
is visited, and its key `x2` has a delta vector of three dimensions. -/
theorem CheckRelinearizationPartial_invalid_argument_witness :
    ∃ k ∈ allKeysList [scenarioRoot],
      (∃ th v, List.lookup (exampleChr k) exampleThresholds = some th ∧
        reachedDelta.find k = some v ∧ th.length ≠ v.length) ∧
      CheckRelinearizationPartial exampleChr [scenarioRoot] reachedDelta
          (.perType exampleThresholds) =
        .error (.invalid_argument (dimensionalityMessage (exampleChr k))) :=
  CheckRelinearizationPartial_invalid_argument exampleChr [scenarioRoot] reachedDelta
    exampleThresholds
    (fun k hk => Option.isSome_iff_exists.1
      ((by decide : ∀ k ∈ allKeysList [scenarioRoot],
        (reachedDelta.find k).isSome = true) k hk))
    (fun k hk => Option.isSome_iff_exists.1
      ((by decide : ∀ k ∈ allKeysList [scenarioRoot],
        (List.lookup (exampleChr k) exampleThresholds).isSome = true) k hk))
    ⟨scenarioRoot, List.mem_singleton.2 rfl, scenarioChild,
      Reached.descend ⟨1, by decide, by
        simp [satisfies, keyTest, testMap, exampleChr, exampleThresholds, reachedDelta,
          FastMap.findSecond, VectorValues.at, VectorValues.find, List.lookup, Vector.rows,
          Vector.anyAbsGt, Double.abs]
        norm_num [Double.fin_le_fin, Double.fin_lt_fin]⟩
        (List.mem_singleton.2 rfl) (Reached.here _),
      2, by decide, [.fin (1 / 10), .fin (1 / 10)], [.fin 0, .fin 0, .fin 0],
      rfl, rfl, by decide⟩

/-! ### Marked-subtree key collection with an empty marked set -/

/-- C21: with an empty marked set and an empty key set, `FindAll` leaves the key set empty for
every clique tree, and so does the loop that calls `FindAll` for each root of a forest in turn
with the same key set. -/
theorem FindAll_empty :
    (∀ root : ISAM2Clique, FindAll ∅ root ∅ = ∅) ∧
      ∀ roots : List ISAM2Clique, FindAllChildren ∅ roots ∅ = ∅ := by
  constructor
  · intro root
    ext k
    rw [FindAll_mem]
    constructor
    · rintro (h | ⟨_, _, ⟨s, _, hs⟩, _⟩)
      · exact h
      · exact absurd hs (Finset.not_mem_empty s)
    · intro h
      exact Or.inl h
  · intro roots
    ext k
    rw [FindAllChildren_mem]
    constructor
    · rintro (h | ⟨_, _, _, _, ⟨s, _, hs⟩, _⟩)
      · exact h
      · exact absurd hs (Finset.not_mem_empty s)
    · intro h
      exact Or.inl h
/-! ### Masked retraction: what is invalidated -/

theorem poison_nil (mask : FastSet) (ref store : VectorValues) :
    poison mask [] ref store = store := by
  simp [poison]

theorem poison_cons_not_mem (mask : FastSet) (var : Key) (keys : List Key)
    (ref store : VectorValues) (h : var ∉ mask) :
    poison mask (var :: keys) ref store = poison mask keys ref store := by
  unfold poison
  apply List.map_congr_left
  intro kv _
  by_cases hk : kv.1 = var
  · have : kv.1 ∉ mask := hk ▸ h
    simp [this]
  · simp [hk]

theorem constant_rows (n : Nat) (x : Double) : (Vector.Constant n x).rows = n := by
  simp [Vector.Constant, Vector.rows]

theorem rowsAt_assign_constant (store store1 : VectorValues) (var : Key) (d : Vector)
    (x : Double) (hd : store.find var = some d)
    (h : store.assign var (Vector.Constant d.rows x) = .ok store1) (k : Key) :
    rowsAt store1 k = rowsAt store k := by
  unfold rowsAt
  by_cases hk : k = var
  · subst hk
    rw [find_assign_self store store1 k _ h, hd]
    simp [constant_rows]
  · rw [find_assign_ne store store1 var k _ h hk]

theorem assign_eq_map (store store1 : VectorValues) (j : Key) (v : Vector)
    (h : store.assign j v = .ok store1) :
    store1 = store.map (fun kv => if kv.1 = j then (kv.1, v) else kv) := by
  unfold VectorValues.assign at h
  cases hf : store.find j with
  | none => simp [hf] at h
  | some d =>
    simp only [hf, Except.ok.injEq] at h
    exact h.symm

theorem poison_step (mask : FastSet) (var : Key) (keys : List Key)
    (ref ref1 store : VectorValues) (hvar : var ∈ mask)
    (href : ∀ k, rowsAt ref1 k = rowsAt ref k) :
    poison mask keys ref1
        (store.map (fun kv =>
          if kv.1 = var then (kv.1, Vector.Constant (rowsAt ref var) .posInf) else kv)) =
      poison mask (var :: keys) ref store := by
  unfold poison
  rw [List.map_map]
  apply List.map_congr_left
  intro kv _
  by_cases hk : kv.1 = var
  · by_cases hin : var ∈ keys
    · simp [hk, hvar, hin, href]
    · simp [hk, hvar, hin]
  · simp [hk, href]

theorem expmapLoop_invalidates {V : Type} (flags : BuildFlags) (retract : V → Vector → V)
    (dim : V → Nat) (mask : FastSet) :
    ∀ (vs : Values V) (ks : List Key) (delta : VectorValues) (inv : Invalidate)
      (vs1 : Values V) (delta1 : VectorValues) (inv1 : Invalidate),
      expmapLoop flags retract dim mask vs ks delta inv = .ok (vs1, delta1, inv1) →
      match inv with
      | .none => delta1 = delta ∧ inv1 = .none
      | .delta => delta1 = poison mask (vs.map Prod.fst) delta delta ∧ inv1 = .delta
      | .other s =>
        delta1 = delta ∧ inv1 = .other (poison mask (vs.map Prod.fst) delta s)
  | [], ks, delta, inv, vs1, delta1, inv1, h => by
    simp only [expmapLoop, Except.ok.injEq, Prod.mk.injEq] at h
    obtain ⟨_, rfl, rfl⟩ := h
    cases inv <;> simp [poison_nil]
  | (var, value) :: rest, ks, delta, inv, vs1, delta1, inv1, h => by
    rw [expmapLoop] at h
    cases hassert : expmapAsserts flags dim var value ks delta with
    | error e => simp [hassert] at h
    | ok u =>
      simp only [hassert] at h
      by_cases hm : var ∈ mask
      · simp only [if_pos hm] at h
        cases hat : delta.at var with
        | error e => simp [hat] at h
        | ok d =>
          simp only [hat] at h
          have hd : delta.find var = some d := by
            unfold VectorValues.at at hat
            cases hf : delta.find var with
            | none => simp [hf] at hat
            | some x =>
              simp only [hf, Except.ok.injEq] at hat
              rw [hat]
          have hrows : rowsAt delta var = d.rows := by simp [rowsAt, hd]
          cases hinv : invalidate var d.rows delta inv with
          | error e => simp [hinv] at h
          | ok st =>
            obtain ⟨delta2, inv2⟩ := st
            simp only [hinv] at h
            cases hrec : expmapLoop flags retract dim mask rest ks.tail delta2 inv2 with
            | error e => simp [hrec] at h
            | ok r =>
              obtain ⟨vs2, delta3, inv3⟩ := r
              simp only [hrec, Except.ok.injEq, Prod.mk.injEq] at h
              obtain ⟨_, rfl, rfl⟩ := h
              have ih := expmapLoop_invalidates flags retract dim mask rest ks.tail delta2 inv2
                vs2 _ _ hrec
              cases inv with
              | none =>
                simp only [invalidate, Except.ok.injEq, Prod.mk.injEq] at hinv
                obtain ⟨rfl, rfl⟩ := hinv
                exact ih
              | delta =>
                unfold invalidate at hinv
                cases ha : delta.assign var (Vector.Constant d.rows .posInf) with
                | error e => simp [ha] at hinv
                | ok dd =>
                  simp only [ha, Except.ok.injEq, Prod.mk.injEq] at hinv
                  obtain ⟨rfl, rfl⟩ := hinv
                  have href := rowsAt_assign_constant delta dd var d .posInf hd ha
                  have hmap := assign_eq_map delta dd var _ ha
                  simp only at ih ⊢
                  refine ⟨?_, ih.2⟩
                  rw [ih.1, List.map_cons]
                  have hp := poison_step mask var (rest.map Prod.fst) delta dd delta hm href
                  rw [hrows, ← hmap] at hp
                  rw [← hp]
              | other s =>
                unfold invalidate at hinv
                cases ha : s.assign var (Vector.Constant d.rows .posInf) with
                | error e => simp [ha] at hinv
                | ok ss =>
                  simp only [ha, Except.ok.injEq, Prod.mk.injEq] at hinv
                  obtain ⟨rfl, rfl⟩ := hinv
                  have hmap := assign_eq_map s ss var _ ha
                  simp only at ih ⊢
                  refine ⟨ih.1, ?_⟩
                  rw [ih.2, List.map_cons]
                  have hp := poison_step mask var (rest.map Prod.fst) delta delta s hm
                    (fun _ => rfl)
                  rw [hrows, ← hmap] at hp
                  rw [hp]
      · simp only [if_neg hm] at h
        cases hrec : expmapLoop flags retract dim mask rest ks.tail delta inv with
        | error e => simp [hrec] at h
        | ok r =>
          obtain ⟨vs2, delta3, inv3⟩ := r
          simp only [hrec, Except.ok.injEq, Prod.mk.injEq] at h
          obtain ⟨_, rfl, rfl⟩ := h
          have ih := expmapLoop_invalidates flags retract dim mask rest ks.tail delta inv
            vs2 _ _ hrec
          cases inv with
          | none => exact ih
          | delta =>
            simp only at ih ⊢
            rw [List.map_cons, poison_cons_not_mem mask var _ _ _ hm]
            exact ih
          | other s =>
            simp only at ih ⊢
            rw [List.map_cons, poison_cons_not_mem mask var _ _ _ hm]
            exact ih

/-- C22: when `ExpmapMasked` returns in a build with `NDEBUG`, the delta store and the store
that `invalidateIfDebug` refers to are what they were.  In a build with assertions the store
that `invalidateIfDebug` refers to, the delta store itself or another store, has for every key
that is in the mask and in the estimate store the all-infinity vector of the length of the
key's delta, and every other entry is what it was; with no store supplied nothing changes. -/
theorem ExpmapMasked_invalidates {V : Type} (flags : BuildFlags) (retract : V → Vector → V)
    (dim : V → Nat) (values : Values V) (delta : VectorValues) (mask : FastSet)
    (invalidateIfDebug : Invalidate) (values1 : Values V) (delta1 : VectorValues)
    (invalidate1 : Invalidate)
    (h : ExpmapMasked flags retract dim values delta mask invalidateIfDebug =
      .ok (values1, delta1, invalidate1)) :
    (flags.NDEBUG = true → delta1 = delta ∧ invalidate1 = invalidateIfDebug) ∧
    (flags.NDEBUG = false →
      (delta1, invalidate1) =
        invalidated mask (values.map Prod.fst) delta invalidateIfDebug) := by
  unfold ExpmapMasked at h
  cases hN : flags.NDEBUG with
  | true =>
    simp only [hN, if_true] at h
    refine ⟨fun _ => ?_, fun hc => absurd hc (by decide)⟩
    cases hloop : expmapLoop flags retract dim mask values (delta.map Prod.fst) delta .none with
    | error e => simp [hloop] at h
    | ok r =>
      obtain ⟨vs2, delta2, inv2⟩ := r
      simp only [hloop, Except.ok.injEq, Prod.mk.injEq] at h
      obtain ⟨_, rfl, rfl⟩ := h
      have := expmapLoop_invalidates flags retract dim mask values _ delta .none vs2 delta2 inv2
        hloop
      exact ⟨this.1, rfl⟩
  | false =>
    simp only [hN] at h
    refine ⟨fun hc => absurd hc (by decide), fun _ => ?_⟩
    by_cases hlen : values.length = delta.length
    · simp only [hlen, ne_eq, not_true_eq_false, if_false] at h
      have hl := expmapLoop_invalidates flags retract dim mask values _ delta invalidateIfDebug
        values1 delta1 invalidate1 (by simpa using h)
      cases invalidateIfDebug with
      | none => exact Prod.ext hl.1 hl.2
      | delta => exact Prod.ext hl.1 hl.2
      | other s => exact Prod.ext hl.1 hl.2
    · simp [hlen] at h

/-- Witness of C22: two points of the plane and the mask `x1, x5` in a build with assertions
where the store to invalidate is a store other than the delta store, with entries for `x1`,
`x2` and `x7`: the entry of `x1` becomes two infinities, the length of the delta of `x1`. -/
theorem ExpmapMasked_invalidates_witness :
    (debugFlags.NDEBUG = true →
      planeDelta = planeDelta ∧
        Invalidate.other [(1, [.posInf, .posInf]), (2, [.fin 5]), (7, [.fin 1])] =
          Invalidate.other [(1, [.fin 3]), (2, [.fin 5]), (7, [.fin 1])]) ∧
    (debugFlags.NDEBUG = false →
      (planeDelta, Invalidate.other [(1, [.posInf, .posInf]), (2, [.fin 5]), (7, [.fin 1])]) =
        invalidated {1, 5} (planeValues.map Prod.fst) planeDelta
          (.other [(1, [.fin 3]), (2, [.fin 5]), (7, [.fin 1])])) :=
  ExpmapMasked_invalidates debugFlags planeRetract planeDim planeValues planeDelta {1, 5}
    (.other [(1, [.fin 3]), (2, [.fin 5]), (7, [.fin 1])])
    [(1, [1 / 2, 0]), (2, [1, 1])] _ _ (by
      simp [ExpmapMasked, debugFlags, planeValues, planeDelta, expmapLoop, expmapAsserts,
        VectorValues.at, VectorValues.find, List.lookup, Vector.rows, planeDim, Vector.allFinite,
        Double.isFinite, invalidate, VectorValues.assign, Vector.Constant, planeRetract])

/-! ### The order of full back-substitution -/

theorem frontalKeys_append (l m : List ISAM2Clique) :
    frontalKeys (l ++ m) = frontalKeys l ++ frontalKeys m := by
  induction l with
  | nil => rfl
  | cons c rest ih => simp [frontalKeys, ih]

theorem mem_frontalKeys (k : Key) :
    ∀ (l : List ISAM2Clique), k ∈ frontalKeys l ↔ ∃ c ∈ l, k ∈ c.frontals
  | [] => by simp [frontalKeys]
  | c :: rest => by
    rw [frontalKeys, List.mem_append, mem_frontalKeys k rest]
    simp

mutual
theorem frontalKeys_preorder :
    ∀ (c : ISAM2Clique), frontalKeys c.preorder = c.allFrontals
  | .mk f p ch => by
    rw [ISAM2Clique.preorder, frontalKeys, ISAM2Clique.allFrontals, frontalKeys_preorderList ch]
    rfl
theorem frontalKeys_preorderList :
    ∀ (cs : List ISAM2Clique), frontalKeys (preorderList cs) = allFrontalsList cs
  | [] => rfl
  | c :: rest => by
    rw [preorderList, frontalKeys_append, frontalKeys_preorder c, frontalKeys_preorderList rest,
      allFrontalsList]
end

theorem solveAll_append (solve : ISAM2Clique → VectorValues → VectorValues) :
    ∀ (l m : List ISAM2Clique) (r : VectorValues),
      solveAll solve (l ++ m) r =
        match solveAll solve l r with
        | .error e => .error e
        | .ok r1 => solveAll solve m r1
  | [], m, r => rfl
  | c :: rest, m, r => by
    rw [List.cons_append, solveAll, solveAll]
    cases hu : r.update (solve c r) with
    | error e => rfl
    | ok r1 => exact solveAll_append solve rest m r1

mutual
theorem optimizeInPlace_eq (solve : ISAM2Clique → VectorValues → VectorValues) :
    ∀ (c : ISAM2Clique) (r : VectorValues),
      optimizeInPlace solve c r = solveAll solve c.preorder r
  | .mk f p ch, r => by
    rw [optimizeInPlace, ISAM2Clique.preorder, solveAll]
    cases hu : r.update (solve (.mk f p ch) r) with
    | error e => rfl
    | ok r1 => exact optimizeInPlaceChildren_eq solve ch r1
theorem optimizeInPlaceChildren_eq (solve : ISAM2Clique → VectorValues → VectorValues) :
    ∀ (cs : List ISAM2Clique) (r : VectorValues),
      optimizeInPlaceChildren solve cs r = solveAll solve (preorderList cs) r
  | [], r => rfl
  | c :: rest, r => by
    rw [optimizeInPlaceChildren, preorderList, solveAll_append, optimizeInPlace_eq solve c r]
    cases hs : solveAll solve c.preorder r with
    | error e => rfl
    | ok r1 => exact optimizeInPlaceChildren_eq solve rest r1
end

theorem orderedFrom_mono :
    ∀ (l : List ISAM2Clique) (s t : List Key), (∀ k ∈ s, k ∈ t) →
      orderedFrom s l → orderedFrom t l
  | [], _, _, _, _ => trivial
  | c :: rest, s, t, hst, h => by
    refine ⟨fun k hk => hst k (h.1 k hk), ?_⟩
    apply orderedFrom_mono rest (s ++ c.frontals) (t ++ c.frontals) _ h.2
    intro k hk
    rcases List.mem_append.1 hk with hk | hk
    · exact List.mem_append_left _ (hst k hk)
    · exact List.mem_append_right _ hk

theorem orderedFrom_append :
    ∀ (l m : List ISAM2Clique) (s : List Key),
      orderedFrom s (l ++ m) ↔ orderedFrom s l ∧ orderedFrom (s ++ frontalKeys l) m
  | [], m, s => by simp [orderedFrom, frontalKeys]
  | c :: rest, m, s => by
    rw [List.cons_append, orderedFrom, orderedFrom, orderedFrom_append rest m, frontalKeys,
      List.append_assoc, and_assoc]

mutual
theorem runningSeparator_ordered :
    ∀ (c : ISAM2Clique) (anc s : List Key), runningSeparator anc c = true →
      (∀ k ∈ anc, k ∈ s) → orderedFrom s c.preorder
  | .mk f p ch, anc, s, h, hs => by
    rw [runningSeparator, Bool.and_eq_true, List.all_eq_true] at h
    rw [ISAM2Clique.preorder, orderedFrom]
    refine ⟨fun k hk => hs k (by simpa using h.1 k hk), ?_⟩
    apply runningSeparatorList_ordered ch (anc ++ f) _ h.2
    intro k hk
    rcases List.mem_append.1 hk with hk | hk
    · exact List.mem_append_left _ (hs k hk)
    · exact List.mem_append_right _ hk
theorem runningSeparatorList_ordered :
    ∀ (cs : List ISAM2Clique) (anc s : List Key), runningSeparatorList anc cs = true →
      (∀ k ∈ anc, k ∈ s) → orderedFrom s (preorderList cs)
  | [], _, _, _, _ => trivial
  | c :: rest, anc, s, h, hs => by
    rw [runningSeparatorList, Bool.and_eq_true] at h
    rw [preorderList, orderedFrom_append]
    refine ⟨runningSeparator_ordered c anc s h.1 hs, ?_⟩
    apply runningSeparatorList_ordered rest anc _ h.2
    intro k hk
    exact List.mem_append_left _ (hs k hk)
end

theorem update_find :
    ∀ (values r r1 : VectorValues), r.update values = .ok r1 →
      (values.map Prod.fst).Nodup →
      (∀ k v, (k, v) ∈ values → r1.find k = some v) ∧
        (∀ k, k ∉ values.map Prod.fst → r1.find k = r.find k) ∧
        r1.map Prod.fst = r.map Prod.fst
  | [], r, r1, h, _ => by
    simp only [VectorValues.update, Except.ok.injEq] at h
    subst h
    simp
  | (j, v) :: rest, r, r1, h, hnd => by
    rw [VectorValues.update] at h
    cases ha : r.assign j v with
    | error e => simp [ha] at h
    | ok r2 =>
      simp only [ha] at h
      rw [List.map_cons, List.nodup_cons] at hnd
      obtain ⟨ih1, ih2, ih3⟩ := update_find rest r2 r1 h hnd.2
      refine ⟨?_, ?_, ih3.trans (keys_assign r r2 j v ha)⟩
      · intro k w hkw
        rcases List.mem_cons.1 hkw with heq | hmem
        · obtain ⟨rfl, rfl⟩ := Prod.mk.inj heq
          rw [ih2 k hnd.1]
          exact find_assign_self r r2 k w ha
        · exact ih1 k w hmem
      · intro k hk
        rw [List.map_cons, List.mem_cons, not_or] at hk
        rw [ih2 k hk.2]
        exact find_assign_ne r r2 j k v ha hk.1

theorem solveAll_frame (solve : ISAM2Clique → VectorValues → VectorValues)
    (hkeys : ∀ c r, (solve c r).map Prod.fst = c.frontals) :
    ∀ (l : List ISAM2Clique) (r r1 : VectorValues), solveAll solve l r = .ok r1 →
      (frontalKeys l).Nodup →
      ∀ k, k ∉ frontalKeys l → r1.find k = r.find k
  | [], r, r1, h, _, k, _ => by
    simp only [solveAll, Except.ok.injEq] at h
    rw [h]
  | c :: rest, r, r1, h, hnd, k, hk => by
    rw [solveAll] at h
    cases hu : r.update (solve c r) with
    | error e => simp [hu] at h
    | ok r2 =>
      simp only [hu] at h
      rw [frontalKeys, List.nodup_append] at hnd
      rw [frontalKeys, List.mem_append, not_or] at hk
      rw [solveAll_frame solve hkeys rest r2 r1 h hnd.2.1 k hk.2]
      exact (update_find (solve c r) r r2 hu (by rw [hkeys]; exact hnd.1)).2.1 k
        (by rw [hkeys]; exact hk.1)

theorem solveAll_fixed (solve : ISAM2Clique → VectorValues → VectorValues)
    (hkeys : ∀ c r, (solve c r).map Prod.fst = c.frontals)
    (hdep : ∀ c r r1, (∀ k ∈ c.parents, r.find k = r1.find k) → solve c r = solve c r1)
    (pre post : List ISAM2Clique) (c : ISAM2Clique) (r r1 : VectorValues)
    (h : solveAll solve (pre ++ c :: post) r = .ok r1)
    (hnd : (frontalKeys (pre ++ c :: post)).Nodup)
    (hord : ∀ k ∈ c.parents, k ∈ frontalKeys pre) :
    ∀ k v, (k, v) ∈ solve c r1 → r1.find k = some v := by
  rw [solveAll_append] at h
  cases hpre : solveAll solve pre r with
  | error e => simp [hpre] at h
  | ok rp =>
    simp only [hpre] at h
    rw [solveAll] at h
    cases hu : rp.update (solve c rp) with
    | error e => simp [hu] at h
    | ok rc =>
      simp only [hu] at h
      rw [frontalKeys_append, frontalKeys, List.nodup_append] at hnd
      obtain ⟨_, hcp, hdisj⟩ := hnd
      rw [List.nodup_append] at hcp
      obtain ⟨hc, hpost, hdisj2⟩ := hcp
      obtain ⟨hu1, hu2, _⟩ := update_find (solve c rp) rp rc hu (by rw [hkeys]; exact hc)
      have hframe := solveAll_frame solve hkeys post rc r1 h hpost
      have hsame : solve c r1 = solve c rp := by
        apply hdep
        intro k hk
        have hkpre := hord k hk
        have hnotc : k ∉ c.frontals := fun hkc =>
          hdisj hkpre (List.mem_append_left _ hkc)
        have hnotpost : k ∉ frontalKeys post := fun hkp =>
          hdisj hkpre (List.mem_append_right _ hkp)
        rw [hframe k hnotpost]
        exact hu2 k (by rw [hkeys]; exact hnotc)
      intro k v hkv
      rw [hsame] at hkv
      have hkc : k ∈ c.frontals := by
        rw [← hkeys c rp]
        exact List.mem_map_of_mem Prod.fst hkv
      rw [hframe k (fun hkp => hdisj2 hkc hkp)]
      exact hu1 k v hkv

/-- C23: with a wildfire threshold that is not positive, for a forest whose frontal keys are
pairwise different, whose separator keys are frontal keys of ancestors and whose frontal keys
have delta entries, and for a solve that returns the frontal keys of its clique and depends
only on the store at the separator keys of the clique, `UpdateDelta` returns, the delta store
it leaves is the one got by solving the cliques one after the other in traversal order, every
separator key of a clique is a frontal key of a clique solved before it and of no clique solved
with or after it, every entry of the solve of a clique at the final delta store is in the final
delta store, and the delta store has the keys it had. -/
theorem UpdateDelta_root_to_leaf (flags : BuildFlags) (extraChecks : Bool)
    (solve : ISAM2Clique → VectorValues → VectorValues)
    (optimizeWildfireNonRecursive :
      ISAM2Clique → Double → FastSet → VectorValues → Nat × VectorValues)
    (roots : List ISAM2Clique) (replacedKeys : FastSet) (delta : VectorValues)
    (wildfireThreshold : Double)
    (hthr : wildfireThreshold ≤ 0)
    (hpart : (allFrontalsList roots).Nodup)
    (hrsp : runningSeparatorList [] roots = true)
    (hentry : ∀ k ∈ allFrontalsList roots, k ∈ delta.map Prod.fst)
    (hkeys : ∀ c r, (solve c r).map Prod.fst = c.frontals)
    (hdep : ∀ c r r1, (∀ k ∈ c.parents, r.find k = r1.find k) → solve c r = solve c r1) :
    ∃ delta1,
      UpdateDelta flags extraChecks solve optimizeWildfireNonRecursive roots replacedKeys delta
          wildfireThreshold = .ok (delta.length, ∅, delta1) ∧
      solveAll solve (preorderList roots) delta = .ok delta1 ∧
      (∀ pre c post, preorderList roots = pre ++ c :: post → ∀ k ∈ c.parents,
        (∃ a ∈ pre, k ∈ a.frontals) ∧ ∀ a ∈ c :: post, k ∉ a.frontals) ∧
      (∀ c ∈ preorderList roots, ∀ k v, (k, v) ∈ solve c delta1 → delta1.find k = some v) ∧
      delta1.map Prod.fst = delta.map Prod.fst := by
  obtain ⟨r, hr, hk⟩ := optimizeInPlaceChildren_ok solve
    (fun c result k hk => by rw [hkeys] at hk; exact hk) roots delta hentry
  have hlen : r.length = delta.length := by
    have := congrArg List.length hk
    simpa using this
  have hall : solveAll solve (preorderList roots) delta = .ok r := by
    rw [← optimizeInPlaceChildren_eq]
    exact hr
  have hnd : (frontalKeys (preorderList roots)).Nodup := by
    rw [frontalKeys_preorderList]
    exact hpart
  have hordered := runningSeparatorList_ordered roots [] [] hrsp (fun _ h => h)
  have hbefore : ∀ pre c post, preorderList roots = pre ++ c :: post →
      ∀ k ∈ c.parents, k ∈ frontalKeys pre := by
    intro pre c post hsplit k hkp
    rw [hsplit, orderedFrom_append, orderedFrom] at hordered
    simpa using hordered.2.1 k hkp
  refine ⟨r, by simp [UpdateDelta, hthr, hr, hlen], hall, ?_, ?_, hk⟩
  · intro pre c post hsplit k hkp
    have hkpre := hbefore pre c post hsplit k hkp
    refine ⟨(mem_frontalKeys k pre).1 hkpre, ?_⟩
    intro a ha hka
    rw [hsplit, frontalKeys_append, List.nodup_append] at hnd
    exact hnd.2.2 hkpre ((mem_frontalKeys k (c :: post)).2 ⟨a, ha, hka⟩)
  · intro c hc
    obtain ⟨pre, post, hsplit⟩ := List.append_of_mem hc
    rw [hsplit] at hall hnd
    exact solveAll_fixed solve hkeys hdep pre post c delta r hall hnd
      (hbefore pre c post hsplit)

/-- Witness of C23: the chain with a solve that puts a `1` in front of the vector of the
separator key: the root is solved to `[1]`, then the middle clique to `[1, 1]`, then the leaf
to `[1, 1, 1]`. -/
theorem UpdateDelta_root_to_leaf_witness :
    (∃ delta1,
      UpdateDelta debugFlags false stackSolve noWildfire [chainRoot] {2} chainDelta 0 =
        .ok (chainDelta.length, ∅, delta1) ∧
      solveAll stackSolve (preorderList [chainRoot]) chainDelta = .ok delta1 ∧
      (∀ pre c post, preorderList [chainRoot] = pre ++ c :: post → ∀ k ∈ c.parents,
        (∃ a ∈ pre, k ∈ a.frontals) ∧ ∀ a ∈ c :: post, k ∉ a.frontals) ∧
      (∀ c ∈ preorderList [chainRoot], ∀ k v, (k, v) ∈ stackSolve c delta1 →
        delta1.find k = some v) ∧
      delta1.map Prod.fst = chainDelta.map Prod.fst) ∧
    solveAll stackSolve (preorderList [chainRoot]) chainDelta =
      .ok [(1, [.fin 1]), (2, [.fin 1, .fin 1]), (3, [.fin 1, .fin 1, .fin 1])] :=
  ⟨UpdateDelta_root_to_leaf debugFlags false stackSolve noWildfire [chainRoot] {2}
    chainDelta 0 (le_refl _) (by decide) (by decide) (by decide)
    (by
      intro c r
      simp [stackSolve, List.map_map, Function.comp_def])
    (by
      intro c r r1 h
      unfold stackSolve
      cases hp : c.parents with
      | nil => rfl
      | cons j rest =>
        rw [hp] at h
        simp only [h j (List.mem_cons_self _ _)]),
    rfl⟩

/-! ### Dogleg deltas: what a refresh writes -/

theorem find_of_at (store : VectorValues) (j : Key) (d : Vector)
    (h : store.at j = .ok d) : store.find j = some d := by
  unfold VectorValues.at at h
  cases hf : store.find j with
  | none => simp [hf] at h
  | some x =>
    simp only [hf, Except.ok.injEq] at h
    rw [h]

theorem at_of_find (store : VectorValues) (j : Key) (d : Vector)
    (h : store.find j = some d) : store.at j = .ok d := by
  simp [VectorValues.at, h]

theorem segment_eq (v seg : Vector) (start n : Nat) (h : v.segment start n = .ok seg) :
    seg = (v.drop start).take n ∧ seg.rows = n := by
  unfold Vector.segment at h
  by_cases hle : start + n ≤ v.rows
  · simp only [hle, if_true, Except.ok.injEq] at h
    subst h
    refine ⟨rfl, ?_⟩
    simp only [Vector.rows, List.length_take, List.length_drop] at hle ⊢
    omega
  · simp [hle] at h

theorem dims_cons (R : VectorValues) (j : Key) (ks : List Key) :
    dims R (j :: ks) = rowsAt R j + dims R ks := by
  simp [dims]

theorem vector_congr (R S : VectorValues) :
    ∀ (ks : List Key), (∀ k ∈ ks, R.find k = S.find k) → R.vector ks = S.vector ks
  | [], _ => rfl
  | j :: rest, h => by
    rw [VectorValues.vector, VectorValues.vector, VectorValues.at, VectorValues.at,
      h j (List.mem_cons_self _ _),
      vector_congr R S rest (fun k hk => h k (List.mem_cons_of_mem _ hk))]

theorem scatterLoop_frame (v : Vector) :
    ∀ (ks : List Key) (R R1 : VectorValues) (pos pos1 : Nat),
      scatterLoop v ks (R, pos) = .ok (R1, pos1) →
      pos1 = pos + dims R ks ∧ R1.map Prod.fst = R.map Prod.fst ∧
        (∀ k, rowsAt R1 k = rowsAt R k) ∧ ∀ k, k ∉ ks → R1.find k = R.find k
  | [], R, R1, pos, pos1, h => by
    simp only [scatterLoop, Except.ok.injEq, Prod.mk.injEq] at h
    obtain ⟨rfl, rfl⟩ := h
    simp [dims]
  | j :: rest, R, R1, pos, pos1, h => by
    rw [scatterLoop] at h
    cases hat : R.at j with
    | error e => simp [hat] at h
    | ok d =>
      simp only [hat] at h
      cases hseg : Vector.segment v pos d.rows with
      | error e => simp [hseg] at h
      | ok seg =>
        simp only [hseg] at h
        cases ha : R.assign j seg with
        | error e => simp [ha] at h
        | ok R2 =>
          simp only [ha] at h
          have hd := find_of_at R j d hat
          have hsr := (segment_eq v seg pos d.rows hseg).2
          have hrows : ∀ k, rowsAt R2 k = rowsAt R k := by
            intro k
            unfold rowsAt
            by_cases hk : k = j
            · subst hk
              rw [find_assign_self R R2 k seg ha, hd]
              simp [hsr]
            · rw [find_assign_ne R R2 j k seg ha hk]
          obtain ⟨ih1, ih2, ih3, ih4⟩ := scatterLoop_frame v rest R2 R1 (pos + d.rows) pos1 h
          refine ⟨?_, ih2.trans (keys_assign R R2 j seg ha), fun k => (ih3 k).trans (hrows k),
            ?_⟩
          · rw [ih1, dims_cons, dims_congr R2 R rest (fun k _ => hrows k)]
            simp only [rowsAt, hd, Option.map_some', Option.getD_some]
            omega
          · intro k hk
            rw [List.mem_cons, not_or] at hk
            rw [ih4 k hk.2]
            exact find_assign_ne R R2 j k seg ha hk.1

theorem scatterLoop_values (v : Vector) :
    ∀ (ks : List Key) (R R1 : VectorValues) (pos pos1 : Nat),
      scatterLoop v ks (R, pos) = .ok (R1, pos1) → ks.Nodup →
      (∀ pre k post, ks = pre ++ k :: post →
        R1.find k = some ((v.drop (pos + dims R pre)).take (rowsAt R k))) ∧
        R1.vector ks = .ok ((v.drop pos).take (dims R ks))
  | [], R, R1, pos, pos1, _, _ => by
    refine ⟨?_, by simp [VectorValues.vector, dims]⟩
    intro pre k post hsplit
    simp at hsplit
  | j :: rest, R, R1, pos, pos1, h, hnd => by
    rw [scatterLoop] at h
    cases hat : R.at j with
    | error e => simp [hat] at h
    | ok d =>
      simp only [hat] at h
      cases hseg : Vector.segment v pos d.rows with
      | error e => simp [hseg] at h
      | ok seg =>
        simp only [hseg] at h
        cases ha : R.assign j seg with
        | error e => simp [ha] at h
        | ok R2 =>
          simp only [ha] at h
          have hd := find_of_at R j d hat
          have hrj : rowsAt R j = d.rows := by simp [rowsAt, hd]
          obtain ⟨hsv, hsr⟩ := segment_eq v seg pos d.rows hseg
          have hrows : ∀ k, rowsAt R2 k = rowsAt R k := by
            intro k
            unfold rowsAt
            by_cases hk : k = j
            · subst hk
              rw [find_assign_self R R2 k seg ha, hd]
              simp [hsr]
            · rw [find_assign_ne R R2 j k seg ha hk]
          rw [List.nodup_cons] at hnd
          obtain ⟨ih1, ih2⟩ := scatterLoop_values v rest R2 R1 (pos + d.rows) pos1 h hnd.2
          have hframe := (scatterLoop_frame v rest R2 R1 (pos + d.rows) pos1 h).2.2.2
          have hj : R1.find j = some seg := by
            rw [hframe j hnd.1]
            exact find_assign_self R R2 j seg ha
          constructor
          · intro pre k post hsplit
            cases pre with
            | nil =>
              simp only [List.nil_append, List.cons.injEq] at hsplit
              obtain ⟨rfl, _⟩ := hsplit
              rw [hj, hsv, hrj]
              simp [dims]
            | cons a pre1 =>
              simp only [List.cons_append, List.cons.injEq] at hsplit
              obtain ⟨rfl, hrest⟩ := hsplit
              rw [ih1 pre1 k post hrest, hrows k, dims_cons, hrj,
                dims_congr R2 R pre1 (fun k _ => hrows k), Nat.add_assoc]
          · rw [VectorValues.vector, at_of_find R1 j seg hj, ih2]
            simp only
            rw [dims_cons, hrj, dims_congr R2 R rest (fun k _ => hrows k), hsv, List.take_add,
              List.drop_drop]

theorem refreshClique_frame (product : ISAM2Clique → Vector → Vector → Vector)
    (grad : VectorValues) (c : ISAM2Clique) (R R1 : VectorValues)
    (h : refreshClique product grad c R = .ok R1) :
    R1.map Prod.fst = R.map Prod.fst ∧ (∀ k, rowsAt R1 k = rowsAt R k) ∧
      ∀ k, k ∉ c.frontals → R1.find k = R.find k := by
  unfold refreshClique at h
  cases hgR : grad.vector c.frontals with
  | error e => simp [hgR] at h
  | ok gR =>
    simp only [hgR] at h
    cases hgS : grad.vector c.parents with
    | error e => simp [hgS] at h
    | ok gS =>
      simp only [hgS] at h
      cases hs : scatterLoop (product c gR gS) c.frontals (R, 0) with
      | error e => simp [hs] at h
      | ok st =>
        obtain ⟨R2, pos⟩ := st
        simp only [hs, Except.ok.injEq] at h
        subst h
        exact (scatterLoop_frame _ _ _ _ _ _ hs).2

theorem refreshClique_values (product : ISAM2Clique → Vector → Vector → Vector)
    (grad : VectorValues) (c : ISAM2Clique) (R R1 : VectorValues)
    (h : refreshClique product grad c R = .ok R1) (hnd : c.frontals.Nodup) :
    ∃ gF gS, grad.vector c.frontals = .ok gF ∧ grad.vector c.parents = .ok gS ∧
      (∀ pre k post, c.frontals = pre ++ k :: post →
        R1.find k =
          some (((product c gF gS).drop (dims R pre)).take (rowsAt R k))) ∧
      R1.vector c.frontals = .ok ((product c gF gS).take (dims R c.frontals)) := by
  unfold refreshClique at h
  cases hgR : grad.vector c.frontals with
  | error e => simp [hgR] at h
  | ok gR =>
    simp only [hgR] at h
    cases hgS : grad.vector c.parents with
    | error e => simp [hgS] at h
    | ok gS =>
      simp only [hgS] at h
      cases hs : scatterLoop (product c gR gS) c.frontals (R, 0) with
      | error e => simp [hs] at h
      | ok st =>
        obtain ⟨R2, pos⟩ := st
        simp only [hs, Except.ok.injEq] at h
        subst h
        obtain ⟨h1, h2⟩ := scatterLoop_values _ _ _ _ _ _ hs hnd
        refine ⟨gR, gS, rfl, rfl, ?_, ?_⟩
        · intro pre k post hsplit
          rw [h1 pre k post hsplit, Nat.zero_add]
        · rw [h2, List.drop_zero]

theorem refreshAll_append (product : ISAM2Clique → Vector → Vector → Vector)
    (grad : VectorValues) :
    ∀ (l m : List ISAM2Clique) (R : VectorValues),
      refreshAll product grad (l ++ m) R =
        match refreshAll product grad l R with
        | .error e => .error e
        | .ok R1 => refreshAll product grad m R1
  | [], m, R => rfl
  | c :: rest, m, R => by
    rw [List.cons_append, refreshAll, refreshAll]
    cases hu : refreshClique product grad c R with
    | error e => rfl
    | ok R1 => exact refreshAll_append product grad rest m R1

theorem refreshAll_frame (product : ISAM2Clique → Vector → Vector → Vector)
    (grad : VectorValues) :
    ∀ (l : List ISAM2Clique) (R R1 : VectorValues), refreshAll product grad l R = .ok R1 →
      R1.map Prod.fst = R.map Prod.fst ∧ (∀ k, rowsAt R1 k = rowsAt R k) ∧
        ∀ k, k ∉ frontalKeys l → R1.find k = R.find k
  | [], R, R1, h => by
    simp only [refreshAll, Except.ok.injEq] at h
    subst h
    simp
  | c :: rest, R, R1, h => by
    rw [refreshAll] at h
    cases hc : refreshClique product grad c R with
    | error e => simp [hc] at h
    | ok R2 =>
      simp only [hc] at h
      obtain ⟨a1, a2, a3⟩ := refreshClique_frame product grad c R R2 hc
      obtain ⟨b1, b2, b3⟩ := refreshAll_frame product grad rest R2 R1 h
      refine ⟨b1.trans a1, fun k => (b2 k).trans (a2 k), ?_⟩
      intro k hk
      rw [frontalKeys, List.mem_append, not_or] at hk
      rw [b3 k hk.2, a3 k hk.1]

theorem refreshAll_values (product : ISAM2Clique → Vector → Vector → Vector)
    (grad : VectorValues) (pre post : List ISAM2Clique) (c : ISAM2Clique)
    (R R1 : VectorValues)
    (h : refreshAll product grad (pre ++ c :: post) R = .ok R1)
    (hnd : (frontalKeys (pre ++ c :: post)).Nodup) :
    ∃ gF gS, grad.vector c.frontals = .ok gF ∧ grad.vector c.parents = .ok gS ∧
      (∀ pre k post, c.frontals = pre ++ k :: post →
        R1.find k =
          some (((product c gF gS).drop (dims R pre)).take (rowsAt R k))) ∧
      R1.vector c.frontals = .ok ((product c gF gS).take (dims R c.frontals)) := by
  rw [refreshAll_append] at h
  cases hpre : refreshAll product grad pre R with
  | error e => simp [hpre] at h
  | ok Rp =>
    simp only [hpre] at h
    rw [refreshAll] at h
    cases hc : refreshClique product grad c Rp with
    | error e => simp [hc] at h
    | ok Rc =>
      simp only [hc] at h
      rw [frontalKeys_append, frontalKeys, List.nodup_append] at hnd
      obtain ⟨_, hcp, _⟩ := hnd
      rw [List.nodup_append] at hcp
      obtain ⟨hcn, _, hdisj⟩ := hcp
      obtain ⟨gF, gS, hgF, hgS, hv1, hv2⟩ := refreshClique_values product grad c Rp Rc hc hcn
      have hrows := (refreshAll_frame product grad pre R Rp hpre).2.1
      have hframe := (refreshAll_frame product grad post Rc R1 h).2.2
      have hsame : ∀ k ∈ c.frontals, R1.find k = Rc.find k := fun k hk =>
        hframe k (fun hkp => hdisj hk hkp)
      refine ⟨gF, gS, hgF, hgS, ?_, ?_⟩
      · intro pre1 k post1 hsplit
        have hk : k ∈ c.frontals := by
          rw [hsplit]
          simp
        rw [hsame k hk, hv1 pre1 k post1 hsplit, hrows k,
          dims_congr Rp R pre1 (fun k _ => hrows k)]
      · rw [vector_congr R1 Rc c.frontals hsame, hv2,
          dims_congr Rp R c.frontals (fun k _ => hrows k)]

mutual
theorem updateDoglegDeltas_eq (product : ISAM2Clique → Vector → Vector → Vector)
    (replaced : FastSet) (grad : VectorValues) :
    ∀ (c : ISAM2Clique) (R : VectorValues) (n : Nat),
      updateDoglegDeltas product replaced grad c (R, n) =
        match refreshAll product grad (refreshed replaced c) R with
        | .error e => .error e
        | .ok R1 => .ok (R1, n + frontalCount (refreshed replaced c))
  | .mk f p ch, R, n => by
    cases hany : (f ++ p).any (fun j => decide (j ∈ replaced)) with
    | false => simp [updateDoglegDeltas, refreshed, hany, refreshAll, frontalCount]
    | true =>
      simp only [updateDoglegDeltas, refreshed, hany, if_true, refreshAll, refreshClique,
        ISAM2Clique.frontals, ISAM2Clique.parents]
      cases hgR : grad.vector f with
      | error e => rfl
      | ok gR =>
        dsimp only
        cases hgS : grad.vector p with
        | error e => rfl
        | ok gS =>
          dsimp only
          cases hs : scatterLoop (product (.mk f p ch) gR gS) f (R, 0) with
          | error e => rfl
          | ok st =>
            obtain ⟨R2, pos⟩ := st
            dsimp only
            rw [updateDoglegDeltasChildren_eq product replaced grad ch R2 (n + f.length)]
            cases hr : refreshAll product grad (refreshedList replaced ch) R2 with
            | error e => rfl
            | ok R1 =>
              simp only [frontalCount_cons, ISAM2Clique.frontals, Nat.add_assoc]
theorem updateDoglegDeltasChildren_eq (product : ISAM2Clique → Vector → Vector → Vector)
    (replaced : FastSet) (grad : VectorValues) :
    ∀ (cs : List ISAM2Clique) (R : VectorValues) (n : Nat),
      updateDoglegDeltasChildren product replaced grad cs (R, n) =
        match refreshAll product grad (refreshedList replaced cs) R with
        | .error e => .error e
        | .ok R1 => .ok (R1, n + frontalCount (refreshedList replaced cs))
  | [], R, n => by simp [updateDoglegDeltasChildren, refreshedList, refreshAll, frontalCount]
  | c :: rest, R, n => by
    rw [updateDoglegDeltasChildren, refreshedList, refreshAll_append,
      updateDoglegDeltas_eq product replaced grad c R n]
    cases hc : refreshAll product grad (refreshed replaced c) R with
    | error e => rfl
    | ok R2 =>
      simp only
      rw [updateDoglegDeltasChildren_eq product replaced grad rest R2]
      cases hr : refreshAll product grad (refreshedList replaced rest) R2 with
      | error e => rfl
      | ok R1 => simp only [frontalCount_append, Nat.add_assoc]
end

theorem wildfireLoop_snd
    (wf : ISAM2Clique → Double → FastSet → VectorValues → Nat × VectorValues)
    (thr : Double) (replaced : FastSet) :
    ∀ (roots : List ISAM2Clique) (a b : Nat) (d : VectorValues),
      (wildfireLoop wf thr replaced roots (a, d)).2 =
        (wildfireLoop wf thr replaced roots (b, d)).2
  | [], _, _, _ => rfl
  | c :: rest, a, b, d => by
    rw [wildfireLoop, wildfireLoop]
    exact wildfireLoop_snd wf thr replaced rest _ _ _

theorem doglegLoop_eq (product : ISAM2Clique → Vector → Vector → Vector)
    (wf : ISAM2Clique → Double → FastSet → VectorValues → Nat × VectorValues)
    (thr : Double) (replaced : FastSet) (grad : VectorValues) :
    ∀ (roots : List ISAM2Clique) (R : VectorValues) (n : Nat) (d : VectorValues),
      doglegLoop product wf thr replaced grad roots ((R, n), d) =
        match refreshAll product grad (refreshedList replaced roots) R with
        | .error e => .error e
        | .ok R1 =>
          .ok ((R1, n + frontalCount (refreshedList replaced roots)),
            (wildfireLoop wf thr replaced roots (0, d)).2)
  | [], R, n, d => by simp [doglegLoop, refreshedList, refreshAll, frontalCount, wildfireLoop]
  | c :: rest, R, n, d => by
    rw [doglegLoop, refreshedList, refreshAll_append,
      updateDoglegDeltas_eq product replaced grad c R n]
    cases hc : refreshAll product grad (refreshed replaced c) R with
    | error e => rfl
    | ok R2 =>
      simp only
      rw [doglegLoop_eq product wf thr replaced grad rest R2]
      cases hr : refreshAll product grad (refreshedList replaced rest) R2 with
      | error e => rfl
      | ok R1 =>
        simp only [frontalCount_append, Nat.add_assoc, wildfireLoop]
        rw [wildfireLoop_snd wf thr replaced rest (0 + (wf c thr replaced d).1) 0]

theorem UpdateDoglegDeltas_eq (product : ISAM2Clique → Vector → Vector → Vector)
    (gradientAtZero : List ISAM2Clique → VectorValues)
    (wf : ISAM2Clique → Double → FastSet → VectorValues → Nat × VectorValues)
    (isam : List ISAM2Clique) (thr : Double) (replaced : FastSet)
    (deltaNewton RgProd : VectorValues) :
    UpdateDoglegDeltas product gradientAtZero wf isam thr replaced deltaNewton RgProd =
      match refreshAll product (gradientAtZero isam) (refreshedList replaced isam) RgProd with
      | .error e => .error e
      | .ok R1 =>
        .ok (frontalCount (refreshedList replaced isam), ∅,
          (wildfireLoop wf thr replaced isam (0, deltaNewton)).2, R1) := by
  unfold UpdateDoglegDeltas
  simp only
  rw [doglegLoop_eq]
  cases hr : refreshAll product (gradientAtZero isam) (refreshedList replaced isam) RgProd with
  | error e => rfl
  | ok R1 => simp

mutual
theorem frontalKeys_refreshed (replaced : FastSet) :
    ∀ (c : ISAM2Clique), (frontalKeys (refreshed replaced c)).Sublist c.allFrontals
  | .mk f p ch => by
    rw [refreshed, ISAM2Clique.allFrontals]
    by_cases hany : (f ++ p).any (fun j => decide (j ∈ replaced)) = true
    · rw [if_pos hany, frontalKeys]
      exact List.Sublist.append (List.Sublist.refl _) (frontalKeys_refreshedList replaced ch)
    · rw [if_neg hany]
      exact List.nil_sublist _
theorem frontalKeys_refreshedList (replaced : FastSet) :
    ∀ (cs : List ISAM2Clique),
      (frontalKeys (refreshedList replaced cs)).Sublist (allFrontalsList cs)
  | [] => List.Sublist.refl _
  | c :: rest => by
    rw [refreshedList, frontalKeys_append, allFrontalsList]
    exact List.Sublist.append (frontalKeys_refreshed replaced c)
      (frontalKeys_refreshedList replaced rest)
end

/-- C24: when `UpdateDoglegDeltas` returns for a forest whose frontal keys are pairwise
different, then for every refreshed clique, with `gF` and `gS` the gradients gathered in order
for its frontal and its separator keys: a frontal key has in the new `RgProd` the segment of
the product `R * gF + S * gS` that starts at the sum of the lengths of the `RgProd` entries of
the frontal keys before it and has the length of its own entry, and the concatenation in
frontal order of the new entries of the frontal keys is the product cut to the sum of these
lengths, which is the product when the product has that length. -/
theorem UpdateDoglegDeltas_scatter (product : ISAM2Clique → Vector → Vector → Vector)
    (gradientAtZero : List ISAM2Clique → VectorValues)
    (optimizeWildfireNonRecursive :
      ISAM2Clique → Double → FastSet → VectorValues → Nat × VectorValues)
    (isam : List ISAM2Clique) (wildfireThreshold : Double) (replacedKeys : FastSet)
    (deltaNewton RgProd : VectorValues) (varsUpdated : Nat) (replacedKeys1 : FastSet)
    (deltaNewton1 RgProd1 : VectorValues)
    (hpart : (allFrontalsList isam).Nodup)
    (h : UpdateDoglegDeltas product gradientAtZero optimizeWildfireNonRecursive isam
        wildfireThreshold replacedKeys deltaNewton RgProd =
      .ok (varsUpdated, replacedKeys1, deltaNewton1, RgProd1))
    (c : ISAM2Clique) (hc : c ∈ refreshedList replacedKeys isam) :
    ∃ gF gS, (gradientAtZero isam).vector c.frontals = .ok gF ∧
      (gradientAtZero isam).vector c.parents = .ok gS ∧
      (∀ pre k post, c.frontals = pre ++ k :: post →
        RgProd1.find k =
          some (((product c gF gS).drop (dims RgProd pre)).take (rowsAt RgProd k))) ∧
      RgProd1.vector c.frontals = .ok ((product c gF gS).take (dims RgProd c.frontals)) ∧
      ((product c gF gS).rows = dims RgProd c.frontals →
        RgProd1.vector c.frontals = .ok (product c gF gS)) := by
  rw [UpdateDoglegDeltas_eq] at h
  cases hr : refreshAll product (gradientAtZero isam) (refreshedList replacedKeys isam)
      RgProd with
  | error e => simp [hr] at h
  | ok R1 =>
    simp only [hr, Except.ok.injEq, Prod.mk.injEq] at h
    obtain ⟨_, _, _, rfl⟩ := h
    obtain ⟨pre, post, hsplit⟩ := List.append_of_mem hc
    have hnd : (frontalKeys (refreshedList replacedKeys isam)).Nodup :=
      (frontalKeys_refreshedList replacedKeys isam).nodup hpart
    rw [hsplit] at hr hnd
    obtain ⟨gF, gS, hgF, hgS, hv1, hv2⟩ :=
      refreshAll_values product (gradientAtZero isam) pre post c RgProd R1 hr hnd
    refine ⟨gF, gS, hgF, hgS, hv1, hv2, ?_⟩
    intro hrows
    rw [hv2, ← hrows]
    exact congrArg Except.ok (List.take_length _)

/-- Witness of C24: a root with the frontal keys `x1, x2`, the replaced key `x2`, `R` the
identity and a zero `RgProd` with entries of length one: `x2` gets the segment that starts at
position `1`. -/
theorem UpdateDoglegDeltas_scatter_witness :
    ∃ gF gS, (chainGradient [pairRoot]).vector pairRoot.frontals = .ok gF ∧
      (chainGradient [pairRoot]).vector pairRoot.parents = .ok gS ∧
      (∀ pre k post, pairRoot.frontals = pre ++ k :: post →
        VectorValues.find [(1, [.fin (1 / 5)]), (2, [.fin (1 / 1000)])] k =
          some (((identityProduct pairRoot gF gS).drop
            (dims [(1, [.fin 0]), (2, [.fin 0])] pre)).take
              (rowsAt [(1, [.fin 0]), (2, [.fin 0])] k))) ∧
      VectorValues.vector [(1, [.fin (1 / 5)]), (2, [.fin (1 / 1000)])] pairRoot.frontals =
        .ok ((identityProduct pairRoot gF gS).take
          (dims [(1, [.fin 0]), (2, [.fin 0])] pairRoot.frontals)) ∧
      ((identityProduct pairRoot gF gS).rows =
          dims [(1, [.fin 0]), (2, [.fin 0])] pairRoot.frontals →
        VectorValues.vector [(1, [.fin (1 / 5)]), (2, [.fin (1 / 1000)])] pairRoot.frontals =
          .ok (identityProduct pairRoot gF gS)) :=
  UpdateDoglegDeltas_scatter identityProduct chainGradient noWildfire [pairRoot] 0 {2}
    pairDelta [(1, [.fin 0]), (2, [.fin 0])] 2 ∅ pairDelta
    [(1, [.fin (1 / 5)]), (2, [.fin (1 / 1000)])] (by decide) rfl pairRoot
    (by simp [refreshedList, refreshed, pairRoot])
/-! ### Dogleg deltas: what pruning leaves alone -/

theorem allFrontals_mem_list (child : ISAM2Clique) :
    ∀ (cs : List ISAM2Clique), child ∈ cs → ∀ k ∈ child.allFrontals, k ∈ allFrontalsList cs
  | [], h, _, _ => by simp at h
  | x :: rest, h, k, hk => by
    rw [allFrontalsList]
    rcases List.mem_cons.1 h with rfl | h
    · exact List.mem_append_left _ hk
    · exact List.mem_append_right _ (allFrontals_mem_list child rest h k hk)

theorem allFrontals_subtree (t c : ISAM2Clique) (h : InSubtree t c) :
    ∀ k ∈ c.allFrontals, k ∈ t.allFrontals := by
  induction h with
  | here => exact fun _ hk => hk
  | @descend a child d hchild _ ih =>
    intro k hk
    cases a with
    | mk f p ch =>
      rw [ISAM2Clique.allFrontals]
      exact List.mem_append_right _ (allFrontals_mem_list child ch hchild k (ih k hk))

theorem not_any_replaced (replaced : FastSet) (f p : List Key) (ch : List ISAM2Clique)
    (hno : ∀ k ∈ (ISAM2Clique.mk f p ch).keys, k ∉ replaced) :
    (f ++ p).any (fun j => decide (j ∈ replaced)) = false := by
  rw [List.any_eq_false]
  intro k hk
  simpa using hno k hk

mutual
theorem pruned_not_refreshed (replaced : FastSet) (c : ISAM2Clique)
    (hno : ∀ k ∈ c.keys, k ∉ replaced) :
    ∀ (t : ISAM2Clique), InSubtree t c → t.allFrontals.Nodup →
      ∀ k ∈ c.allFrontals, k ∉ frontalKeys (refreshed replaced t)
  | .mk f p ch, hsub, hnd, k, hk => by
    rw [inSubtree_mk] at hsub
    rcases hsub with rfl | ⟨child, hchild, hrest⟩
    · rw [refreshed, not_any_replaced replaced f p ch hno]
      simp [frontalKeys]
    · rw [refreshed]
      rw [ISAM2Clique.allFrontals, List.nodup_append] at hnd
      have hkch : k ∈ allFrontalsList ch :=
        allFrontals_mem_list child ch hchild k (allFrontals_subtree child c hrest k hk)
      by_cases hany : (f ++ p).any (fun j => decide (j ∈ replaced)) = true
      · rw [if_pos hany, frontalKeys, List.mem_append, not_or]
        exact ⟨fun hkf => hnd.2.2 hkf hkch,
          prunedList_not_refreshed replaced c hno ch child hchild hrest hnd.2.1 k hk⟩
      · rw [if_neg hany]
        simp [frontalKeys]
theorem prunedList_not_refreshed (replaced : FastSet) (c : ISAM2Clique)
    (hno : ∀ k ∈ c.keys, k ∉ replaced) :
    ∀ (cs : List ISAM2Clique) (child : ISAM2Clique), child ∈ cs → InSubtree child c →
      (allFrontalsList cs).Nodup →
      ∀ k ∈ c.allFrontals, k ∉ frontalKeys (refreshedList replaced cs)
  | [], _, h, _, _, _, _ => by simp at h
  | x :: rest, child, hmem, hsub, hnd, k, hk => by
    rw [allFrontalsList, List.nodup_append] at hnd
    rw [refreshedList, frontalKeys_append, List.mem_append, not_or]
    have hkchild : k ∈ child.allFrontals := allFrontals_subtree child c hsub k hk
    rcases List.mem_cons.1 hmem with heq | hmem1
    · subst heq
      exact ⟨pruned_not_refreshed replaced c hno child hsub hnd.1 k hk,
        fun hkr => hnd.2.2 hkchild ((frontalKeys_refreshedList replaced rest).subset hkr)⟩
    · exact ⟨fun hkx => hnd.2.2 ((frontalKeys_refreshed replaced x).subset hkx)
          (allFrontals_mem_list child rest hmem1 k hkchild),
        prunedList_not_refreshed replaced c hno rest child hmem1 hsub hnd.2.1 k hk⟩
end

/-- C25: a call of `updateDoglegDeltas` for a clique none of whose frontal and separator keys
is replaced returns `RgProd` and the count as they were, whatever its subtree holds.  When
`UpdateDoglegDeltas` returns, `RgProd` has the keys it had, in the same order, and every key
that is not a frontal key of a refreshed clique has the vector it had.  In a forest whose
frontal keys are pairwise different, the frontal keys of a clique without replaced key and of
its descendants are not frontal keys of refreshed cliques. -/
theorem updateDoglegDeltas_prunes (product : ISAM2Clique → Vector → Vector → Vector)
    (gradientAtZero : List ISAM2Clique → VectorValues)
    (optimizeWildfireNonRecursive :
      ISAM2Clique → Double → FastSet → VectorValues → Nat × VectorValues)
    (replacedKeys : FastSet) :
    (∀ (grad : VectorValues) (c : ISAM2Clique) (RgProd : VectorValues) (varsUpdated : Nat),
      (∀ k ∈ c.keys, k ∉ replacedKeys) →
      updateDoglegDeltas product replacedKeys grad c (RgProd, varsUpdated) =
        .ok (RgProd, varsUpdated)) ∧
    (∀ (isam : List ISAM2Clique) (wildfireThreshold : Double) (deltaNewton RgProd : VectorValues)
      (varsUpdated : Nat) (replacedKeys1 : FastSet) (deltaNewton1 RgProd1 : VectorValues),
      UpdateDoglegDeltas product gradientAtZero optimizeWildfireNonRecursive isam
          wildfireThreshold replacedKeys deltaNewton RgProd =
        .ok (varsUpdated, replacedKeys1, deltaNewton1, RgProd1) →
      RgProd1.map Prod.fst = RgProd.map Prod.fst ∧
        (∀ k, k ∉ frontalKeys (refreshedList replacedKeys isam) →
          RgProd1.find k = RgProd.find k) ∧
        varsUpdated = frontalCount (refreshedList replacedKeys isam)) ∧
    (∀ (isam : List ISAM2Clique), (allFrontalsList isam).Nodup →
      ∀ root ∈ isam, ∀ c, InSubtree root c → (∀ k ∈ c.keys, k ∉ replacedKeys) →
        ∀ d, InSubtree c d → ∀ k ∈ d.frontals,
          k ∉ frontalKeys (refreshedList replacedKeys isam)) := by
  refine ⟨?_, ?_, ?_⟩
  · intro grad c RgProd varsUpdated hno
    cases c with
    | mk f p ch =>
      rw [updateDoglegDeltas]
      simp only [not_any_replaced replacedKeys f p ch hno]
      rfl
  · intro isam thr dN RgProd n rk dN1 RgProd1 h
    rw [UpdateDoglegDeltas_eq] at h
    cases hr : refreshAll product (gradientAtZero isam) (refreshedList replacedKeys isam)
        RgProd with
    | error e => simp [hr] at h
    | ok R1 =>
      simp only [hr, Except.ok.injEq, Prod.mk.injEq] at h
      obtain ⟨hn, _, _, rfl⟩ := h
      obtain ⟨h1, _, h3⟩ := refreshAll_frame product (gradientAtZero isam) _ RgProd R1 hr
      exact ⟨h1, h3, hn.symm⟩
  · intro isam hnd root hroot c hsub hno d hd k hk
    apply prunedList_not_refreshed replacedKeys c hno isam root hroot hsub hnd k
    apply allFrontals_subtree c d hd k
    cases d with
    | mk f p ch =>
      rw [ISAM2Clique.allFrontals]
      exact List.mem_append_left _ hk

/-! ### Dogleg deltas: pruning against an exhaustive traversal -/

theorem hasReplaced_mk (replaced : FastSet) (f p : List Key) (ch : List ISAM2Clique) :
    hasReplaced replaced (.mk f p ch) = (f ++ p).any (fun j => decide (j ∈ replaced)) := rfl

theorem replacedFromAboveList_cons (replaced : FastSet) (keys : List Key) (c : ISAM2Clique)
    (rest : List ISAM2Clique) (h : replacedFromAboveList replaced keys (c :: rest) = true) :
    ((keys.any (fun j => decide (j ∈ replaced)) = false → hasReplaced replaced c = false) ∧
      replacedFromAbove replaced c = true) ∧
      replacedFromAboveList replaced keys rest = true := by
  rw [replacedFromAboveList] at h
  simp only [Bool.and_eq_true, Bool.or_eq_true, Bool.not_eq_true'] at h
  obtain ⟨⟨⟨hsep, hfront⟩, hc⟩, hrest⟩ := h
  refine ⟨⟨?_, hc⟩, hrest⟩
  intro hkeys
  have hf : c.frontals.any (fun j => decide (j ∈ replaced)) = false := by
    rcases hfront with hf | hk
    · exact hf
    · rw [hkeys] at hk
      cases hk
  rw [List.any_eq_false] at hkeys hf
  rw [List.all_eq_true] at hsep
  unfold hasReplaced ISAM2Clique.keys
  rw [List.any_eq_false]
  intro k hk
  rcases List.mem_append.1 hk with hk | hk
  · exact hf k hk
  · exact hkeys k (by simpa using hsep k hk)

theorem replacedFromAboveList_mem (replaced : FastSet) (keys : List Key)
    (child : ISAM2Clique) :
    ∀ (cs : List ISAM2Clique), replacedFromAboveList replaced keys cs = true → child ∈ cs →
      (keys.any (fun j => decide (j ∈ replaced)) = false →
        hasReplaced replaced child = false) ∧
        replacedFromAbove replaced child = true
  | [], _, hmem => by simp at hmem
  | c :: rest, h, hmem => by
    obtain ⟨hc, hrest⟩ := replacedFromAboveList_cons replaced keys c rest h
    rcases List.mem_cons.1 hmem with rfl | hmem1
    · exact hc
    · exact replacedFromAboveList_mem replaced keys child rest hrest hmem1

theorem replaced_closed (replaced : FastSet) (c d : ISAM2Clique) (h : InSubtree c d) :
    replacedFromAbove replaced c = true →
      (replacedFromAbove replaced d = true) ∧
        (hasReplaced replaced c = false → hasReplaced replaced d = false) := by
  induction h with
  | here => exact fun hc => ⟨hc, fun hno => hno⟩
  | @descend a child d hchild _ ih =>
    intro ha
    cases a with
    | mk f p ch =>
      rw [replacedFromAbove] at ha
      obtain ⟨hno, hfrom⟩ := replacedFromAboveList_mem replaced (f ++ p) child ch ha hchild
      obtain ⟨hd, hnod⟩ := ih hfrom
      refine ⟨hd, fun hna => hnod (hno ?_)⟩
      rw [← hasReplaced_mk replaced f p ch]
      exact hna

mutual
theorem preorder_filter_nil (replaced : FastSet) :
    ∀ (c : ISAM2Clique), replacedFromAbove replaced c = true →
      hasReplaced replaced c = false → c.preorder.filter (hasReplaced replaced) = []
  | .mk f p ch, h, hno => by
    rw [ISAM2Clique.preorder, List.filter_cons_of_neg (by simp [hno])]
    rw [replacedFromAbove] at h
    exact preorderList_filter_nil replaced ch (f ++ p) h
      (by rw [← hasReplaced_mk replaced f p ch]; exact hno)
theorem preorderList_filter_nil (replaced : FastSet) :
    ∀ (cs : List ISAM2Clique) (keys : List Key),
      replacedFromAboveList replaced keys cs = true →
      keys.any (fun j => decide (j ∈ replaced)) = false →
      (preorderList cs).filter (hasReplaced replaced) = []
  | [], _, _, _ => rfl
  | c :: rest, keys, h, hno => by
    obtain ⟨⟨hc, hfrom⟩, hrest⟩ := replacedFromAboveList_cons replaced keys c rest h
    rw [preorderList, List.filter_append, preorder_filter_nil replaced c hfrom (hc hno),
      preorderList_filter_nil replaced rest keys hrest hno]
    rfl
end

mutual
theorem refreshed_eq_filter (replaced : FastSet) :
    ∀ (c : ISAM2Clique), replacedFromAbove replaced c = true →
      refreshed replaced c = c.preorder.filter (hasReplaced replaced)
  | .mk f p ch, h => by
    rw [refreshed]
    by_cases hany : (f ++ p).any (fun j => decide (j ∈ replaced)) = true
    · rw [if_pos hany, ISAM2Clique.preorder,
        List.filter_cons_of_pos (by rw [hasReplaced_mk]; exact hany)]
      rw [replacedFromAbove] at h
      rw [refreshedList_eq_filter replaced ch (f ++ p) h]
    · rw [if_neg hany]
      exact (preorder_filter_nil replaced (.mk f p ch) h
        (by rw [hasReplaced_mk]; simpa using hany)).symm
theorem refreshedList_eq_filter (replaced : FastSet) :
    ∀ (cs : List ISAM2Clique) (keys : List Key),
      replacedFromAboveList replaced keys cs = true →
      refreshedList replaced cs = (preorderList cs).filter (hasReplaced replaced)
  | [], _, _ => rfl
  | c :: rest, keys, h => by
    obtain ⟨⟨_, hfrom⟩, hrest⟩ := replacedFromAboveList_cons replaced keys c rest h
    rw [refreshedList, preorderList, List.filter_append, refreshed_eq_filter replaced c hfrom,
      refreshedList_eq_filter replaced rest keys hrest]
end

theorem refreshedRoots_eq_filter (replaced : FastSet) :
    ∀ (roots : List ISAM2Clique), (∀ r ∈ roots, replacedFromAbove replaced r = true) →
      refreshedList replaced roots = (preorderList roots).filter (hasReplaced replaced)
  | [], _ => rfl
  | c :: rest, h => by
    rw [refreshedList, preorderList, List.filter_append,
      refreshed_eq_filter replaced c (h c (List.mem_cons_self _ _)),
      refreshedRoots_eq_filter replaced rest (fun r hr => h r (List.mem_cons_of_mem _ hr))]

/-- C26, as stated, fails: the chain satisfies the running-separator property, and with the
replaced key `x2` its root holds no replaced key while the middle clique and the leaf below it
do; the pruned traversal refreshes nothing and returns `0`, the exhaustive one refreshes two
cliques. -/
theorem UpdateDoglegDeltas_pruning_counterexample :
    runningSeparatorList [] [chainRoot] = true ∧
      hasReplaced {2} chainRoot = false ∧
      InSubtree chainRoot chainMiddle ∧ hasReplaced {2} chainMiddle = true ∧
      UpdateDoglegDeltas identityProduct chainGradient noWildfire [chainRoot] 0 {2}
          chainDelta [(1, [.fin 0]), (2, [.fin 0]), (3, [.fin 0])] =
        .ok (0, ∅, chainDelta, [(1, [.fin 0]), (2, [.fin 0]), (3, [.fin 0])]) ∧
      exhaustiveDoglegDeltas identityProduct (chainGradient [chainRoot]) {2} [chainRoot]
          [(1, [.fin 0]), (2, [.fin 0]), (3, [.fin 0])] =
        .ok (2, [(1, [.fin 0]), (2, [.fin (1 / 1000)]), (3, [.fin (1 / 2)])]) :=
  ⟨by decide, by decide,
    InSubtree.descend (List.mem_cons_self _ _) (InSubtree.here _), by decide, rfl, rfl⟩

/-- C26, amended: in a forest where the separator keys of every clique are keys of its parent
clique and every clique below a root that holds a replaced frontal key has a parent that holds
a replaced key, a clique of the forest without replaced key has none in its subtree, the
refreshed cliques are the cliques of the forest that hold a replaced key, in traversal order,
and `UpdateDoglegDeltas` gives the count and the `RgProd` of the exhaustive traversal, or fails
as it does. -/
theorem UpdateDoglegDeltas_pruning_exact (product : ISAM2Clique → Vector → Vector → Vector)
    (gradientAtZero : List ISAM2Clique → VectorValues)
    (optimizeWildfireNonRecursive :
      ISAM2Clique → Double → FastSet → VectorValues → Nat × VectorValues)
    (isam : List ISAM2Clique) (wildfireThreshold : Double) (replacedKeys : FastSet)
    (deltaNewton RgProd : VectorValues)
    (hfrom : ∀ r ∈ isam, replacedFromAbove replacedKeys r = true) :
    (∀ r ∈ isam, ∀ c, InSubtree r c → hasReplaced replacedKeys c = false →
      ∀ d, InSubtree c d → hasReplaced replacedKeys d = false) ∧
    refreshedList replacedKeys isam =
      (preorderList isam).filter (hasReplaced replacedKeys) ∧
    Except.map (fun r => (r.1, r.2.2.2))
        (UpdateDoglegDeltas product gradientAtZero optimizeWildfireNonRecursive isam
          wildfireThreshold replacedKeys deltaNewton RgProd) =
      exhaustiveDoglegDeltas product (gradientAtZero isam) replacedKeys isam RgProd := by
  have hlist := refreshedRoots_eq_filter replacedKeys isam hfrom
  refine ⟨?_, hlist, ?_⟩
  · intro r hr c hc hno d hd
    exact (replaced_closed replacedKeys c d hd
      (replaced_closed replacedKeys r c hc (hfrom r hr)).1).2 hno
  · rw [UpdateDoglegDeltas_eq, exhaustiveDoglegDeltas, ← hlist]
    cases hr : refreshAll product (gradientAtZero isam) (refreshedList replacedKeys isam)
        RgProd with
    | error e => rfl
    | ok R1 => rfl

/-- Witness of C26: the chain with the replaced key `x1`, which the root and the middle clique
hold: two frontal keys are refreshed by both traversals. -/
theorem UpdateDoglegDeltas_pruning_exact_witness :
    ((∀ r ∈ [chainRoot], ∀ c, InSubtree r c → hasReplaced {1} c = false →
      ∀ d, InSubtree c d → hasReplaced {1} d = false) ∧
    refreshedList {1} [chainRoot] = (preorderList [chainRoot]).filter (hasReplaced {1}) ∧
    Except.map (fun r => (r.1, r.2.2.2))
        (UpdateDoglegDeltas identityProduct chainGradient noWildfire [chainRoot] 0 {1}
          chainDelta [(1, [.fin 0]), (2, [.fin 0]), (3, [.fin 0])]) =
      exhaustiveDoglegDeltas identityProduct (chainGradient [chainRoot]) {1} [chainRoot]
        [(1, [.fin 0]), (2, [.fin 0]), (3, [.fin 0])]) ∧
    exhaustiveDoglegDeltas identityProduct (chainGradient [chainRoot]) {1} [chainRoot]
        [(1, [.fin 0]), (2, [.fin 0]), (3, [.fin 0])] =
      .ok (2, [(1, [.fin (1 / 5)]), (2, [.fin (1 / 1000)]), (3, [.fin 0])]) :=
  ⟨UpdateDoglegDeltas_pruning_exact identityProduct chainGradient noWildfire [chainRoot] 0 {1}
    chainDelta [(1, [.fin 0]), (2, [.fin 0]), (3, [.fin 0])] (by decide), rfl⟩

/-! ### Fixed-lag smoother: the two indexes -/

theorem lookup_mapAssign {α : Type} (key : Key) (v : α) (k : Key) :
    ∀ (store : List (Key × α)),
      List.lookup k (mapAssign key v store) =
        if k = key then (List.lookup k store).map (fun _ => v) else List.lookup k store
  | [] => by simp [mapAssign]
  | (a, b) :: rest => by
    have ih := lookup_mapAssign key v k rest
    unfold mapAssign at ih ⊢
    rw [List.map_cons]
    by_cases ha : a = key
    · subst ha
      by_cases hk : k = a
      · subst hk
        simp [List.lookup_cons]
      · have hb : (k == a) = false := by simpa using hk
        simp only [if_true, List.lookup_cons, hb, ih, if_neg hk]
    · simp only [if_neg ha]
      by_cases hk : k = a
      · subst hk
        simp [List.lookup_cons, ha]
      · have hb : (k == a) = false := by simpa using hk
        simp only [List.lookup_cons, hb, ih]

theorem lookup_mapInsert {α : Type} (key : Key) (v : α) (k : Key) :
    ∀ (store : List (Key × α)), List.lookup key store = none →
      List.lookup k (mapInsert key v store) =
        if k = key then some v else List.lookup k store
  | [], _ => by
    by_cases hk : k = key
    · subst hk
      simp [mapInsert, List.lookup_cons]
    · have hb : (k == key) = false := by simpa using hk
      simp [mapInsert, List.lookup_cons, hb, hk]
  | (a, b) :: rest, h => by
    have hne : key ≠ a := by
      intro hka
      subst hka
      simp [List.lookup_cons] at h
    have hb : (key == a) = false := by simpa using hne
    rw [List.lookup_cons, hb] at h
    have ih := lookup_mapInsert key v k rest h
    unfold mapInsert
    by_cases hlt : key < a
    · rw [if_pos hlt]
      by_cases hk : k = key
      · subst hk
        simp [List.lookup_cons]
      · have hb1 : (k == key) = false := by simpa using hk
        rw [List.lookup_cons, hb1, if_neg hk]
    · rw [if_neg hlt]
      by_cases hk : k = a
      · subst hk
        have hkk : k ≠ key := fun e => hne e.symm
        simp [List.lookup_cons, hkk]
      · have hb1 : (k == a) = false := by simpa using hk
        rw [List.lookup_cons, hb1, ih, List.lookup_cons, hb1]

theorem lookup_mapErase {α : Type} (key : Key) (k : Key) :
    ∀ (store : List (Key × α)),
      List.lookup k (mapErase store key) = if k = key then none else List.lookup k store
  | [] => by simp [mapErase]
  | (a, b) :: rest => by
    have ih := lookup_mapErase key k rest
    unfold mapErase at ih ⊢
    by_cases ha : a = key
    · subst ha
      rw [List.filter_cons_of_neg (by simp), ih]
      by_cases hk : k = a
      · simp [hk]
      · have hb : (k == a) = false := by simpa using hk
        rw [if_neg hk, if_neg hk, List.lookup_cons, hb]
    · rw [List.filter_cons_of_pos (by simpa using ha)]
      by_cases hk : k = a
      · subst hk
        simp [List.lookup_cons, ha]
      · have hb : (k == a) = false := by simpa using hk
        rw [List.lookup_cons, hb, ih, List.lookup_cons, hb]

theorem insert_perm (t : Double) (k : Key) :
    ∀ (m : TimestampKeyMap), (TimestampKeyMap.insert m t k).Perm ((t, k) :: m)
  | [] => List.Perm.refl _
  | e :: rest => by
    unfold TimestampKeyMap.insert
    by_cases hlt : t < e.1
    · rw [if_pos hlt]
    · rw [if_neg hlt]
      exact ((insert_perm t k rest).cons e).trans (List.Perm.swap _ _ _)

theorem insert_ordered (t : Double) (k : Key) :
    ∀ (m : TimestampKeyMap), m.Ordered → (TimestampKeyMap.insert m t k).Ordered
  | [], _ => by simp [TimestampKeyMap.insert, TimestampKeyMap.Ordered]
  | e :: rest, h => by
    unfold TimestampKeyMap.Ordered at h ⊢
    rw [List.pairwise_cons] at h
    unfold TimestampKeyMap.insert
    by_cases hlt : t < e.1
    · rw [if_pos hlt, List.pairwise_cons, List.pairwise_cons]
      refine ⟨?_, h⟩
      intro x hx
      rcases List.mem_cons.1 hx with rfl | hx
      · exact le_of_lt hlt
      · exact le_trans (le_of_lt hlt) (h.1 x hx)
    · rw [if_neg hlt, List.pairwise_cons]
      refine ⟨?_, insert_ordered t k rest h.2⟩
      intro x hx
      rcases List.mem_cons.1 ((insert_perm t k rest).mem_iff.1 hx) with rfl | hx
      · exact not_lt.1 hlt
      · exact h.1 x hx

theorem eraseIdx_perm {α : Type} :
    ∀ (m : List α) (i : Nat) (e : α), m[i]? = some e → m.Perm (e :: m.eraseIdx i)
  | [], i, e, h => by simp at h
  | a :: rest, 0, e, h => by
    simp only [List.getElem?_cons_zero, Option.some.injEq] at h
    subst h
    exact List.Perm.refl _
  | a :: rest, i + 1, e, h => by
    rw [List.getElem?_cons_succ] at h
    rw [List.eraseIdx_cons_succ]
    exact ((eraseIdx_perm rest i e h).cons a).trans (List.Perm.swap _ _ _)

theorem take_takeWhile_length {α : Type} (p : α → Bool) :
    ∀ (m : List α), m.take (m.takeWhile p).length = m.takeWhile p
  | [] => rfl
  | a :: rest => by
    cases hp : p a with
    | false => simp [List.takeWhile_cons, hp]
    | true => simp [List.takeWhile_cons, hp, take_takeWhile_length p rest]

theorem drop_takeWhile_length {α : Type} (p : α → Bool) :
    ∀ (m : List α), m.drop (m.takeWhile p).length = m.dropWhile p
  | [] => rfl
  | a :: rest => by
    cases hp : p a with
    | false => simp [List.takeWhile_cons, List.dropWhile_cons, hp]
    | true => simp [List.takeWhile_cons, List.dropWhile_cons, hp, drop_takeWhile_length p rest]

theorem mem_takeWhile_below (t : Double) (e : Double × Key) :
    ∀ (m : TimestampKeyMap), m.Ordered →
      (e ∈ m.takeWhile (fun x => decide (x.1 < t)) ↔ e ∈ m ∧ e.1 < t)
  | [], _ => by simp
  | a :: rest, h => by
    unfold TimestampKeyMap.Ordered at h
    rw [List.pairwise_cons] at h
    have ih := mem_takeWhile_below t e rest h.2
    by_cases ha : a.1 < t
    · rw [List.takeWhile_cons_of_pos (by simpa using ha), List.mem_cons, ih, List.mem_cons]
      constructor
      · rintro (rfl | ⟨h1, h2⟩)
        · exact ⟨Or.inl rfl, ha⟩
        · exact ⟨Or.inr h1, h2⟩
      · rintro ⟨rfl | h1, h2⟩
        · exact Or.inl rfl
        · exact Or.inr ⟨h1, h2⟩
    · rw [List.takeWhile_cons_of_neg (by simpa using ha)]
      constructor
      · intro hmem
        simp at hmem
      · rintro ⟨hmem, hlt⟩
        exfalso
        rcases List.mem_cons.1 hmem with rfl | hmem
        · exact ha hlt
        · exact ha (lt_of_le_of_lt (h.1 e hmem) hlt)

theorem mem_dropWhile_below (t : Double) (e : Double × Key) :
    ∀ (m : TimestampKeyMap), m.Ordered →
      (e ∈ m.dropWhile (fun x => decide (x.1 < t)) ↔ e ∈ m ∧ t ≤ e.1)
  | [], _ => by simp
  | a :: rest, h => by
    unfold TimestampKeyMap.Ordered at h
    rw [List.pairwise_cons] at h
    have ih := mem_dropWhile_below t e rest h.2
    by_cases ha : a.1 < t
    · rw [List.dropWhile_cons_of_pos (by simpa using ha), ih, List.mem_cons]
      constructor
      · rintro ⟨h1, h2⟩
        exact ⟨Or.inr h1, h2⟩
      · rintro ⟨rfl | h1, h2⟩
        · exact absurd ha (not_lt.2 h2)
        · exact ⟨h1, h2⟩
    · rw [List.dropWhile_cons_of_neg (by simpa using ha)]
      constructor
      · intro hmem
        refine ⟨hmem, ?_⟩
        rcases List.mem_cons.1 hmem with rfl | hmem
        · exact not_lt.1 ha
        · exact le_trans (not_lt.1 ha) (h.1 e hmem)
      · exact fun hmem => hmem.1

theorem mem_dropWhile_upto (t : Double) (e : Double × Key) :
    ∀ (m : TimestampKeyMap), m.Ordered →
      (e ∈ m.dropWhile (fun x => decide (x.1 ≤ t)) ↔ e ∈ m ∧ t < e.1)
  | [], _ => by simp
  | a :: rest, h => by
    unfold TimestampKeyMap.Ordered at h
    rw [List.pairwise_cons] at h
    have ih := mem_dropWhile_upto t e rest h.2
    by_cases ha : a.1 ≤ t
    · rw [List.dropWhile_cons_of_pos (by simpa using ha), ih, List.mem_cons]
      constructor
      · rintro ⟨h1, h2⟩
        exact ⟨Or.inr h1, h2⟩
      · rintro ⟨rfl | h1, h2⟩
        · exact absurd ha (not_le.2 h2)
        · exact ⟨h1, h2⟩
    · rw [List.dropWhile_cons_of_neg (by simpa using ha)]
      constructor
      · intro hmem
        refine ⟨hmem, ?_⟩
        rcases List.mem_cons.1 hmem with rfl | hmem
        · exact not_le.1 ha
        · exact lt_of_lt_of_le (not_le.1 ha) (h.1 e hmem)
      · exact fun hmem => hmem.1

namespace FixedLagSmoother

theorem agree_mem (s : FixedLagSmoother) (h : s.IndexesAgree) (t : Double) (k : Key) :
    (t, k) ∈ s.timestampKeyMap_ ↔ List.lookup k s.keyTimestampMap_ = some t := by
  have hc := h t k
  constructor
  · intro hmem
    by_contra hne
    rw [if_neg hne] at hc
    exact (List.countP_eq_zero.1 hc) (t, k) hmem (by simp)
  · intro hl
    rw [if_pos hl] at hc
    obtain ⟨a, ha, hp⟩ := List.countP_pos_iff.1
      (show 0 < List.countP (fun e => decide (e = (t, k))) s.timestampKeyMap_ by omega)
    have : a = (t, k) := by simpa using hp
    exact this ▸ ha

theorem searchLoop_finds (key : Key) (target : Double × Key) (htk : target.2 = key) :
    ∀ (l : List (Double × Key)) (i : Nat), target ∈ l →
      (∀ e ∈ l, e.2 = key → e = target) →
      ∃ n, searchLoop key l i = .ok (i + n) ∧ l[n]? = some target
  | [], _, h, _ => by simp at h
  | e :: rest, i, h, huniq => by
    unfold searchLoop
    by_cases he : e.2 = key
    · have heq := huniq e (List.mem_cons_self _ _) he
      subst heq
      exact ⟨0, by simp [he], by simp⟩
    · rw [if_pos he]
      have hrest : target ∈ rest := by
        rcases List.mem_cons.1 h with rfl | h
        · exact absurd htk he
        · exact h
      obtain ⟨n, h1, h2⟩ := searchLoop_finds key target htk rest (i + 1) hrest
        (fun x hx => huniq x (List.mem_cons_of_mem _ hx))
      refine ⟨n + 1, ?_, by simpa using h2⟩
      rw [h1]
      congr 1
      omega

theorem takeWhile_length_le {α : Type} (p : α → Bool) :
    ∀ (m : List α) (i : Nat) (e : α), m[i]? = some e → p e = false →
      (m.takeWhile p).length ≤ i
  | [], i, e, h, _ => by simp at h
  | a :: rest, 0, e, h, hp => by
    simp only [List.getElem?_cons_zero, Option.some.injEq] at h
    subst h
    simp [List.takeWhile_cons, hp]
  | a :: rest, i + 1, e, h, hp => by
    rw [List.getElem?_cons_succ] at h
    have ih := takeWhile_length_le p rest i e h hp
    cases hpa : p a with
    | false => simp [List.takeWhile_cons, hpa]
    | true =>
      simp only [List.takeWhile_cons, hpa, if_true, List.length_cons]
      omega

theorem lt_upper_bound (t : Double) :
    ∀ (m : TimestampKeyMap) (i : Nat) (e : Double × Key), m.Ordered → m[i]? = some e →
      e.1 ≤ t → i < m.upper_bound t
  | [], i, e, _, h, _ => by simp at h
  | a :: rest, 0, e, _, h, ht => by
    simp only [List.getElem?_cons_zero, Option.some.injEq] at h
    subst h
    simp [TimestampKeyMap.upper_bound, List.takeWhile_cons, ht]
  | a :: rest, i + 1, e, hs, h, ht => by
    unfold TimestampKeyMap.Ordered at hs
    rw [List.pairwise_cons] at hs
    rw [List.getElem?_cons_succ] at h
    have ih := lt_upper_bound t rest i e hs.2 h ht
    have hat : a.1 ≤ t := le_trans (hs.1 e (List.getElem?_mem h)) ht
    unfold TimestampKeyMap.upper_bound at ih ⊢
    simp only [List.takeWhile_cons, hat, decide_True, if_true, List.length_cons]
    omega

theorem search_in_range (s : FixedLagSmoother) (hord : s.timestampKeyMap_.Ordered)
    (hagree : s.IndexesAgree) (key : Key) (old : Double)
    (hold : List.lookup key s.keyTimestampMap_ = some old) :
    ∃ timeIter,
      searchLoop key (s.timestampKeyMap_.drop (s.timestampKeyMap_.lower_bound old))
        (s.timestampKeyMap_.lower_bound old) = .ok timeIter ∧
      s.timestampKeyMap_.lower_bound old ≤ timeIter ∧
      timeIter < s.timestampKeyMap_.upper_bound old ∧
      s.timestampKeyMap_[timeIter]? = some (old, key) := by
  have hmem : (old, key) ∈ s.timestampKeyMap_ := (agree_mem s hagree old key).2 hold
  have hdrop : s.timestampKeyMap_.drop (s.timestampKeyMap_.lower_bound old) =
      s.timestampKeyMap_.dropWhile (fun x => decide (x.1 < old)) :=
    drop_takeWhile_length _ _
  obtain ⟨n, h1, h2⟩ := searchLoop_finds key (old, key) rfl
    (s.timestampKeyMap_.drop (s.timestampKeyMap_.lower_bound old))
    (s.timestampKeyMap_.lower_bound old)
    (by
      rw [hdrop, mem_dropWhile_below old (old, key) _ hord]
      exact ⟨hmem, le_refl _⟩)
    (by
      intro e he hk
      have hem : e ∈ s.timestampKeyMap_ := List.mem_of_mem_drop he
      have hl := (agree_mem s hagree e.1 e.2).1 hem
      rw [hk, hold] at hl
      have h1 : e.1 = old := (Option.some.inj hl).symm
      exact Prod.ext h1 hk)
  rw [List.getElem?_drop] at h2
  exact ⟨_, h1, Nat.le_add_right _ _, lt_upper_bound old _ _ _ hord h2 (le_refl _), h2⟩

theorem eraseLoop_eq_filter (ts : Double) (key : Key) :
    ∀ (l : TimestampKeyMap), l.Ordered → (∀ e ∈ l, ts ≤ e.1) →
      eraseLoop ts key l = l.filter (fun e => decide (e ≠ (ts, key)))
  | [], _, _ => rfl
  | e :: rest, hs, hge => by
    unfold TimestampKeyMap.Ordered at hs
    rw [List.pairwise_cons] at hs
    have ih := eraseLoop_eq_filter ts key rest hs.2
      (fun x hx => hge x (List.mem_cons_of_mem _ hx))
    unfold eraseLoop
    by_cases h1 : e.1 = ts
    · rw [if_pos h1]
      by_cases h2 : e.2 = key
      · rw [if_pos h2, ih, List.filter_cons_of_neg]
        have : e = (ts, key) := Prod.ext h1 h2
        simp [this]
      · rw [if_neg h2, ih, List.filter_cons_of_pos]
        have : e ≠ (ts, key) := fun he => h2 (by rw [he])
        simpa using this
    · rw [if_neg h1]
      symm
      rw [List.filter_eq_self]
      intro x hx
      have hlt : ts < e.1 := lt_of_le_of_ne (hge e (List.mem_cons_self _ _)) (Ne.symm h1)
      have hxlt : ts < x.1 := by
        rcases List.mem_cons.1 hx with rfl | hx
        · exact hlt
        · exact lt_of_lt_of_le hlt (hs.1 x hx)
      have : x ≠ (ts, key) := fun he => by
        rw [he] at hxlt
        exact lt_irrefl _ hxlt
      simpa using this

theorem erase_eq_filter (m : TimestampKeyMap) (hord : m.Ordered) (ts : Double) (key : Key) :
    m.take (m.lower_bound ts) ++ eraseLoop ts key (m.drop (m.lower_bound ts)) =
      m.filter (fun e => decide (e ≠ (ts, key))) := by
  have htake : m.take (m.lower_bound ts) = m.takeWhile (fun x => decide (x.1 < ts)) :=
    take_takeWhile_length _ _
  have hdrop : m.drop (m.lower_bound ts) = m.dropWhile (fun x => decide (x.1 < ts)) :=
    drop_takeWhile_length _ _
  have hsub : (m.dropWhile (fun x => decide (x.1 < ts))).Sublist m :=
    List.dropWhile_sublist _
  rw [htake, hdrop, eraseLoop_eq_filter ts key _ (List.Pairwise.sublist hsub hord)
    (fun e he => ((mem_dropWhile_below ts e m hord).1 he).2)]
  have hkeep : (m.takeWhile (fun x => decide (x.1 < ts))).filter
      (fun e => decide (e ≠ (ts, key))) = m.takeWhile (fun x => decide (x.1 < ts)) := by
    rw [List.filter_eq_self]
    intro x hx
    have hlt := ((mem_takeWhile_below ts x m hord).1 hx).2
    have : x ≠ (ts, key) := fun he => by
      rw [he] at hlt
      exact lt_irrefl _ hlt
    simpa using this
  rw [← hkeep, ← List.filter_append, List.takeWhile_append_dropWhile]

theorem updateKeyTimestamp_spec (s : FixedLagSmoother) (hord : s.timestampKeyMap_.Ordered)
    (hagree : s.IndexesAgree) (key : Key) (timestamp : Double) :
    ∃ s1, updateKeyTimestamp s key timestamp = .ok s1 ∧ s1.timestampKeyMap_.Ordered ∧
      s1.IndexesAgree ∧ s1.smootherLag_ = s.smootherLag_ ∧
      ∀ k, List.lookup k s1.keyTimestampMap_ =
        if k = key then some timestamp else List.lookup k s.keyTimestampMap_ := by
  unfold updateKeyTimestamp
  cases hold : List.lookup key s.keyTimestampMap_ with
  | none =>
    have hlook := fun k => lookup_mapInsert key timestamp k s.keyTimestampMap_ hold
    refine ⟨_, rfl, insert_ordered timestamp key _ hord, ?_, rfl, hlook⟩
    intro t k
    simp only
    rw [(insert_perm timestamp key s.timestampKeyMap_).countP_eq, List.countP_cons,
      hagree t k, hlook k]
    by_cases hk : k = key
    · subst hk
      rw [hold]
      by_cases ht : t = timestamp
      · subst ht
        simp
      · have h1 : ¬ some timestamp = some t := fun e => ht (Option.some.inj e).symm
        have h2 : ¬ timestamp = t := fun e => ht e.symm
        simp [h1, h2]
    · have h2 : ¬ key = k := fun e => hk e.symm
      simp [hk, h2]
  | some old =>
    obtain ⟨i, hi, _, _, hget⟩ := search_in_range s hord hagree key old hold
    have hlook : ∀ k, List.lookup k (mapAssign key timestamp s.keyTimestampMap_) =
        if k = key then some timestamp else List.lookup k s.keyTimestampMap_ := by
      intro k
      rw [lookup_mapAssign]
      by_cases hk : k = key
      · subst hk
        simp [hold]
      · simp [hk]
    simp only [hi]
    refine ⟨_, rfl, insert_ordered timestamp key _
      (List.Pairwise.sublist (List.eraseIdx_sublist _ _) hord), ?_, rfl, hlook⟩
    intro t k
    simp only
    have hperm := (eraseIdx_perm s.timestampKeyMap_ i (old, key) hget).countP_eq
      (fun e => decide (e = (t, k)))
    rw [List.countP_cons, hagree t k] at hperm
    rw [(insert_perm timestamp key _).countP_eq, List.countP_cons, hlook k]
    by_cases hk : k = key
    · subst hk
      rw [hold] at hperm
      simp only [if_true, Option.some.injEq, Prod.mk.injEq, and_true, decide_eq_true_eq]
        at hperm ⊢
      by_cases e1 : old = t <;> by_cases e2 : timestamp = t <;>
        simp only [e1, e2, if_true, if_false] at hperm ⊢ <;> omega
    · have h2 : ¬ key = k := fun e => hk e.symm
      rw [if_neg hk]
      simp only [Prod.mk.injEq, h2, and_false, decide_False, Bool.false_eq_true, if_false,
        Nat.add_zero] at hperm ⊢
      exact hperm.symm

theorem updateKeyTimestampMap_spec :
    ∀ (timestamps : KeyTimestampMap) (s : FixedLagSmoother), s.timestampKeyMap_.Ordered →
      s.IndexesAgree →
      ∃ s1, updateKeyTimestampMap s timestamps = .ok s1 ∧ s1.timestampKeyMap_.Ordered ∧
        s1.IndexesAgree ∧ s1.smootherLag_ = s.smootherLag_ ∧
        ((timestamps.map Prod.fst).Nodup →
          ∀ k, List.lookup k s1.keyTimestampMap_ =
            match List.lookup k timestamps with
            | some t => some t
            | none => List.lookup k s.keyTimestampMap_)
  | [], s, hord, hagree => ⟨s, rfl, hord, hagree, rfl, fun _ _ => rfl⟩
  | (key, timestamp) :: rest, s, hord, hagree => by
    obtain ⟨s2, h2, hord2, hagree2, hlag2, hlook2⟩ :=
      updateKeyTimestamp_spec s hord hagree key timestamp
    obtain ⟨s1, h1, hord1, hagree1, hlag1, hlook1⟩ :=
      updateKeyTimestampMap_spec rest s2 hord2 hagree2
    refine ⟨s1, by simp [updateKeyTimestampMap, h2, h1], hord1, hagree1, hlag1.trans hlag2, ?_⟩
    intro hnd k
    rw [List.map_cons, List.nodup_cons] at hnd
    rw [hlook1 hnd.2 k, hlook2 k]
    by_cases hk : k = key
    · subst hk
      have hnone : List.lookup k rest = none := by
        cases hl : List.lookup k rest with
        | none => rfl
        | some v => exact absurd (List.mem_map_of_mem Prod.fst (lookup_mem rest k v hl)) hnd.1
      simp [hnone, List.lookup_cons]
    · have hb : (k == key) = false := by simpa using hk
      simp only [List.lookup_cons, hb, if_neg hk]

theorem eraseKeyTimestamp_spec (s : FixedLagSmoother) (hord : s.timestampKeyMap_.Ordered)
    (hagree : s.IndexesAgree) (key : Key) (old : Double)
    (hold : List.lookup key s.keyTimestampMap_ = some old) :
    ∃ s1, eraseKeyTimestamp s key = .ok s1 ∧ s1.timestampKeyMap_.Ordered ∧
      s1.IndexesAgree ∧ s1.smootherLag_ = s.smootherLag_ ∧
      ∀ k, List.lookup k s1.keyTimestampMap_ =
        if k = key then none else List.lookup k s.keyTimestampMap_ := by
  unfold eraseKeyTimestamp
  simp only [hold]
  rw [erase_eq_filter s.timestampKeyMap_ hord old key]
  refine ⟨_, rfl, List.Pairwise.sublist (List.filter_sublist _) hord, ?_, rfl,
    fun k => lookup_mapErase key k _⟩
  intro t k
  simp only
  rw [lookup_mapErase]
  by_cases hk : k = key
  · subst hk
    rw [if_pos rfl]
    simp only [reduceCtorEq, if_false]
    rw [List.countP_eq_zero]
    intro a ha hp
    have hat : a = (t, k) := by simpa using hp
    subst hat
    have hne : (t, k) ≠ (old, k) := by simpa using (List.mem_filter.1 ha).2
    have hl := (agree_mem s hagree t k).1 (List.mem_filter.1 ha).1
    rw [hold] at hl
    exact hne (by rw [Option.some.inj hl])
  · rw [if_neg hk, List.countP_filter, ← hagree t k]
    apply List.countP_congr
    intro x _
    have : x = (t, k) → x ≠ (old, key) := fun e1 e2 =>
      hk (Prod.mk.inj (e1.symm.trans e2)).2
    simpa using this

theorem eraseKeys_spec :
    ∀ (keys : List Key) (s : FixedLagSmoother), s.timestampKeyMap_.Ordered →
      s.IndexesAgree → keys.Nodup →
      (∀ k ∈ keys, ∃ t, List.lookup k s.keyTimestampMap_ = some t) →
      ∃ s1, eraseKeys s keys = .ok s1 ∧ s1.timestampKeyMap_.Ordered ∧ s1.IndexesAgree ∧
        s1.smootherLag_ = s.smootherLag_ ∧
        ∀ k, List.lookup k s1.keyTimestampMap_ =
          if k ∈ keys then none else List.lookup k s.keyTimestampMap_
  | [], s, hord, hagree, _, _ => ⟨s, rfl, hord, hagree, rfl, fun _ => by simp⟩
  | key :: rest, s, hord, hagree, hnd, htracked => by
    rw [List.nodup_cons] at hnd
    obtain ⟨old, hold⟩ := htracked key (List.mem_cons_self _ _)
    obtain ⟨s2, h2, hord2, hagree2, hlag2, hlook2⟩ :=
      eraseKeyTimestamp_spec s hord hagree key old hold
    obtain ⟨s1, h1, hord1, hagree1, hlag1, hlook1⟩ :=
      eraseKeys_spec rest s2 hord2 hagree2 hnd.2 (fun k hk => by
        obtain ⟨t, ht⟩ := htracked k (List.mem_cons_of_mem _ hk)
        have hne : k ≠ key := fun e => hnd.1 (e ▸ hk)
        exact ⟨t, by rw [hlook2 k, if_neg hne, ht]⟩)
    refine ⟨s1, by simp [eraseKeys, h2, h1], hord1, hagree1, hlag1.trans hlag2, ?_⟩
    intro k
    rw [hlook1 k, hlook2 k]
    by_cases hk : k = key
    · subst hk
      simp
    · by_cases hr : k ∈ rest
      · simp [hr]
      · simp [hk, hr]

end FixedLagSmoother

theorem agree_filter (s : FixedLagSmoother) (hagree : s.IndexesAgree) (k : Key) (t : Double)
    (hl : List.lookup k s.keyTimestampMap_ = some t) :
    s.timestampKeyMap_.filter (fun e => decide (e.2 = k)) = [(t, k)] := by
  have hall : ∀ e ∈ s.timestampKeyMap_, e.2 = k → e = (t, k) := by
    intro e he hk
    have h1 := (FixedLagSmoother.agree_mem s hagree e.1 e.2).1 he
    rw [hk, hl] at h1
    exact Prod.ext (Option.some.inj h1).symm hk
  have hlen : (s.timestampKeyMap_.filter (fun e => decide (e.2 = k))).length = 1 := by
    rw [← List.countP_eq_length_filter]
    have hc := hagree t k
    rw [if_pos hl] at hc
    rw [← hc]
    apply List.countP_congr
    intro x hx
    simp only [decide_eq_true_eq]
    exact ⟨hall x hx, fun e => by rw [e]⟩
  have hrep := List.eq_replicate_of_mem (a := (t, k))
    (l := s.timestampKeyMap_.filter (fun e => decide (e.2 = k)))
    (fun e he => hall e (List.mem_filter.1 he).1 (by simpa using (List.mem_filter.1 he).2))
  rw [hrep, hlen]
  rfl

/-- C27: a smoother without keys has ordered and agreeing indexes.  For a smoother whose
multimap is in timestamp order and whose indexes agree, `updateKeyTimestampMap` returns for
every argument and `eraseKeyTimestampMap` returns for every set of keys that the map holds, and
both leave a smoother whose multimap is in timestamp order and whose indexes agree; and for
every key that the map holds, the search loop of `updateKeyTimestampMap` stops at the entry of
the key with its old timestamp, at a position between `lower_bound` and `upper_bound` of that
timestamp. -/
theorem IndexesAgree_preserved (s : FixedLagSmoother) (hord : s.timestampKeyMap_.Ordered)
    (hagree : s.IndexesAgree) :
    (∀ lag, (FixedLagSmoother.mk lag [] []).IndexesAgree ∧
      (FixedLagSmoother.mk lag [] []).timestampKeyMap_.Ordered) ∧
    (∀ timestamps, ∃ s1, s.updateKeyTimestampMap timestamps = .ok s1 ∧
      s1.timestampKeyMap_.Ordered ∧ s1.IndexesAgree) ∧
    (∀ keys : Finset Key, (∀ k ∈ keys, ∃ t, List.lookup k s.keyTimestampMap_ = some t) →
      ∃ s1, s.eraseKeyTimestampMap keys = .ok s1 ∧ s1.timestampKeyMap_.Ordered ∧
        s1.IndexesAgree) ∧
    (∀ key old, List.lookup key s.keyTimestampMap_ = some old →
      ∃ timeIter,
        FixedLagSmoother.searchLoop key
          (s.timestampKeyMap_.drop (s.timestampKeyMap_.lower_bound old))
          (s.timestampKeyMap_.lower_bound old) = .ok timeIter ∧
        s.timestampKeyMap_.lower_bound old ≤ timeIter ∧
        timeIter < s.timestampKeyMap_.upper_bound old ∧
        s.timestampKeyMap_[timeIter]? = some (old, key)) := by
  refine ⟨?_, ?_, ?_, ?_⟩
  · intro lag
    constructor
    · intro t k
      simp
    · exact List.Pairwise.nil
  · intro timestamps
    obtain ⟨s1, h1, h2, h3, _⟩ :=
      FixedLagSmoother.updateKeyTimestampMap_spec timestamps s hord hagree
    exact ⟨s1, h1, h2, h3⟩
  · intro keys htracked
    obtain ⟨s1, h1, h2, h3, _⟩ :=
      FixedLagSmoother.eraseKeys_spec (keys.sort (fun a b => a ≤ b)) s hord hagree
        (Finset.sort_nodup _ _)
        (fun k hk => htracked k ((Finset.mem_sort _).1 hk))
    exact ⟨s1, h1, h2, h3⟩
  · intro key old hold
    exact FixedLagSmoother.search_in_range s hord hagree key old hold

/-- Witness of C27: the example smoother, with `x1` and `x2` stamped `0` and `x3` stamped
`1`. -/
theorem IndexesAgree_preserved_witness :
    (∀ lag, (FixedLagSmoother.mk lag [] []).IndexesAgree ∧
      (FixedLagSmoother.mk lag [] []).timestampKeyMap_.Ordered) ∧
    (∀ timestamps, ∃ s1, exampleSmoother.updateKeyTimestampMap timestamps = .ok s1 ∧
      s1.timestampKeyMap_.Ordered ∧ s1.IndexesAgree) ∧
    (∀ keys : Finset Key,
      (∀ k ∈ keys, ∃ t, List.lookup k exampleSmoother.keyTimestampMap_ = some t) →
      ∃ s1, exampleSmoother.eraseKeyTimestampMap keys = .ok s1 ∧
        s1.timestampKeyMap_.Ordered ∧ s1.IndexesAgree) ∧
    (∀ key old, List.lookup key exampleSmoother.keyTimestampMap_ = some old →
      ∃ timeIter,
        FixedLagSmoother.searchLoop key
          (exampleSmoother.timestampKeyMap_.drop
            (exampleSmoother.timestampKeyMap_.lower_bound old))
          (exampleSmoother.timestampKeyMap_.lower_bound old) = .ok timeIter ∧
        exampleSmoother.timestampKeyMap_.lower_bound old ≤ timeIter ∧
        timeIter < exampleSmoother.timestampKeyMap_.upper_bound old ∧
        exampleSmoother.timestampKeyMap_[timeIter]? = some (old, key)) :=
  IndexesAgree_preserved exampleSmoother
    (by simp [TimestampKeyMap.Ordered, exampleSmoother, Double.fin_le_fin])
    (by
      intro t k
      simp only [exampleSmoother, List.countP_cons, List.countP_nil, List.lookup_cons,
        List.lookup_nil, Prod.mk.injEq, decide_eq_true_eq]
      by_cases h1 : k = 1
      · subst h1
        by_cases ht : Double.fin 0 = t <;> simp [ht]
      · by_cases h2 : k = 2
        · subst h2
          by_cases ht : Double.fin 0 = t <;> simp [ht]
        · by_cases h3 : k = 3
          · subst h3
            by_cases ht : Double.fin 1 = t <;> simp [ht]
          · have e1 : ¬ 1 = k := fun e => h1 e.symm
            have e2 : ¬ 2 = k := fun e => h2 e.symm
            have e3 : ¬ 3 = k := fun e => h3 e.symm
            have b1 : (k == 1) = false := by simpa using h1
            have b2 : (k == 2) = false := by simpa using h2
            have b3 : (k == 3) = false := by simpa using h3
            simp [e1, e2, e3, b1, b2, b3])

/-- C28: for a smoother whose multimap is in timestamp order and whose indexes agree,
`findKeysBefore(t)` holds the keys that the map sends to a timestamp below `t`,
`findKeysAfter(t)` those that it sends to a timestamp above `t`; a key stamped `t` is in
neither, and the two sets are disjoint. -/
theorem findKeys_spec (s : FixedLagSmoother) (hord : s.timestampKeyMap_.Ordered)
    (hagree : s.IndexesAgree) (timestamp : Double) :
    (∀ k, k ∈ s.findKeysBefore timestamp ↔
      ∃ t, List.lookup k s.keyTimestampMap_ = some t ∧ t < timestamp) ∧
    (∀ k, k ∈ s.findKeysAfter timestamp ↔
      ∃ t, List.lookup k s.keyTimestampMap_ = some t ∧ timestamp < t) ∧
    (∀ k, List.lookup k s.keyTimestampMap_ = some timestamp →
      k ∉ s.findKeysBefore timestamp ∧ k ∉ s.findKeysAfter timestamp) ∧
    Disjoint (s.findKeysBefore timestamp) (s.findKeysAfter timestamp) := by
  have hbefore : ∀ k, k ∈ s.findKeysBefore timestamp ↔
      ∃ t, List.lookup k s.keyTimestampMap_ = some t ∧ t < timestamp := by
    intro k
    unfold FixedLagSmoother.findKeysBefore TimestampKeyMap.lower_bound
    rw [take_takeWhile_length, List.mem_toFinset, List.mem_map]
    constructor
    · rintro ⟨e, he, rfl⟩
      obtain ⟨hm, hlt⟩ := (mem_takeWhile_below timestamp e _ hord).1 he
      exact ⟨e.1, (FixedLagSmoother.agree_mem s hagree e.1 e.2).1 hm, hlt⟩
    · rintro ⟨t, hl, hlt⟩
      exact ⟨(t, k), (mem_takeWhile_below timestamp (t, k) _ hord).2
        ⟨(FixedLagSmoother.agree_mem s hagree t k).2 hl, hlt⟩, rfl⟩
  have hafter : ∀ k, k ∈ s.findKeysAfter timestamp ↔
      ∃ t, List.lookup k s.keyTimestampMap_ = some t ∧ timestamp < t := by
    intro k
    unfold FixedLagSmoother.findKeysAfter TimestampKeyMap.upper_bound
    rw [drop_takeWhile_length, List.mem_toFinset, List.mem_map]
    constructor
    · rintro ⟨e, he, rfl⟩
      obtain ⟨hm, hlt⟩ := (mem_dropWhile_upto timestamp e _ hord).1 he
      exact ⟨e.1, (FixedLagSmoother.agree_mem s hagree e.1 e.2).1 hm, hlt⟩
    · rintro ⟨t, hl, hlt⟩
      exact ⟨(t, k), (mem_dropWhile_upto timestamp (t, k) _ hord).2
        ⟨(FixedLagSmoother.agree_mem s hagree t k).2 hl, hlt⟩, rfl⟩
  refine ⟨hbefore, hafter, ?_, ?_⟩
  · intro k hk
    constructor
    · rw [hbefore]
      rintro ⟨t, hl, hlt⟩
      rw [hk] at hl
      rw [Option.some.inj hl] at hlt
      exact lt_irrefl _ hlt
    · rw [hafter]
      rintro ⟨t, hl, hlt⟩
      rw [hk] at hl
      rw [Option.some.inj hl] at hlt
      exact lt_irrefl _ hlt
  · rw [Finset.disjoint_left]
    intro k hb ha
    obtain ⟨t1, hl1, hlt1⟩ := (hbefore k).1 hb
    obtain ⟨t2, hl2, hlt2⟩ := (hafter k).1 ha
    rw [hl1] at hl2
    rw [Option.some.inj hl2] at hlt1
    exact lt_asymm hlt1 hlt2

/-- Witness of C28: the example smoother and the timestamp `1`: `x1` and `x2` are before it,
no key is after it, and `x3`, stamped `1`, is in neither set. -/
theorem findKeys_spec_witness :
    ((∀ k, k ∈ exampleSmoother.findKeysBefore (.fin 1) ↔
      ∃ t, List.lookup k exampleSmoother.keyTimestampMap_ = some t ∧ t < .fin 1) ∧
    (∀ k, k ∈ exampleSmoother.findKeysAfter (.fin 1) ↔
      ∃ t, List.lookup k exampleSmoother.keyTimestampMap_ = some t ∧ .fin 1 < t) ∧
    (∀ k, List.lookup k exampleSmoother.keyTimestampMap_ = some (.fin 1) →
      k ∉ exampleSmoother.findKeysBefore (.fin 1) ∧
        k ∉ exampleSmoother.findKeysAfter (.fin 1)) ∧
    Disjoint (exampleSmoother.findKeysBefore (.fin 1))
      (exampleSmoother.findKeysAfter (.fin 1))) ∧
    exampleSmoother.findKeysBefore (.fin 1) = {1, 2} ∧
    exampleSmoother.findKeysAfter (.fin 1) = ∅ :=
  ⟨findKeys_spec exampleSmoother
    (by simp [TimestampKeyMap.Ordered, exampleSmoother, Double.fin_le_fin])
    (by
      intro t k
      simp only [exampleSmoother, List.countP_cons, List.countP_nil, List.lookup_cons,
        List.lookup_nil, Prod.mk.injEq, decide_eq_true_eq]
      by_cases h1 : k = 1
      · subst h1
        by_cases ht : Double.fin 0 = t <;> simp [ht]
      · by_cases h2 : k = 2
        · subst h2
          by_cases ht : Double.fin 0 = t <;> simp [ht]
        · by_cases h3 : k = 3
          · subst h3
            by_cases ht : Double.fin 1 = t <;> simp [ht]
          · have e1 : ¬ 1 = k := fun e => h1 e.symm
            have e2 : ¬ 2 = k := fun e => h2 e.symm
            have e3 : ¬ 3 = k := fun e => h3 e.symm
            have b1 : (k == 1) = false := by simpa using h1
            have b2 : (k == 2) = false := by simpa using h2
            have b3 : (k == 3) = false := by simpa using h3
            simp [e1, e2, e3, b1, b2, b3])
    (.fin 1),
    by
      simp [FixedLagSmoother.findKeysBefore, TimestampKeyMap.lower_bound, exampleSmoother,
        List.takeWhile_cons, Double.fin_lt_fin],
    by
      simp [FixedLagSmoother.findKeysAfter, TimestampKeyMap.upper_bound, exampleSmoother,
        List.takeWhile_cons, Double.fin_le_fin]⟩

/-- C29: for a smoother whose multimap is in timestamp order and whose indexes agree, and a
map of timestamps, `updateKeyTimestampMap` returns; afterwards the map sends every key of the
argument to its timestamp there and every other key to the timestamp it had, and the entries
of the multimap for a key of the argument are one entry, at the new timestamp. -/
theorem updateKeyTimestampMap_overrides (s : FixedLagSmoother)
    (hord : s.timestampKeyMap_.Ordered) (hagree : s.IndexesAgree)
    (timestamps : KeyTimestampMap) (hmap : (timestamps.map Prod.fst).Nodup) :
    ∃ s1, s.updateKeyTimestampMap timestamps = .ok s1 ∧
      (∀ k, List.lookup k s1.keyTimestampMap_ =
        match List.lookup k timestamps with
        | some t => some t
        | none => List.lookup k s.keyTimestampMap_) ∧
      ∀ k t, List.lookup k timestamps = some t →
        s1.timestampKeyMap_.filter (fun e => decide (e.2 = k)) = [(t, k)] := by
  obtain ⟨s1, h1, _, h3, _, h5⟩ :=
    FixedLagSmoother.updateKeyTimestampMap_spec timestamps s hord hagree
  refine ⟨s1, h1, h5 hmap, ?_⟩
  intro k t hk
  apply agree_filter s1 h3 k t
  rw [h5 hmap k, hk]

/-- Witness of C29: in the example smoother `x1` is stamped again, with `2`, and `x4` is new,
stamped `0`. -/
theorem updateKeyTimestampMap_overrides_witness :
    (∃ s1, exampleSmoother.updateKeyTimestampMap [(1, .fin 2), (4, .fin 0)] = .ok s1 ∧
      (∀ k, List.lookup k s1.keyTimestampMap_ =
        match List.lookup k [(1, Double.fin 2), (4, Double.fin 0)] with
        | some t => some t
        | none => List.lookup k exampleSmoother.keyTimestampMap_) ∧
      ∀ k t, List.lookup k [(1, Double.fin 2), (4, Double.fin 0)] = some t →
        s1.timestampKeyMap_.filter (fun e => decide (e.2 = k)) = [(t, k)]) ∧
    exampleSmoother.updateKeyTimestampMap [(1, .fin 2), (4, .fin 0)] =
      .ok ⟨.fin 1, [(1, .fin 2), (2, .fin 0), (3, .fin 1), (4, .fin 0)],
        [(.fin 0, 2), (.fin 0, 4), (.fin 1, 3), (.fin 2, 1)]⟩ :=
  ⟨updateKeyTimestampMap_overrides exampleSmoother
    (by simp [TimestampKeyMap.Ordered, exampleSmoother, Double.fin_le_fin])
    (by
      intro t k
      simp only [exampleSmoother, List.countP_cons, List.countP_nil, List.lookup_cons,
        List.lookup_nil, Prod.mk.injEq, decide_eq_true_eq]
      by_cases h1 : k = 1
      · subst h1
        by_cases ht : Double.fin 0 = t <;> simp [ht]
      · by_cases h2 : k = 2
        · subst h2
          by_cases ht : Double.fin 0 = t <;> simp [ht]
        · by_cases h3 : k = 3
          · subst h3
            by_cases ht : Double.fin 1 = t <;> simp [ht]
          · have e1 : ¬ 1 = k := fun e => h1 e.symm
            have e2 : ¬ 2 = k := fun e => h2 e.symm
            have e3 : ¬ 3 = k := fun e => h3 e.symm
            have b1 : (k == 1) = false := by simpa using h1
            have b2 : (k == 2) = false := by simpa using h2
            have b3 : (k == 3) = false := by simpa using h3
            simp [e1, e2, e3, b1, b2, b3])
    [(1, .fin 2), (4, .fin 0)] (by decide),
    by
      simp [FixedLagSmoother.updateKeyTimestampMap, FixedLagSmoother.updateKeyTimestamp,
        exampleSmoother, TimestampKeyMap.lower_bound, FixedLagSmoother.searchLoop,
        TimestampKeyMap.insert, mapAssign, mapInsert, List.takeWhile_cons, List.lookup_cons,
        Double.fin_lt_fin]⟩

/-- C30 fails in the code: whatever the rounding of the double format, as long as it leaves
zero as it is, a smoother without entries equals the example smoother, whose multimap has three
entries, and the comparison the other way round reads past the end of the empty multimap. -/
theorem equals_not_symmetric (nearest : ℚ → Double) (hzero : nearest 0 = .fin 0) :
    FixedLagSmoother.equals nearest emptySmoother exampleSmoother (.fin 1) = .ok true ∧
      FixedLagSmoother.equals nearest exampleSmoother emptySmoother (.fin 1) =
        .error .end_dereferenced ∧
      emptySmoother.timestampKeyMap_.length = 0 ∧
      exampleSmoother.timestampKeyMap_.length = 3 := by
  refine ⟨?_, ?_, rfl, rfl⟩
  · simp [FixedLagSmoother.equals, emptySmoother, exampleSmoother,
      FixedLagSmoother.fabsLess, FixedLagSmoother.stdEqual, hzero, Double.abs,
      Double.fin_lt_fin]
  · simp [FixedLagSmoother.equals, emptySmoother, exampleSmoother,
      FixedLagSmoother.fabsLess, FixedLagSmoother.stdEqual, hzero, Double.abs,
      Double.fin_lt_fin]

/-- Witness of C30: the two calls with a rounding that leaves every rational as it is, which
is the rounding of the differences that are doubles. -/
theorem equals_not_symmetric_witness :
    FixedLagSmoother.equals Double.fin emptySmoother exampleSmoother (.fin 1) = .ok true ∧
      FixedLagSmoother.equals Double.fin exampleSmoother emptySmoother (.fin 1) =
        .error .end_dereferenced ∧
      emptySmoother.timestampKeyMap_.length = 0 ∧
      exampleSmoother.timestampKeyMap_.length = 3 :=
  equals_not_symmetric Double.fin rfl

/-! ### Fixed-lag smoother: the current timestamp -/

theorem le_getLast (m : TimestampKeyMap) (hord : m.Ordered) (hne : m ≠ []) :
    ∀ e ∈ m, e.1 ≤ (m.getLast hne).1 := by
  intro e he
  have hsplit := List.dropLast_append_getLast hne
  rw [← hsplit] at he hord
  unfold TimestampKeyMap.Ordered at hord
  rw [List.pairwise_append] at hord
  rcases List.mem_append.1 he with h | h
  · exact hord.2.2 e h _ (List.mem_singleton_self _)
  · rw [List.mem_singleton.1 h]

/-- C31: for a smoother whose multimap is in timestamp order and whose indexes agree: when the
map holds a key, `getCurrentTimestamp` returns the timestamp of a key of the map and no key of
the map has a later one; when the map holds no key it returns minus the largest finite double;
in both cases `findKeysAfter` of the returned timestamp is empty. -/
theorem getCurrentTimestamp_spec (s : FixedLagSmoother) (hord : s.timestampKeyMap_.Ordered)
    (hagree : s.IndexesAgree) :
    ((∃ k t, List.lookup k s.keyTimestampMap_ = some t) →
      (∃ k, List.lookup k s.keyTimestampMap_ = some s.getCurrentTimestamp) ∧
        ∀ k t, List.lookup k s.keyTimestampMap_ = some t → t ≤ s.getCurrentTimestamp) ∧
    ((∀ k, List.lookup k s.keyTimestampMap_ = none) →
      s.getCurrentTimestamp = .fin (-numeric_limits_max)) ∧
    s.findKeysAfter s.getCurrentTimestamp = ∅ := by
  by_cases hlen : s.timestampKeyMap_.length > 0
  · have hne : s.timestampKeyMap_ ≠ [] := List.ne_nil_of_length_pos hlen
    have hcur : s.getCurrentTimestamp = (s.timestampKeyMap_.getLast hne).1 := by
      unfold FixedLagSmoother.getCurrentTimestamp
      rw [dif_pos hlen]
    have hlast := List.getLast_mem hne
    have hmax := le_getLast s.timestampKeyMap_ hord hne
    refine ⟨fun _ => ⟨⟨(s.timestampKeyMap_.getLast hne).2, ?_⟩, ?_⟩, ?_, ?_⟩
    · rw [hcur]
      exact (FixedLagSmoother.agree_mem s hagree _ _).1 hlast
    · intro k t hk
      rw [hcur]
      exact hmax (t, k) ((FixedLagSmoother.agree_mem s hagree t k).2 hk)
    · intro hnone
      have hl := (FixedLagSmoother.agree_mem s hagree _ _).1 hlast
      rw [hnone] at hl
      cases hl
    · rw [hcur]
      unfold FixedLagSmoother.findKeysAfter TimestampKeyMap.upper_bound
      rw [drop_takeWhile_length]
      apply Finset.eq_empty_of_forall_not_mem
      intro k hk
      rw [List.mem_toFinset, List.mem_map] at hk
      obtain ⟨e, he, _⟩ := hk
      obtain ⟨hm, hlt⟩ := (mem_dropWhile_upto _ e _ hord).1 he
      exact absurd (hmax e hm) (not_le.2 hlt)
  · have hnil : s.timestampKeyMap_ = [] := by
      cases hm : s.timestampKeyMap_ with
      | nil => rfl
      | cons a rest =>
        rw [hm] at hlen
        simp at hlen
    refine ⟨?_, fun _ => ?_, ?_⟩
    · rintro ⟨k, t, hk⟩
      have := (FixedLagSmoother.agree_mem s hagree t k).2 hk
      rw [hnil] at this
      simp at this
    · unfold FixedLagSmoother.getCurrentTimestamp
      rw [dif_neg hlen]
    · unfold FixedLagSmoother.findKeysAfter
      rw [hnil]
      rfl

/-- Witness of C31: the example smoother, whose latest key `x3` is stamped `1`. -/
theorem getCurrentTimestamp_spec_witness :
    (((∃ k t, List.lookup k exampleSmoother.keyTimestampMap_ = some t) →
      (∃ k, List.lookup k exampleSmoother.keyTimestampMap_ =
          some exampleSmoother.getCurrentTimestamp) ∧
        ∀ k t, List.lookup k exampleSmoother.keyTimestampMap_ = some t →
          t ≤ exampleSmoother.getCurrentTimestamp) ∧
    ((∀ k, List.lookup k exampleSmoother.keyTimestampMap_ = none) →
      exampleSmoother.getCurrentTimestamp = .fin (-numeric_limits_max)) ∧
    exampleSmoother.findKeysAfter exampleSmoother.getCurrentTimestamp = ∅) ∧
    exampleSmoother.getCurrentTimestamp = .fin 1 ∧
    emptySmoother.getCurrentTimestamp = .fin (-numeric_limits_max) :=
  ⟨getCurrentTimestamp_spec exampleSmoother
    (by simp [TimestampKeyMap.Ordered, exampleSmoother, Double.fin_le_fin])
    (by
      intro t k
      simp only [exampleSmoother, List.countP_cons, List.countP_nil, List.lookup_cons,
        List.lookup_nil, Prod.mk.injEq, decide_eq_true_eq]
      by_cases h1 : k = 1
      · subst h1
        by_cases ht : Double.fin 0 = t <;> simp [ht]
      · by_cases h2 : k = 2
        · subst h2
          by_cases ht : Double.fin 0 = t <;> simp [ht]
        · by_cases h3 : k = 3
          · subst h3
            by_cases ht : Double.fin 1 = t <;> simp [ht]
          · have e1 : ¬ 1 = k := fun e => h1 e.symm
            have e2 : ¬ 2 = k := fun e => h2 e.symm
            have e3 : ¬ 3 = k := fun e => h3 e.symm
            have b1 : (k == 1) = false := by simpa using h1
            have b2 : (k == 2) = false := by simpa using h2
            have b3 : (k == 3) = false := by simpa using h3
            simp [e1, e2, e3, b1, b2, b3]),
    rfl, rfl⟩

/-! ### Typedef instantiations of the wrap module -/

theorem size_t_inc_dec (i : Nat) (h : i < 2 ^ 64) : size_t_inc (size_t_dec i) = i := by
  unfold size_t_inc size_t_dec
  norm_num at h ⊢
  omega

theorem size_t_inc_lt (i : Nat) (h : i + 1 < 2 ^ 64) : size_t_inc i = i + 1 := by
  unfold size_t_inc
  exact Nat.mod_eq_of_lt h

theorem pushExpanded_spec {Class Inst : Type}
    (findAndExpand : Inst → List Class → Except Error Class) (classes : List Class) :
    ∀ (instantiations : List Inst) (expansions expandedClasses : List Class),
      List.Forall₂ (fun inst c => findAndExpand inst classes = .ok c) instantiations
        expansions →
      pushExpanded findAndExpand classes instantiations expandedClasses =
        .ok (expandedClasses ++ expansions)
  | [], _, expandedClasses, h => by
    cases h
    simp [pushExpanded]
  | inst :: rest, _, expandedClasses, h => by
    cases h with
    | cons hc hrest =>
      rw [pushExpanded, hc]
      simp only
      rw [pushExpanded_spec findAndExpand classes rest _ _ hrest, List.append_assoc]
      rfl

theorem pushExpanded_error {Class Inst : Type}
    (findAndExpand : Inst → List Class → Except Error Class) (classes : List Class) :
    ∀ (before : List Inst) (inst : Inst) (after : List Inst) (expansions : List Class)
      (expandedClasses : List Class) (e : Error),
      List.Forall₂ (fun inst c => findAndExpand inst classes = .ok c) before expansions →
      findAndExpand inst classes = .error e →
      pushExpanded findAndExpand classes (before ++ inst :: after) expandedClasses = .error e
  | [], inst, after, _, expandedClasses, e, h, he => by
    cases h
    simp [pushExpanded, he]
  | b :: rest, inst, after, _, expandedClasses, e, h, he => by
    cases h with
    | cons hc hrest =>
      rw [List.cons_append, pushExpanded, hc]
      exact pushExpanded_error findAndExpand classes rest inst after _ _ e hrest he

theorem removeTemplates_spec {Class : Type} (templateArgs : Class → List String) :
    ∀ (suffix seen : List Class) (fuel : Nat), (seen ++ suffix).length < 2 ^ 64 →
      suffix.length < fuel →
      removeTemplates templateArgs fuel (seen ++ suffix) seen.length =
        some (seen ++ suffix.filter (fun c => (templateArgs c).isEmpty))
  | [], seen, fuel, _, hfuel => by
    cases fuel with
    | zero => simp at hfuel
    | succ fuel => simp [removeTemplates]
  | c :: rest, seen, fuel, hsize, hfuel => by
    cases fuel with
    | zero => simp at hfuel
    | succ fuel =>
      have hlt : seen.length < (seen ++ c :: rest).length := by simp
      have hget : (seen ++ c :: rest)[seen.length] = c := by
        rw [List.getElem_append_right (Nat.le_refl _)]
        simp
      rw [removeTemplates, dif_pos hlt, hget]
      simp only [List.length_append, List.length_cons] at hsize hfuel
      by_cases hc : (templateArgs c).isEmpty = true
      · have hstep : size_t_inc seen.length = (seen ++ [c]).length := by
          rw [size_t_inc_lt _ (by omega)]
          simp
        have hlist : seen ++ c :: rest = (seen ++ [c]) ++ rest := by simp
        have hf : (c :: rest).filter (fun c => (templateArgs c).isEmpty) =
            c :: rest.filter (fun c => (templateArgs c).isEmpty) := by
          simp [List.filter_cons, hc]
        rw [if_neg (by simp [hc]), hstep, hlist,
          removeTemplates_spec templateArgs rest (seen ++ [c]) fuel
            (by simp only [List.length_append, List.length_cons, List.length_nil]; omega)
            (by omega), hf]
        simp
      · have herase : (seen ++ c :: rest).eraseIdx seen.length = seen ++ rest := by
          rw [List.eraseIdx_append_of_length_le (Nat.le_refl _)]
          simp
        have hf : (c :: rest).filter (fun c => (templateArgs c).isEmpty) =
            rest.filter (fun c => (templateArgs c).isEmpty) := by
          simp [List.filter_cons, hc]
        rw [if_pos (by simpa using hc), size_t_inc_dec _ (by omega), herase,
          removeTemplates_spec templateArgs rest seen fuel
            (by simp only [List.length_append]; omega) (by omega), hf]

/-- C32: when every instantiation expands, the vector holds fewer than `2 ^ 64` classes and the
fuel exceeds their number, `ExpandTypedefInstantiations` returns the classes followed by the
expansions, in this order, without those that have template arguments; no returned class has
template arguments, and the erase loop from any position on, position `0` included, leaves the
classes before it and the classes without template arguments behind it.  When an instantiation
fails to expand, the function fails with the error of the first one that does. -/
theorem ExpandTypedefInstantiations_filter {Class Inst : Type}
    (templateArgs : Class → List String)
    (findAndExpand : Inst → List Class → Except Error Class) (fuel : Nat)
    (classes : List Class) (instantiations : List Inst) (expansions : List Class)
    (hexpand : List.Forall₂ (fun inst c => findAndExpand inst classes = .ok c) instantiations
      expansions)
    (hsize : classes.length + instantiations.length < 2 ^ 64)
    (hfuel : classes.length + instantiations.length < fuel) :
    ExpandTypedefInstantiations templateArgs findAndExpand fuel classes instantiations =
        .ok (some ((classes ++ expansions).filter (fun c => (templateArgs c).isEmpty))) ∧
      (∀ c ∈ (classes ++ expansions).filter (fun c => (templateArgs c).isEmpty),
        templateArgs c = []) ∧
      (∀ seen suffix : List Class, seen ++ suffix = classes ++ expansions →
        removeTemplates templateArgs fuel (seen ++ suffix) seen.length =
          some (seen ++ suffix.filter (fun c => (templateArgs c).isEmpty))) ∧
      (∀ (inst : Inst) (after : List Inst) (e : Error),
        findAndExpand inst classes = .error e →
        ExpandTypedefInstantiations templateArgs findAndExpand fuel classes
          (instantiations ++ inst :: after) = .error e) := by
  have hlen : expansions.length = instantiations.length := hexpand.length_eq.symm
  have hloop : ∀ seen suffix : List Class, seen ++ suffix = classes ++ expansions →
      removeTemplates templateArgs fuel (seen ++ suffix) seen.length =
        some (seen ++ suffix.filter (fun c => (templateArgs c).isEmpty)) := by
    intro seen suffix hsplit
    have htotal : (seen ++ suffix).length = classes.length + instantiations.length := by
      rw [hsplit, List.length_append, hlen]
    apply removeTemplates_spec templateArgs suffix seen fuel (by omega)
    rw [List.length_append] at htotal
    omega
  refine ⟨?_, ?_, hloop, ?_⟩
  · unfold ExpandTypedefInstantiations
    rw [pushExpanded_spec findAndExpand classes instantiations expansions classes hexpand]
    simp only
    have h0 := hloop [] (classes ++ expansions) rfl
    simp only [List.nil_append, List.length_nil] at h0
    rw [h0]
  · intro c hc
    have := (List.mem_filter.1 hc).2
    simpa using this
  · intro inst after e he
    unfold ExpandTypedefInstantiations
    rw [pushExpanded_error findAndExpand classes instantiations inst after expansions classes e
      hexpand he]

/-- Witness of C32: three classes, the first and the last with a template argument, and one
instantiation: the class at position `0` is erased, and the class behind it is kept. -/
theorem ExpandTypedefInstantiations_filter_witness :
    (ExpandTypedefInstantiations Prod.snd exampleExpand 5 exampleClasses ["PairInt"] =
        .ok (some ((exampleClasses ++ [("PairInt", [])]).filter
          (fun c : String × List String => (Prod.snd c).isEmpty))) ∧
      (∀ c ∈ (exampleClasses ++ [("PairInt", [])]).filter (fun c : String × List String => (Prod.snd c).isEmpty),
        Prod.snd c = []) ∧
      (∀ seen suffix : List (String × List String),
        seen ++ suffix = exampleClasses ++ [("PairInt", [])] →
        removeTemplates Prod.snd 5 (seen ++ suffix) seen.length =
          some (seen ++ suffix.filter (fun c : String × List String => (Prod.snd c).isEmpty))) ∧
      (∀ (inst : String) (after : List String) (e : Error),
        exampleExpand inst exampleClasses = .error e →
        ExpandTypedefInstantiations Prod.snd exampleExpand 5 exampleClasses
          (["PairInt"] ++ inst :: after) = .error e)) ∧
    ExpandTypedefInstantiations Prod.snd exampleExpand 5 exampleClasses ["PairInt"] =
      .ok (some [("Point", []), ("PairInt", [])]) :=
  ⟨ExpandTypedefInstantiations_filter Prod.snd exampleExpand 5 exampleClasses ["PairInt"]
    [("PairInt", [])] (List.Forall₂.cons rfl List.Forall₂.nil) (by decide) (by decide),
    rfl⟩

end gtsam
